import Mathlib

/-!
# EnginePlus memory cache: a shallow embedding

Embedding of `Source/ThirdParty/MemoryCache` (`BlockCache.h`, `MemoryPage.h`,
`MemoryMgr.h`, `MemoryMgr.cpp`), single-threaded build with `_STATISTICS_`,
of the bucketed path of the build with `_MULTITHREADED_` as interleaved
callers (`Threads`), and of `Source/Urho3D/Math/Circle.h`, `Circle.cpp`
(namespace `Urho3D`).

Conventions of the embedding

* `size_t` values are natural numbers; `unsigned` fields are natural numbers
  reduced modulo `2 ^ 32` wherever the source assigns to them a value that
  may not fit.
* A pointer is either `nullptr` or an address inside the `_data` arena of a
  page object.  Page objects are numbered in the order in which
  `::new CMemoryPage()` constructs them, so arenas of different page objects
  never share an address.
* A free block stores its `SMemBlock::pNext` in its own first word.  The
  contents of those words are the `data` component of the manager: the free
  lists are genuine pointer chains through memory, not abstract lists.
* An operation whose behaviour is undefined in C++ (reading a table outside
  its bounds, writing through `nullptr`, `free` of an address that no call
  of `malloc` returned) yields `none`.
* The general-purpose allocator behind the large-block path (`malloc`,
  `free` of the C library) is not code of the repository.  `Allocate`
  returns the call `malloc(uBlockSize)` as a value (`AllocResult.malloc`);
  `AllocateWith` and `FreeWith` make the calls on an allocator given as a
  parameter (`Fallback`), whose blocks are pointers of their own kind
  (`VoidPtr.block`).
* In the multi-threaded build the statements of the callers are interleaved
  one at a time (every access to the free chains and the pages is made with
  `_hndMutex` held, so the program has no data race and its executions are
  the interleavings).  `std::mutex` is taken by its contract: the lock
  statement runs only when no caller owns the mutex, and the return of the
  call releases it.  The call of `AllocateFromPage`, made with the mutex
  held, is one statement.
* `RunLog` and `InitLog` are runs with a record added (of the blocks the
  pages handed out, each with the number of bytes from the block to the
  cursor of its page after the call; of the writes to the two tables);
  dropping the record gives the run (`RunLog.to_run`,
  `InitialiseCacheLog_vars`).
* A `float` is a NaN, an infinity or a finite value, with the comparisons of
  IEEE 754; its rounded arithmetic, `M_INFINITY` and the class `Vector2` are
  parameters (`Arith`).
-/

namespace EnginePlus

set_option maxRecDepth 100000

/-! ## Constants (`MemoryMgr.h`, `MemoryPage.h`) -/

/-- `#define MEM_CACHE_COUNT 24`. -/
def MEM_CACHE_COUNT : Nat := 24

/-- `#define MIN_BLOCK_SIZE_STEP 8`. -/
def MIN_BLOCK_SIZE_STEP : Nat := 8

/-- `#define MAX_BLOCK_SIZE 1024`. -/
def MAX_BLOCK_SIZE : Nat := 1024

/-- `#define MEM_ALLOCATOR_INDEXES (MAX_BLOCK_SIZE / MIN_BLOCK_SIZE_STEP)`. -/
def MEM_ALLOCATOR_INDEXES : Nat := MAX_BLOCK_SIZE / MIN_BLOCK_SIZE_STEP

/-- `#define MEMORY_PAGE_SIZE (1024 * 16)`. -/
def MEMORY_PAGE_SIZE : Nat := 1024 * 16

/-- Number of values of the C++ type `unsigned` (32 bits). -/
def UNSIGNED_RANGE : Nat := 2 ^ 32

/-! ## Pointers and block memory -/

/-- A `void*` / `SMemBlock*` value: `nullptr`, or the address at byte offset
`off` of the `_data` arena of page object number `page`. -/
inductive Ptr where
  | null : Ptr
  | addr (page : Nat) (off : Nat) : Ptr
deriving DecidableEq, Repr

/-- Block memory: `h page off` is the `SMemBlock::pNext` value held in the
word at offset `off` of the arena of page `page`. -/
abbrev Heap := Nat → Nat → Ptr

/-- The assignment `pBlock->pNext = v` for `pBlock = Ptr.addr page off`. -/
def Heap.store (h : Heap) (page off : Nat) (v : Ptr) : Heap :=
  fun p o => if p = page ∧ o = off then v else h p o

/-- An array assignment `xs[i] = v`; outside the bounds of the array the
behaviour is undefined. -/
def arrWrite {α : Type} (xs : List α) (i : Nat) (v : α) : Option (List α) :=
  if i < xs.length then some (xs.set i v) else none

/-- A counted loop `for (k = 0; k < n; k++) body` over loop state `σ`,
stopping as soon as the body is undefined. -/
def loopM {σ : Type} (n : Nat) (body : σ → Option σ) (st : σ) : Option σ :=
  match n with
  | 0 => some st
  | k + 1 => (body st).bind (loopM k body)

/-! ## `CBlockCache` (`BlockCache.h`) -/

/-- The fields of `CBlockCache`: `_pCacheBlock` (head of the chain of free
blocks) and `_uBlockSize`. -/
structure CBlockCache where
  pCacheBlock : Ptr
  uBlockSize : Nat
deriving DecidableEq, Repr

/-- The default constructor `CBlockCache() = default`: `_pCacheBlock` gets its
default member initialiser `nullptr`; `_uBlockSize` is left indeterminate,
here the value `uJunk`. -/
def CBlockCache.ctor (uJunk : Nat) : CBlockCache :=
  { pCacheBlock := Ptr.null, uBlockSize := uJunk }

/-- The member `void Initialise(size_t uDataSize) { _uBlockSize = uDataSize; }`. -/
def CBlockCache.Initialise (c : CBlockCache) (uDataSize : Nat) : CBlockCache :=
  { c with uBlockSize := uDataSize }

/-- The member `size_t BlockSize() const { return _uBlockSize; }`. -/
def CBlockCache.BlockSize (c : CBlockCache) : Nat := c.uBlockSize

/-- The member `CBlockCache::Allocate()`: returns `nullptr` when
`_pCacheBlock` is null, else returns `_pCacheBlock` and advances it to
`_pCacheBlock->pNext` (read from block memory `h`). -/
def CBlockCache.Allocate (h : Heap) (c : CBlockCache) : Ptr × CBlockCache :=
  match c.pCacheBlock with
  | Ptr.null => (Ptr.null, c)
  | Ptr.addr pg off => (Ptr.addr pg off, { c with pCacheBlock := h pg off })

/-- The member `CBlockCache::Free(pBlock)`: `pBlock->pNext = _pCacheBlock;
_pCacheBlock = pBlock;`.  Writing through `nullptr` is undefined. -/
def CBlockCache.Free (h : Heap) (c : CBlockCache) (pBlock : Ptr) :
    Option (Heap × CBlockCache) :=
  match pBlock with
  | Ptr.null => none
  | Ptr.addr pg off =>
    some (h.store pg off c.pCacheBlock, { c with pCacheBlock := Ptr.addr pg off })

/-! ## `CMemoryPage` (`MemoryPage.h`) -/

/-- The fields of `CMemoryPage`: `_uFreeSize`, the cursor `_pFreeData` kept as
its byte offset `_pFreeData - _data`, and `page`, the number of this page
object (which arena `_data` is).  The link `pNext` is represented by the
position of the page in the archive list of the manager. -/
structure CMemoryPage where
  uFreeSize : Nat
  pFreeData : Nat
  page : Nat
deriving DecidableEq, Repr

/-- The constructor `CMemoryPage() : _uFreeSize(MEMORY_PAGE_SIZE),
_pFreeData(_data), pNext(nullptr)`, for page object number `page`. -/
def CMemoryPage.ctor (page : Nat) : CMemoryPage :=
  { uFreeSize := MEMORY_PAGE_SIZE, pFreeData := 0, page := page }

/-- The member `size_t FreeSize() const { return _uFreeSize; }`. -/
def CMemoryPage.FreeSize (p : CMemoryPage) : Nat := p.uFreeSize

/-- The member `CMemoryPage::Allocate(uBlockSize)`: `nullptr` when
`uBlockSize > _uFreeSize`, else the old cursor, with the cursor advanced and
the free size reduced by `uBlockSize`. -/
def CMemoryPage.Allocate (p : CMemoryPage) (uBlockSize : Nat) : Ptr × CMemoryPage :=
  if uBlockSize > p.uFreeSize then (Ptr.null, p)
  else
    (Ptr.addr p.page p.pFreeData,
      { p with pFreeData := p.pFreeData + uBlockSize,
               uFreeSize := p.uFreeSize - uBlockSize })

/-! ## `CMemoryMgr` (`MemoryMgr.h`, `MemoryMgr.cpp`) -/

/-- The local variables of `CMemoryMgr::InitialiseCache` together with the two
tables it fills. -/
structure InitVars where
  blockCaches : List CBlockCache
  cacheIndexes : List Nat
  uBlockSize : Nat
  uCacheIndex : Nat
  uIndex : Nat
deriving DecidableEq, Repr

/-- The statement `_cacheIndexes[uIndex++] = uCacheIndex;`. -/
def InitVars.writeIndex (st : InitVars) : Option InitVars :=
  (arrWrite st.cacheIndexes st.uIndex st.uCacheIndex).map fun t =>
    { st with cacheIndexes := t, uIndex := st.uIndex + 1 }

/-- One round of a tier loop of `InitialiseCache`:
`_blockCaches[uCacheIndex].pCacheBlock = nullptr;
_blockCaches[uCacheIndex].uBlockSize = uBlockSize; uBlockSize += uStep;`
then `uPerClass` times `_cacheIndexes[uIndex++] = uCacheIndex;` and finally
`uCacheIndex++`.  (The first tier writes its single index entry without an
inner loop: `uPerClass = 1`.) -/
def InitVars.round (uStep uPerClass : Nat) (st : InitVars) : Option InitVars :=
  (arrWrite st.blockCaches st.uCacheIndex
      { pCacheBlock := Ptr.null, uBlockSize := st.uBlockSize }).bind fun cs =>
    (loopM uPerClass InitVars.writeIndex
      { st with blockCaches := cs, uBlockSize := st.uBlockSize + uStep }).map fun st1 =>
        { st1 with uCacheIndex := st1.uCacheIndex + 1 }

/-- The statement `uBlockSize += uStep;` between two tiers. -/
def InitVars.bump (uStep : Nat) (st : InitVars) : InitVars :=
  { st with uBlockSize := st.uBlockSize + uStep }

/-- The statements of `CMemoryMgr::InitialiseCache` (five tier loops with
`uBlockSize += step` between them), run on the arrays `_blockCaches` and
`_cacheIndexes` as they are before the call; the result is the local
variables and the arrays at the end. -/
def InitialiseCacheVars (blockCaches : List CBlockCache) (cacheIndexes : List Nat) :
    Option InitVars :=
  (loopM 8 (InitVars.round 8 1)
      { blockCaches := blockCaches, cacheIndexes := cacheIndexes,
        uBlockSize := 8, uCacheIndex := 0, uIndex := 0 }).bind fun st1 =>
  (loopM 4 (InitVars.round 16 2) (st1.bump 8)).bind fun st2 =>
  (loopM 4 (InitVars.round 32 4) (st2.bump 16)).bind fun st3 =>
  (loopM 4 (InitVars.round 64 8) (st3.bump 32)).bind fun st4 =>
  loopM 4 (InitVars.round 128 16) (st4.bump 64)

/-- The member `CMemoryMgr::InitialiseCache`: the two arrays it leaves. -/
def InitialiseCache (blockCaches : List CBlockCache) (cacheIndexes : List Nat) :
    Option (List CBlockCache × List Nat) :=
  (InitialiseCacheVars blockCaches cacheIndexes).map fun st5 =>
    (st5.blockCaches, st5.cacheIndexes)

/-- The local variable `uBlockSizeFactor` of `CMemoryMgr::CalcCacheIndex`
when it is used as the index: `unsigned uBlockSizeFactor = uBlockSize /
MIN_BLOCK_SIZE_STEP; if (!(uBlockSize % MIN_BLOCK_SIZE_STEP))
uBlockSizeFactor--;`.  The variable is an `unsigned`: the initialisation
truncates and the decrement wraps. -/
def uBlockSizeFactor (uBlockSize : Nat) : Nat :=
  let uBlockSizeFactor := (uBlockSize / MIN_BLOCK_SIZE_STEP) % UNSIGNED_RANGE
  if uBlockSize % MIN_BLOCK_SIZE_STEP = 0
  then (uBlockSizeFactor + UNSIGNED_RANGE - 1) % UNSIGNED_RANGE
  else uBlockSizeFactor

/-- The member `CMemoryMgr::CalcCacheIndex(uBlockSize)` over the table
`_cacheIndexes`: `return _cacheIndexes[uBlockSizeFactor];`.  Reading outside
the table is undefined. -/
def CalcCacheIndex (cacheIndexes : List Nat) (uBlockSize : Nat) : Option Nat :=
  cacheIndexes[uBlockSizeFactor uBlockSize]?

/-- The fields of `CMemoryMgr`.  `pFilledPages` is the archive chain
`_pFilledPages -> pNext -> ...`, head first.  `data` holds the contents of the
page arenas (the `pNext` words of blocks).  `uPagesCreated` counts the
`CMemoryPage` objects constructed so far and numbers the next one. -/
structure CMemoryMgr where
  blockCaches : List CBlockCache
  cacheIndexes : List Nat
  pPageA : CMemoryPage
  pPageB : CMemoryPage
  pFilledPages : List CMemoryPage
  uLargeBlockCount : Nat
  uLargeBlocksSize : Nat
  uLargeBlocksMin : Nat
  uLargeBlocksMax : Nat
  data : Heap
  uPagesCreated : Nat

/-- The constructor `CMemoryMgr::CMemoryMgr()`: `_pFilledPages(nullptr)`,
`InitialiseCache()`, two fresh pages, statistics reset
(`_uLargeBlocksMin = (unsigned)-1`).  `data` is the content of memory at that
time.  The arrays start default-constructed, their indeterminate entries
taken as `0`; `InitialiseCache` overwrites every entry. -/
def CMemoryMgr.ctor (data : Heap) : Option CMemoryMgr :=
  (InitialiseCache (List.replicate MEM_CACHE_COUNT (CBlockCache.ctor 0))
      (List.replicate MEM_ALLOCATOR_INDEXES 0)).map fun tables =>
    { blockCaches := tables.1
      cacheIndexes := tables.2
      pPageA := CMemoryPage.ctor 0
      pPageB := CMemoryPage.ctor 1
      pFilledPages := []
      uLargeBlockCount := 0
      uLargeBlocksSize := 0
      uLargeBlocksMin := UNSIGNED_RANGE - 1
      uLargeBlocksMax := 0
      data := data
      uPagesCreated := 2 }

/-- What `CMemoryMgr::Allocate` returns: the value of the call
`malloc(uBlockSize)` on the large-block path (decided by the C library), or a
pointer the manager produced itself. -/
inductive AllocResult where
  | malloc (uBlockSize : Nat) : AllocResult
  | ptr (p : Ptr) : AllocResult
deriving DecidableEq, Repr

/-- The member `CMemoryMgr::AllocateFromPage(uBlockSize)`: try `_pPageA`, then
`_pPageB`; else archive the page chosen by
`(_pPageA->FreeSize() >= _pPageB->FreeSize()) ? _pPageB : _pPageA`, put a new
page in its slot and allocate from that. -/
def CMemoryMgr.AllocateFromPage (m : CMemoryMgr) (uBlockSize : Nat) : Ptr × CMemoryMgr :=
  let ra := m.pPageA.Allocate uBlockSize
  let m1 := { m with pPageA := ra.2 }
  if ra.1 ≠ Ptr.null then (ra.1, m1)
  else
    let rb := m1.pPageB.Allocate uBlockSize
    let m2 := { m1 with pPageB := rb.2 }
    if rb.1 ≠ Ptr.null then (rb.1, m2)
    else
      let rn := (CMemoryPage.ctor m2.uPagesCreated).Allocate uBlockSize
      if m2.pPageA.FreeSize ≥ m2.pPageB.FreeSize then
        (rn.1, { m2 with pFilledPages := m2.pPageB :: m2.pFilledPages,
                         pPageB := rn.2,
                         uPagesCreated := m2.uPagesCreated + 1 })
      else
        (rn.1, { m2 with pFilledPages := m2.pPageA :: m2.pFilledPages,
                         pPageA := rn.2,
                         uPagesCreated := m2.uPagesCreated + 1 })

/-- The statistics update on the large-block path of `CMemoryMgr::Allocate`
(all four counters are `unsigned`). -/
def CMemoryMgr.noteLarge (m : CMemoryMgr) (uBlockSize : Nat) : CMemoryMgr :=
  { m with
    uLargeBlockCount := (m.uLargeBlockCount + 1) % UNSIGNED_RANGE
    uLargeBlocksSize := (m.uLargeBlocksSize + uBlockSize) % UNSIGNED_RANGE
    uLargeBlocksMin :=
      if m.uLargeBlocksMin > uBlockSize then uBlockSize % UNSIGNED_RANGE
      else m.uLargeBlocksMin
    uLargeBlocksMax :=
      if m.uLargeBlocksMax < uBlockSize then uBlockSize % UNSIGNED_RANGE
      else m.uLargeBlocksMax }

/-- The member `CMemoryMgr::Allocate(uBlockSize)`. -/
def CMemoryMgr.Allocate (m : CMemoryMgr) (uBlockSize : Nat) :
    Option (AllocResult × CMemoryMgr) :=
  if uBlockSize > MAX_BLOCK_SIZE then
    some (AllocResult.malloc uBlockSize, m.noteLarge uBlockSize)
  else
    (CalcCacheIndex m.cacheIndexes uBlockSize).bind fun uCacheIndex =>
    (m.blockCaches[uCacheIndex]?).bind fun cache =>
      match cache.pCacheBlock with
      | Ptr.null =>
        let r := m.AllocateFromPage cache.uBlockSize
        some (AllocResult.ptr r.1, r.2)
      | Ptr.addr pg off =>
        some (AllocResult.ptr (Ptr.addr pg off),
          { m with blockCaches :=
              m.blockCaches.set uCacheIndex { cache with pCacheBlock := m.data pg off } })

/-- The member `CMemoryMgr::Free(pMem, uBlockSize)` for a `pMem` that is a
`Ptr`: null or an address inside a page arena.  On the large-block path the
pointer goes to `free(pMem)` and the manager is not touched: `free(nullptr)`
does nothing, and `free` of an address inside a page arena, which no call of
`malloc` returned, is undefined.  (A block that `malloc` returned is not a
`Ptr`; `CMemoryMgr.FreeWith` takes those too.) -/
def CMemoryMgr.Free (m : CMemoryMgr) (pMem : Ptr) (uBlockSize : Nat) : Option CMemoryMgr :=
  if uBlockSize > MAX_BLOCK_SIZE then
    match pMem with
    | Ptr.null => some m
    | Ptr.addr _ _ => none
  else
    (CalcCacheIndex m.cacheIndexes uBlockSize).bind fun uCacheIndex =>
    (m.blockCaches[uCacheIndex]?).bind fun cache =>
      match pMem with
      | Ptr.null => none
      | Ptr.addr pg off =>
        some { m with
          data := m.data.store pg off cache.pCacheBlock
          blockCaches :=
            m.blockCaches.set uCacheIndex { cache with pCacheBlock := Ptr.addr pg off } }

/-- The general-purpose allocator of the C library that the large-block path
calls (`malloc`, `free`).  It is not code of the repository and is taken as a
parameter: `H` is the state of its heap and `B` the blocks it hands out.
`malloc` returns `none` for a null pointer; `free` of a block is `none` where
the C library leaves the call undefined (a block it does not hold, such as one
freed before). -/
structure Fallback (H B : Type) where
  malloc : H → Nat → Option B × H
  free : H → B → Option H

/-- A `void*` in the hands of a caller of the manager: a pointer the manager
produced itself (null, or an address inside a page arena), or a block of the
general-purpose allocator. -/
inductive VoidPtr (B : Type) where
  | own (p : Ptr) : VoidPtr B
  | block (b : B) : VoidPtr B

/-- The `void*` value of a `malloc` call: null when it returned no block. -/
def VoidPtr.ofMalloc {B : Type} : Option B → VoidPtr B
  | none => VoidPtr.own Ptr.null
  | some b => VoidPtr.block b

/-- The member `CMemoryMgr::Allocate(uBlockSize)` with the call
`malloc(uBlockSize)` of the large-block path made on the allocator `lib` in
the state `heap`. -/
def CMemoryMgr.AllocateWith {H B : Type} (lib : Fallback H B) (m : CMemoryMgr) (heap : H)
    (uBlockSize : Nat) : Option (VoidPtr B × CMemoryMgr × H) :=
  (m.Allocate uBlockSize).map fun r =>
    match r.1 with
    | AllocResult.malloc n =>
      (VoidPtr.ofMalloc (lib.malloc heap n).1, r.2, (lib.malloc heap n).2)
    | AllocResult.ptr p => (VoidPtr.own p, r.2, heap)

/-- The member `CMemoryMgr::Free(pMem, uBlockSize)` with the call `free(pMem)`
of the large-block path made on the allocator `lib` in the state `heap`.  For
a `Ptr` this is `CMemoryMgr.Free`.  For a block of the allocator the
large-block path is `free(pMem)`, defined when the allocator says so, and the
manager is not touched; the bucket path would link the block into a bucket
list, which the page heap `data` of the embedding cannot hold, and has no
result here. -/
def CMemoryMgr.FreeWith {H B : Type} (lib : Fallback H B) (m : CMemoryMgr) (heap : H)
    (pMem : VoidPtr B) (uBlockSize : Nat) : Option (CMemoryMgr × H) :=
  match pMem with
  | VoidPtr.own p => (m.Free p uBlockSize).map fun m1 => (m1, heap)
  | VoidPtr.block b =>
    if uBlockSize > MAX_BLOCK_SIZE then (lib.free heap b).map fun heap1 => (m, heap1)
    else none

/-- A general-purpose allocator for examples: `malloc` never fails and numbers
its blocks in the order of the calls; the state is the number of calls made
and the list of the blocks not freed yet; `free` is defined on those only. -/
def Fallback.counting : Fallback (Nat × List Nat) Nat where
  malloc := fun heap _ => (some heap.1, (heap.1 + 1, heap.1 :: heap.2))
  free := fun heap b => if b ∈ heap.2 then some (heap.1, heap.2.erase b) else none

/-! ## Auxiliary notions used by the statements -/

/-- Two runs of `InitialiseCache` are in step: same local variables, arrays of
the same lengths, the same contents in the first `k` entries of
`_blockCaches` and in the part of `_cacheIndexes` already written. -/
def InitVars.AgreeTo (k : Nat) (s t : InitVars) : Prop :=
  s.uBlockSize = t.uBlockSize ∧ s.uCacheIndex = t.uCacheIndex ∧ s.uIndex = t.uIndex ∧
  s.blockCaches.length = t.blockCaches.length ∧
  s.cacheIndexes.length = t.cacheIndexes.length ∧
  s.blockCaches.take k = t.blockCaches.take k ∧
  s.cacheIndexes.take s.uIndex = t.cacheIndexes.take s.uIndex

/-- In step between rounds: the agreeing part of `_blockCaches` is the part
already written. -/
def InitVars.Agree (s t : InitVars) : Prop := InitVars.AgreeTo s.uCacheIndex s t

/-- Both runs undefined, or both defined and related by `R`. -/
def InitVars.OptRel (R : InitVars → InitVars → Prop) :
    Option InitVars → Option InitVars → Prop
  | none, none => True
  | some s, some t => R s t
  | _, _ => False

/-- The class sizes `_blockCaches[c].uBlockSize`, `c = 0 .. 23`, that
`InitialiseCache` leaves in the default-constructed array of a new manager. -/
@[irreducible] def classSizes : List Nat :=
  match InitialiseCache (List.replicate MEM_CACHE_COUNT (CBlockCache.ctor 0))
      (List.replicate MEM_ALLOCATOR_INDEXES 0) with
  | some tables => tables.1.map CBlockCache.BlockSize
  | none => []

/-- The lookup table `_cacheIndexes` that `InitialiseCache` leaves in a new
manager. -/
@[irreducible] def classIndexes : List Nat :=
  match InitialiseCache (List.replicate MEM_CACHE_COUNT (CBlockCache.ctor 0))
      (List.replicate MEM_ALLOCATOR_INDEXES 0) with
  | some tables => tables.2
  | none => []

/-- The manager still has the tables `InitialiseCache` gave it: the lookup
table and the size of every class (the heads of the free chains may differ). -/
def CMemoryMgr.Configured (m : CMemoryMgr) : Prop :=
  m.cacheIndexes = classIndexes ∧ m.blockCaches.map CBlockCache.BlockSize = classSizes

/-- The manager `CMemoryMgr::CMemoryMgr()` builds when memory holds `data`
(see `CMemoryMgr.ctor_eq`). -/
def CMemoryMgr.fresh (data : Heap) : CMemoryMgr :=
  { blockCaches := classSizes.map fun n => { pCacheBlock := Ptr.null, uBlockSize := n }
    cacheIndexes := classIndexes
    pPageA := CMemoryPage.ctor 0
    pPageB := CMemoryPage.ctor 1
    pFilledPages := []
    uLargeBlockCount := 0
    uLargeBlocksSize := 0
    uLargeBlocksMin := UNSIGNED_RANGE - 1
    uLargeBlocksMax := 0
    data := data
    uPagesCreated := 2 }

/-- Memory in which every word is null. -/
def Heap.nulls : Heap := fun _ _ => Ptr.null

/-- Manager states reachable from construction by calls of `Allocate` and
`Free` with any arguments for which the call has defined behaviour. -/
inductive Reachable : CMemoryMgr → Prop where
  | ctor (data : Heap) (m : CMemoryMgr) :
      CMemoryMgr.ctor data = some m → Reachable m
  | allocate (m : CMemoryMgr) (uBlockSize : Nat) (r : AllocResult) (m1 : CMemoryMgr) :
      Reachable m → m.Allocate uBlockSize = some (r, m1) → Reachable m1
  | free (m : CMemoryMgr) (pMem : Ptr) (uBlockSize : Nat) (m1 : CMemoryMgr) :
      Reachable m → m.Free pMem uBlockSize = some m1 → Reachable m1

/-- The pointer chain starting at `p` in memory `h` visits exactly the block
addresses `l` (as pairs page, offset), in that order, and ends in null. -/
def FreeChain (h : Heap) : Ptr → List (Nat × Nat) → Prop
  | p, [] => p = Ptr.null
  | p, b :: rest => p = Ptr.addr b.1 b.2 ∧ FreeChain h (h b.1 b.2) rest

/-- The page objects the manager holds: the two active pages, then the
archive chain. -/
def CMemoryMgr.pages (m : CMemoryMgr) : List CMemoryPage :=
  m.pPageA :: m.pPageB :: m.pFilledPages

/-- The cursor `_pFreeData` (as its offset `_pFreeData - _data`) of the page
object number `page`, when the manager holds that page. -/
def CMemoryMgr.cursorOf (m : CMemoryMgr) (page : Nat) : Option Nat :=
  (m.pages.find? fun P => P.page = page).map fun P => P.pFreeData

/-- The size `Allocate(uBlockSize)` asks a page for on a miss:
`_blockCaches[CalcCacheIndex(uBlockSize)].uBlockSize`. -/
def CMemoryMgr.classSize (m : CMemoryMgr) (uBlockSize : Nat) : Option Nat :=
  (CalcCacheIndex m.cacheIndexes uBlockSize).bind fun c =>
    (m.blockCaches[c]?).map CBlockCache.BlockSize

/-- A block the application holds: where it is and the size it was asked
with. -/
structure LiveBlock where
  page : Nat
  off : Nat
  uSize : Nat
deriving DecidableEq, Repr

/-- Runs that respect the contract of the manager: `Run m live` says that
`m` is reached from construction by calls `Allocate(n)` with
`1 ≤ n ≤ MAX_BLOCK_SIZE` and calls `Free(p, n)` made only on a block that is
live at that moment, with the size it was allocated with; `live` lists the
blocks handed out and not yet freed. -/
inductive Run : CMemoryMgr → List LiveBlock → Prop where
  | ctor (data : Heap) (m : CMemoryMgr) :
      CMemoryMgr.ctor data = some m → Run m []
  | allocate (m : CMemoryMgr) (live : List LiveBlock) (n pg off : Nat) (m1 : CMemoryMgr) :
      Run m live → 1 ≤ n → n ≤ MAX_BLOCK_SIZE →
      m.Allocate n = some (AllocResult.ptr (Ptr.addr pg off), m1) →
      Run m1 ({ page := pg, off := off, uSize := n } :: live)
  | free (m : CMemoryMgr) (live : List LiveBlock) (b : LiveBlock) (m1 : CMemoryMgr) :
      Run m live → b ∈ live →
      m.Free (Ptr.addr b.page b.off) b.uSize = some m1 →
      Run m1 (live.erase b)

/-- The byte ranges `[off, off + classSize)` of two blocks do not meet: the
blocks lie in different pages, or one range ends before the other starts. -/
def Separated (m : CMemoryMgr) (a b : LiveBlock) : Prop :=
  ∃ ea eb, m.classSize a.uSize = some ea ∧ m.classSize b.uSize = some eb ∧
    (a.page ≠ b.page ∨ a.off + ea ≤ b.off ∨ b.off + eb ≤ a.off)

/-- Two carved blocks, each a triple (page, offset, class), have ranges that
do not meet. -/
def BlockSep (x y : Nat × Nat × Nat) : Prop :=
  x.1 ≠ y.1 ∨ x.2.1 + classSizes.getD x.2.2 0 ≤ y.2.1 ∨
    y.2.1 + classSizes.getD y.2.2 0 ≤ x.2.1

/-- The invariant of contract-respecting runs.  `all` lists every block ever
carved from a page as (page, offset, class); `chain c` lists the addresses on
the free chain of class `c`. -/
structure Inv (m : CMemoryMgr) (live : List LiveBlock) (chain : Nat → List (Nat × Nat))
    (all : List (Nat × Nat × Nat)) : Prop where
  conf : m.Configured
  chains : ∀ (c : Nat) (cache : CBlockCache), m.blockCaches[c]? = some cache →
    FreeChain m.data cache.pCacheBlock (chain c)
  pagesNodup : (m.pages.map CMemoryPage.page).Nodup
  pagesLt : ∀ P ∈ m.pages, P.page < m.uPagesCreated
  allSep : ∀ x ∈ all, ∀ y ∈ all, x ≠ y → BlockSep x y
  allBelow : ∀ x ∈ all, x.2.2 < 24 ∧
    ∃ P ∈ m.pages, P.page = x.1 ∧ x.2.1 + classSizes.getD x.2.2 0 ≤ P.pFreeData
  liveIn : ∀ b ∈ live, 1 ≤ b.uSize ∧ b.uSize ≤ MAX_BLOCK_SIZE ∧
    ∃ c, CalcCacheIndex classIndexes b.uSize = some c ∧ (b.page, b.off, c) ∈ all
  chainIn : ∀ (c : Nat), ∀ a ∈ chain c, (a.1, a.2, c) ∈ all
  liveNodup : (live.map fun b => (b.page, b.off)).Nodup
  chainNodup : ∀ c : Nat, (chain c).Nodup
  liveFree : ∀ b ∈ live, ∀ c : Nat, (b.page, b.off) ∉ chain c

/-! ## Call sequences and the diagnostics report -/

/-- A call the host application makes on the manager. -/
inductive Call where
  | Allocate (uBlockSize : Nat) : Call
  | Free (pMem : Ptr) (uBlockSize : Nat) : Call
deriving DecidableEq, Repr

/-- The manager after one call; undefined when the call is. -/
def CMemoryMgr.call (m : CMemoryMgr) : Call → Option CMemoryMgr
  | Call.Allocate uBlockSize => (m.Allocate uBlockSize).map Prod.snd
  | Call.Free pMem uBlockSize => m.Free pMem uBlockSize

/-- The manager after a sequence of calls made one after the other. -/
def CMemoryMgr.calls (m : CMemoryMgr) : List Call → Option CMemoryMgr
  | [] => some m
  | c :: cs => (m.call c).bind fun m1 => m1.calls cs

/-- A call whose arguments are in the domain of the manager: `Allocate` of a
size of at least 1; `Free` of the null pointer with a size above
`MAX_BLOCK_SIZE` (`free(nullptr)`), or of a non-null block with a size in
`[1, MAX_BLOCK_SIZE]`. -/
def Call.InDomain : Call → Prop
  | Call.Allocate uBlockSize => 1 ≤ uBlockSize
  | Call.Free pMem uBlockSize =>
    (MAX_BLOCK_SIZE < uBlockSize ∧ pMem = Ptr.null) ∨
      (1 ≤ uBlockSize ∧ uBlockSize ≤ MAX_BLOCK_SIZE ∧ pMem ≠ Ptr.null)

/-- The sizes of the `Allocate` calls of a sequence that take the large-block
path (`uBlockSize > MAX_BLOCK_SIZE`), in the order of the calls. -/
def largeSizes : List Call → List Nat
  | [] => []
  | Call.Allocate uBlockSize :: cs =>
    if uBlockSize > MAX_BLOCK_SIZE then uBlockSize :: largeSizes cs else largeSizes cs
  | Call.Free _ _ :: cs => largeSizes cs

/-- The numbers `CMemoryMgr::LogStatistics` writes to the log:
`uAllocatedPages`, `uAllocatedSize`, `uUnusedMemory`, `uUnusedPercent`,
`_uLargeBlockCount`, `_uLargeBlocksSize / 1024`, and, only when
`_uLargeBlockCount` is not zero, `_uLargeBlocksMin` and `_uLargeBlocksMax`. -/
structure StatReport where
  uAllocatedPages : Nat
  uAllocatedSize : Nat
  uUnusedMemory : Nat
  uUnusedPercent : Nat
  uLargeBlockCount : Nat
  uLargeBlocksKB : Nat
  range : Option (Nat × Nat)
deriving DecidableEq, Repr

/-- The loop `while (pPage) { uAllocatedPages++; uUnusedMemory +=
pPage->FreeSize(); pPage = pPage->pNext; }` of `LogStatistics` over the
archive chain; the pair is (`uAllocatedPages`, `uUnusedMemory`), both
`unsigned`. -/
def LogStatistics.walk : List CMemoryPage → Nat × Nat → Nat × Nat
  | [], acc => acc
  | pPage :: rest, acc =>
    LogStatistics.walk rest
      ((acc.1 + 1) % UNSIGNED_RANGE, (acc.2 + pPage.FreeSize) % UNSIGNED_RANGE)

/-- The member `CMemoryMgr::LogStatistics()`, as the numbers it logs.  All
locals are `unsigned`; the division by `uAllocatedSize` is undefined when that
is zero. -/
def CMemoryMgr.LogStatistics (m : CMemoryMgr) : Option StatReport :=
  let uAllocatedPages := 3
  let uUnusedMemory := 0
  let uUnusedMemory := (uUnusedMemory + m.pPageA.FreeSize) % UNSIGNED_RANGE
  let uUnusedMemory := (uUnusedMemory + m.pPageB.FreeSize) % UNSIGNED_RANGE
  let acc := LogStatistics.walk m.pFilledPages (uAllocatedPages, uUnusedMemory)
  let uAllocatedSize := (acc.1 * MEMORY_PAGE_SIZE) % UNSIGNED_RANGE
  if uAllocatedSize = 0 then none
  else
    some
      { uAllocatedPages := acc.1
        uAllocatedSize := uAllocatedSize
        uUnusedMemory := acc.2
        uUnusedPercent := ((acc.2 * 100) % UNSIGNED_RANGE) / uAllocatedSize
        uLargeBlockCount := m.uLargeBlockCount
        uLargeBlocksKB := m.uLargeBlocksSize / 1024
        range :=
          if m.uLargeBlockCount ≠ 0 then some (m.uLargeBlocksMin, m.uLargeBlocksMax)
          else none }

/-- The large-block counters of `m` record the sizes `l`: count, total, and
for a non-empty `l` its least and greatest element; for an empty `l` the
values the constructor sets. -/
def CMemoryMgr.Records (m : CMemoryMgr) (l : List Nat) : Prop :=
  m.uLargeBlockCount = l.length ∧ m.uLargeBlocksSize = l.sum ∧
  (l = [] → m.uLargeBlocksMin = UNSIGNED_RANGE - 1 ∧ m.uLargeBlocksMax = 0) ∧
  (l ≠ [] → m.uLargeBlocksMin ∈ l ∧ m.uLargeBlocksMax ∈ l ∧
    ∀ x ∈ l, m.uLargeBlocksMin ≤ x ∧ x ≤ m.uLargeBlocksMax)

/-- In every state reachable from construction the page objects have distinct
numbers, all below the count of pages created. -/
def CMemoryMgr.PagesDistinct (m : CMemoryMgr) : Prop :=
  (m.pages.map CMemoryPage.page).Nodup ∧ ∀ P ∈ m.pages, P.page < m.uPagesCreated

/-! ## The multi-threaded build (`_MULTITHREADED_`): callers interleaved -/

/-- Where a caller stands inside a call of `CMemoryMgr::Allocate` or
`CMemoryMgr::Free` on the bucketed path, with the values of its local
variables: `idle` between calls; `allocIndexed` after
`uCacheIndex = CalcCacheIndex(uBlockSize)`, before the lock; `allocLocked`
with `_hndMutex` taken; `allocRead` after
`pBlock = _blockCaches[uCacheIndex].pCacheBlock`; `allocReturn` with the
result computed, before the return releases the lock; `freeIndexed` after
`uCacheIndex = CalcCacheIndex(uBlockSize)` and `pBlock = (SMemBlock*)pMem`;
`freeLocked` with `_hndMutex` taken; `freeLinked` after
`pBlock->pNext = _blockCaches[uCacheIndex].pCacheBlock`; `freeReturn` after
`_blockCaches[uCacheIndex].pCacheBlock = pBlock`. -/
inductive Pc where
  | idle : Pc
  | allocIndexed (uBlockSize uCacheIndex : Nat) : Pc
  | allocLocked (uBlockSize uCacheIndex : Nat) : Pc
  | allocRead (uBlockSize uCacheIndex : Nat) (pBlock : Ptr) : Pc
  | allocReturn (uBlockSize : Nat) (pResult : Ptr) : Pc
  | freeIndexed (b : LiveBlock) (uCacheIndex : Nat) : Pc
  | freeLocked (b : LiveBlock) (uCacheIndex : Nat) : Pc
  | freeLinked (b : LiveBlock) (uCacheIndex : Nat) : Pc
  | freeReturn : Pc
deriving DecidableEq, Repr

/-- What the scheduler lets a caller do next: enter `Allocate(uBlockSize)`,
enter `Free` on a block it holds (with the size the block was allocated
with), or run the next statement of the call it is in. -/
inductive Move where
  | callAllocate (uBlockSize : Nat) : Move
  | callFree (b : LiveBlock) : Move
  | advance : Move
deriving DecidableEq, Repr

/-- The manager shared by the callers: its state `m`, the owner of
`_hndMutex` if it is locked, where each caller stands, the blocks the
application holds (returned by `Allocate`, not yet passed to `Free`), and how
many blocks were issued and freed so far. -/
structure Threads where
  m : CMemoryMgr
  hndMutex : Option Nat
  pc : Nat → Pc
  live : List LiveBlock
  issued : Nat
  freed : Nat

/-- Caller `t` moves to `q`. -/
def Threads.setPc (k : Threads) (t : Nat) (q : Pc) : Threads :=
  { k with pc := fun u => if u = t then q else k.pc u }

/-- One statement of caller `t`, as `MemoryMgr.cpp` has them with
`_MULTITHREADED_` defined (the call of `AllocateFromPage` counts as one
statement, and entering a call includes the size test and
`CalcCacheIndex`); `none` when the move is not enabled: the caller is not
where the move needs it, the lock is taken by another caller, the call is
outside the contract or the bucketed sizes, or a table access is out of
range. -/
def Threads.step (k : Threads) (t : Nat) : Move → Option Threads
  | Move.callAllocate uBlockSize =>
    match k.pc t with
    | Pc.idle =>
      if 1 ≤ uBlockSize ∧ uBlockSize ≤ MAX_BLOCK_SIZE then
        (CalcCacheIndex k.m.cacheIndexes uBlockSize).map fun uCacheIndex =>
          k.setPc t (Pc.allocIndexed uBlockSize uCacheIndex)
      else none
    | _ => none
  | Move.callFree b =>
    match k.pc t with
    | Pc.idle =>
      if b ∈ k.live ∧ b.uSize ≤ MAX_BLOCK_SIZE then
        (CalcCacheIndex k.m.cacheIndexes b.uSize).map fun uCacheIndex =>
          { k.setPc t (Pc.freeIndexed b uCacheIndex) with
            live := k.live.erase b, freed := k.freed + 1 }
      else none
    | _ => none
  | Move.advance =>
    match k.pc t with
    | Pc.idle => none
    | Pc.allocIndexed uBlockSize uCacheIndex =>
      if k.hndMutex = none then
        some { k.setPc t (Pc.allocLocked uBlockSize uCacheIndex) with hndMutex := some t }
      else none
    | Pc.allocLocked uBlockSize uCacheIndex =>
      (k.m.blockCaches[uCacheIndex]?).map fun cache =>
        k.setPc t (Pc.allocRead uBlockSize uCacheIndex cache.pCacheBlock)
    | Pc.allocRead uBlockSize uCacheIndex Ptr.null =>
      (k.m.blockCaches[uCacheIndex]?).map fun cache =>
        { k.setPc t (Pc.allocReturn uBlockSize (k.m.AllocateFromPage cache.uBlockSize).1) with
          m := (k.m.AllocateFromPage cache.uBlockSize).2 }
    | Pc.allocRead uBlockSize uCacheIndex (Ptr.addr page off) =>
      (k.m.blockCaches[uCacheIndex]?).map fun cache =>
        { k.setPc t (Pc.allocReturn uBlockSize (Ptr.addr page off)) with
          m := { k.m with
            blockCaches := k.m.blockCaches.set uCacheIndex
              { cache with pCacheBlock := k.m.data page off } } }
    | Pc.allocReturn uBlockSize (Ptr.addr page off) =>
      some { k.setPc t Pc.idle with
        hndMutex := none
        live := { page := page, off := off, uSize := uBlockSize } :: k.live
        issued := k.issued + 1 }
    | Pc.allocReturn _ Ptr.null =>
      some { k.setPc t Pc.idle with hndMutex := none }
    | Pc.freeIndexed b uCacheIndex =>
      if k.hndMutex = none then
        some { k.setPc t (Pc.freeLocked b uCacheIndex) with hndMutex := some t }
      else none
    | Pc.freeLocked b uCacheIndex =>
      (k.m.blockCaches[uCacheIndex]?).map fun cache =>
        { k.setPc t (Pc.freeLinked b uCacheIndex) with
          m := { k.m with data := k.m.data.store b.page b.off cache.pCacheBlock } }
    | Pc.freeLinked b uCacheIndex =>
      (k.m.blockCaches[uCacheIndex]?).map fun cache =>
        { k.setPc t Pc.freeReturn with
          m := { k.m with
            blockCaches := k.m.blockCaches.set uCacheIndex
              { cache with pCacheBlock := Ptr.addr b.page b.off } } }
    | Pc.freeReturn =>
      some { k.setPc t Pc.idle with hndMutex := none }

/-- An interleaving: the statements run in the order of the schedule, each
by the caller named with it. -/
def Threads.run (k : Threads) : List (Nat × Move) → Option Threads
  | [] => some k
  | (t, mv) :: rest => (k.step t mv).bind fun k1 => k1.run rest

/-- The callers and the manager right after `CMemoryMgr::CMemoryMgr()`: the
lock free, every caller idle, no block issued. -/
def Threads.init (data : Heap) : Option Threads :=
  (CMemoryMgr.ctor data).map fun m =>
    { m := m, hndMutex := none, pc := fun _ => Pc.idle, live := [], issued := 0, freed := 0 }

/-- The block a caller has in hand inside a call: the argument of a `Free`
that has not pushed it yet, or the result of an `Allocate` about to return. -/
def Pc.holds : Pc → Option LiveBlock
  | Pc.freeIndexed b _ => some b
  | Pc.freeLocked b _ => some b
  | Pc.freeLinked b _ => some b
  | Pc.allocReturn uBlockSize (Ptr.addr page off) =>
    some { page := page, off := off, uSize := uBlockSize }
  | _ => none

/-- The caller is between taking `_hndMutex` and the return that releases it. -/
def Pc.inside : Pc → Bool
  | Pc.allocLocked _ _ => true
  | Pc.allocRead _ _ _ => true
  | Pc.allocReturn _ _ => true
  | Pc.freeLocked _ _ => true
  | Pc.freeLinked _ _ => true
  | Pc.freeReturn => true
  | _ => false

/-- The size and the class index a caller has in its local variables. -/
def Pc.indexed : Pc → Option (Nat × Nat)
  | Pc.allocIndexed n c => some (n, c)
  | Pc.allocLocked n c => some (n, c)
  | Pc.allocRead n c _ => some (n, c)
  | Pc.freeIndexed b c => some (b.uSize, c)
  | Pc.freeLocked b c => some (b.uSize, c)
  | Pc.freeLinked b c => some (b.uSize, c)
  | _ => none

/-- How the manager `m` the callers share relates to the manager `ms` of the
sequential run, seen from the caller that owns the lock: the same, except
between the two writes of `Free`, where the link word of the block is
written and the head is not yet; a head that was read is still the head. -/
def Pc.View (ms m : CMemoryMgr) : Pc → Prop
  | Pc.allocRead _ c p =>
    m = ms ∧ ∃ cache, ms.blockCaches[c]? = some cache ∧ cache.pCacheBlock = p
  | Pc.allocReturn _ p => m = ms ∧ p ≠ Ptr.null
  | Pc.freeLinked b c =>
    ∃ cache, ms.blockCaches[c]? = some cache ∧
      m = { ms with data := ms.data.store b.page b.off cache.pCacheBlock }
  | _ => m = ms

/-- The interleaved state `k` is accounted for by a sequential run: `ms` and
`slive` are the manager and the live blocks of a contract-respecting run of
the calls that have taken effect, in the order in which they took the
lock. -/
structure Threads.Sound (k : Threads) (ms : CMemoryMgr) (slive : List LiveBlock) : Prop where
  run : Run ms slive
  liveNodup : k.live.Nodup
  liveIn : ∀ b ∈ k.live, b ∈ slive
  holdsIn : ∀ t b, (k.pc t).holds = some b → b ∈ slive ∧ b ∉ k.live
  holdsInj : ∀ t u b, (k.pc t).holds = some b → (k.pc u).holds = some b → t = u
  owner : ∀ t, (k.pc t).inside = true ↔ k.hndMutex = some t
  index : ∀ t n c, (k.pc t).indexed = some (n, c) →
    1 ≤ n ∧ n ≤ MAX_BLOCK_SIZE ∧ CalcCacheIndex classIndexes n = some c
  count : k.live.length + k.freed = k.issued
  unlocked : k.hndMutex = none → k.m = ms
  locked : ∀ t, k.hndMutex = some t → Pc.View ms k.m (k.pc t)

/-- An interleaving of two callers: both enter `Allocate(8)` at the same
time and take the lock one after the other; then caller 0 frees its block
while caller 1 enters `Allocate(8)` again and gets that block. -/
def twoCallers : List (Nat × Move) :=
  [(0, Move.callAllocate 8), (1, Move.callAllocate 8),
   (0, Move.advance), (0, Move.advance), (0, Move.advance), (0, Move.advance),
   (1, Move.advance), (1, Move.advance), (1, Move.advance), (1, Move.advance),
   (0, Move.callFree { page := 0, off := 0, uSize := 8 }), (1, Move.callAllocate 8),
   (0, Move.advance), (0, Move.advance), (0, Move.advance), (0, Move.advance),
   (1, Move.advance), (1, Move.advance), (1, Move.advance), (1, Move.advance)]

/-! ## Sequences of page allocations, logged runs, logged initialisation -/

/-- The page after the calls `Allocate(n)` for the sizes `n` of the list, in
order (results dropped). -/
def CMemoryPage.allocs (p : CMemoryPage) : List Nat → CMemoryPage
  | [] => p
  | uBlockSize :: rest => (p.Allocate uBlockSize).2.allocs rest

/-- Contract-respecting runs with the record of the blocks carved from pages:
`RunLog m live carved` is `Run m live` (calls `Allocate(n)` with
`1 ≤ n ≤ MAX_BLOCK_SIZE`, calls `Free` only on a live block with the size it
was allocated with), and `carved` lists, latest first, every block that
`AllocateFromPage` returned on a cache miss, as (page, offset, size).  The
size is what the page gave: the distance from the block to the cursor
`_pFreeData` that the page object number `pg` has after the call. -/
inductive RunLog : CMemoryMgr → List LiveBlock → List (Nat × Nat × Nat) → Prop where
  | ctor (data : Heap) (m : CMemoryMgr) :
      CMemoryMgr.ctor data = some m → RunLog m [] []
  | hit (m : CMemoryMgr) (live : List LiveBlock) (carved : List (Nat × Nat × Nat))
      (n c : Nat) (cache : CBlockCache) (pg off : Nat) (m1 : CMemoryMgr) :
      RunLog m live carved → 1 ≤ n → n ≤ MAX_BLOCK_SIZE →
      CalcCacheIndex m.cacheIndexes n = some c → m.blockCaches[c]? = some cache →
      cache.pCacheBlock ≠ Ptr.null →
      m.Allocate n = some (AllocResult.ptr (Ptr.addr pg off), m1) →
      RunLog m1 ({ page := pg, off := off, uSize := n } :: live) carved
  | miss (m : CMemoryMgr) (live : List LiveBlock) (carved : List (Nat × Nat × Nat))
      (n c : Nat) (cache : CBlockCache) (pg off cur : Nat) (m1 : CMemoryMgr) :
      RunLog m live carved → 1 ≤ n → n ≤ MAX_BLOCK_SIZE →
      CalcCacheIndex m.cacheIndexes n = some c → m.blockCaches[c]? = some cache →
      cache.pCacheBlock = Ptr.null →
      m.Allocate n = some (AllocResult.ptr (Ptr.addr pg off), m1) →
      m1.cursorOf pg = some cur →
      RunLog m1 ({ page := pg, off := off, uSize := n } :: live)
        ((pg, off, cur - off) :: carved)
  | free (m : CMemoryMgr) (live : List LiveBlock) (carved : List (Nat × Nat × Nat))
      (b : LiveBlock) (m1 : CMemoryMgr) :
      RunLog m live carved → b ∈ live →
      m.Free (Ptr.addr b.page b.off) b.uSize = some m1 →
      RunLog m1 (live.erase b) carved

/-- A write that `InitialiseCache` makes to one of the two tables: to the
member `pCacheBlock` or `uBlockSize` of `_blockCaches[i]`, or to
`_cacheIndexes[i]`. -/
inductive Write where
  | pCacheBlock (i : Nat) : Write
  | uBlockSize (i : Nat) : Write
  | cacheIndex (i : Nat) : Write
deriving DecidableEq, Repr

/-- The write is inside its table: `_blockCaches` has `MEM_CACHE_COUNT`
entries, `_cacheIndexes` has `MEM_ALLOCATOR_INDEXES`. -/
def Write.InBounds : Write → Bool
  | Write.pCacheBlock i => decide (i < MEM_CACHE_COUNT)
  | Write.uBlockSize i => decide (i < MEM_CACHE_COUNT)
  | Write.cacheIndex i => decide (i < MEM_ALLOCATOR_INDEXES)

/-- The variables of `InitialiseCache` with the record of the writes made so
far, in program order. -/
structure InitLog where
  vars : InitVars
  writes : List Write
deriving DecidableEq, Repr

/-- The statement `_cacheIndexes[uIndex++] = uCacheIndex;`, recorded. -/
def InitLog.writeIndex (s : InitLog) : Option InitLog :=
  (s.vars.writeIndex).map fun v =>
    { vars := v, writes := s.writes ++ [Write.cacheIndex s.vars.uIndex] }

/-- One round of a tier loop of `InitialiseCache` (see `InitVars.round`), each
of its writes recorded: `_blockCaches[uCacheIndex].pCacheBlock = nullptr;
_blockCaches[uCacheIndex].uBlockSize = uBlockSize; uBlockSize += uStep;` then
`uPerClass` times `_cacheIndexes[uIndex++] = uCacheIndex;` and
`uCacheIndex++`. -/
def InitLog.round (uStep uPerClass : Nat) (s : InitLog) : Option InitLog :=
  (arrWrite s.vars.blockCaches s.vars.uCacheIndex
      { pCacheBlock := Ptr.null, uBlockSize := s.vars.uBlockSize }).bind fun cs =>
    (loopM uPerClass InitLog.writeIndex
      { vars := { s.vars with blockCaches := cs, uBlockSize := s.vars.uBlockSize + uStep }
        writes := s.writes ++
          [Write.pCacheBlock s.vars.uCacheIndex, Write.uBlockSize s.vars.uCacheIndex] }).map
      fun s1 => { s1 with vars := { s1.vars with uCacheIndex := s1.vars.uCacheIndex + 1 } }

/-- The statement `uBlockSize += uStep;` between two tiers. -/
def InitLog.bump (uStep : Nat) (s : InitLog) : InitLog :=
  { s with vars := s.vars.bump uStep }

/-- The statements of `CMemoryMgr::InitialiseCache` (see
`InitialiseCacheVars`) with every write to the two tables recorded. -/
def InitialiseCacheLog (blockCaches : List CBlockCache) (cacheIndexes : List Nat) :
    Option InitLog :=
  (loopM 8 (InitLog.round 8 1)
      { vars := { blockCaches := blockCaches, cacheIndexes := cacheIndexes,
                  uBlockSize := 8, uCacheIndex := 0, uIndex := 0 }
        writes := [] }).bind fun s1 =>
  (loopM 4 (InitLog.round 16 2) (s1.bump 8)).bind fun s2 =>
  (loopM 4 (InitLog.round 32 4) (s2.bump 16)).bind fun s3 =>
  (loopM 4 (InitLog.round 64 8) (s3.bump 32)).bind fun s4 =>
  loopM 4 (InitLog.round 128 16) (s4.bump 64)

/-- Two recorded runs of `InitialiseCache` are in step: same record, same
local variables, arrays of the same lengths. -/
def InitLog.InStep (s t : InitLog) : Prop :=
  s.writes = t.writes ∧ s.vars.uBlockSize = t.vars.uBlockSize ∧
  s.vars.uCacheIndex = t.vars.uCacheIndex ∧ s.vars.uIndex = t.vars.uIndex ∧
  s.vars.blockCaches.length = t.vars.blockCaches.length ∧
  s.vars.cacheIndexes.length = t.vars.cacheIndexes.length

end EnginePlus

namespace Urho3D

/-! ## `Circle` (`Urho3D/Math/Circle.h`, `Circle.cpp`) -/

/-- A value of the type `float`: a NaN, an infinity or a finite value. The two
zeros are one value: no comparison tells them apart. -/
inductive Flt where
  | nan : Flt
  | negInf : Flt
  | posInf : Flt
  | fin (q : ℚ) : Flt
deriving DecidableEq

/-- The comparison `a < b` on `float`: false when either side is a NaN. -/
def Flt.lt : Flt → Flt → Bool
  | Flt.nan, _ => false
  | _, Flt.nan => false
  | _, Flt.negInf => false
  | Flt.negInf, _ => true
  | Flt.posInf, _ => false
  | Flt.fin _, Flt.posInf => true
  | Flt.fin a, Flt.fin b => decide (a < b)

/-- The comparison `a >= b` on `float`: false when either side is a NaN. -/
def Flt.ge : Flt → Flt → Bool
  | Flt.nan, _ => false
  | _, Flt.nan => false
  | _, Flt.negInf => true
  | Flt.negInf, _ => false
  | Flt.posInf, _ => true
  | Flt.fin _, Flt.posInf => false
  | Flt.fin a, Flt.fin b => decide (b ≤ a)

/-- The unary minus on `float`, which is exact. -/
def Flt.neg : Flt → Flt
  | Flt.nan => Flt.nan
  | Flt.negInf => Flt.posInf
  | Flt.posInf => Flt.negInf
  | Flt.fin q => Flt.fin (-q)

/-- What `Circle` takes from outside the two files: the constant `M_INFINITY`
of `MathDefs.h`, the class `Vector2` of `Vector2.h` (the type `V`) with its
constant `ZERO`, its operators and `Length()`, and the rounded arithmetic of
`float`. -/
structure Arith (V : Type) where
  M_INFINITY : Flt
  ZERO : V
  fadd : Flt → Flt → Flt
  fsub : Flt → Flt → Flt
  fmul : Flt → Flt → Flt
  fdiv : Flt → Flt → Flt
  vadd : V → V → V
  vsub : V → V → V
  smul : Flt → V → V
  vmul : V → Flt → V
  vdiv : V → Flt → V
  Length : V → Flt

/-- The class `Circle`: the members `center_` and `radius_`. -/
structure Circle (V : Type) where
  center_ : V
  radius_ : Flt

/-- The constructor `Circle()`: `center_(Vector2::ZERO), radius_(-M_INFINITY)`. -/
def Circle.ctor {V : Type} (ops : Arith V) : Circle V :=
  { center_ := ops.ZERO, radius_ := Flt.neg ops.M_INFINITY }

/-- The member `Merge(const Circle& Circle)` of `Circle.cpp`. -/
def Circle.MergeCircle {V : Type} (ops : Arith V) (c : Circle V) (circle : Circle V) :
    Circle V :=
  if c.radius_.lt (Flt.fin 0) then
    { c with center_ := circle.center_, radius_ := circle.radius_ }
  else
    let offset := ops.vsub circle.center_ c.center_
    let dist := ops.Length offset
    if (ops.fadd dist circle.radius_).lt c.radius_ then c
    else if (ops.fadd dist c.radius_).lt circle.radius_ then
      { c with center_ := circle.center_, radius_ := circle.radius_ }
    else
      let NormalizedOffset := ops.vdiv offset dist
      let min := ops.vsub c.center_ (ops.smul c.radius_ NormalizedOffset)
      let max := ops.vadd circle.center_ (ops.smul circle.radius_ NormalizedOffset)
      let c1 := { c with center_ := ops.vmul (ops.vadd min max) (Flt.fin (1 / 2)) }
      { c1 with radius_ := ops.Length (ops.vsub max c1.center_) }

/-- The member `Defined()`: `return radius_ >= 0.0f;`. -/
def Circle.Defined {V : Type} (c : Circle V) : Bool :=
  c.radius_.ge (Flt.fin 0)

/-- Exact addition on `Flt`: the sum of the values, NaN for the sum of the two
opposite infinities. -/
def Flt.addExact : Flt → Flt → Flt
  | Flt.nan, _ => Flt.nan
  | _, Flt.nan => Flt.nan
  | Flt.posInf, Flt.negInf => Flt.nan
  | Flt.negInf, Flt.posInf => Flt.nan
  | Flt.posInf, _ => Flt.posInf
  | _, Flt.posInf => Flt.posInf
  | Flt.negInf, _ => Flt.negInf
  | _, Flt.negInf => Flt.negInf
  | Flt.fin a, Flt.fin b => Flt.fin (a + b)

/-- The sign of a value, 0 for zero and for a NaN. -/
def Flt.sgn : Flt → Int
  | Flt.nan => 0
  | Flt.negInf => -1
  | Flt.posInf => 1
  | Flt.fin q => if 0 < q then 1 else if q < 0 then -1 else 0

/-- Exact multiplication on `Flt`: the product of two finite values, else the
infinity of the product of the signs, NaN for zero times an infinity. -/
def Flt.mulExact : Flt → Flt → Flt
  | Flt.nan, _ => Flt.nan
  | _, Flt.nan => Flt.nan
  | Flt.fin a, Flt.fin b => Flt.fin (a * b)
  | a, b =>
    if 0 < a.sgn * b.sgn then Flt.posInf
    else if a.sgn * b.sgn < 0 then Flt.negInf
    else Flt.nan

/-- The exact inverse on `Flt`, taking a zero as positive. -/
def Flt.invExact : Flt → Flt
  | Flt.nan => Flt.nan
  | Flt.negInf => Flt.fin 0
  | Flt.posInf => Flt.fin 0
  | Flt.fin q => if q = 0 then Flt.posInf else Flt.fin q⁻¹

/-- The absolute value on `Flt`. -/
def Flt.absExact : Flt → Flt
  | Flt.nan => Flt.nan
  | Flt.negInf => Flt.posInf
  | Flt.posInf => Flt.posInf
  | Flt.fin q => Flt.fin |q|

/-- An arithmetic to run `Circle` on: exact (unrounded) operations, and the
points of a line for `Vector2`: one coordinate, `Length()` its absolute
value. -/
def Arith.line : Arith Flt :=
  { M_INFINITY := Flt.posInf
    ZERO := Flt.fin 0
    fadd := Flt.addExact
    fsub := fun a b => Flt.addExact a (Flt.neg b)
    fmul := Flt.mulExact
    fdiv := fun a b => Flt.mulExact a (Flt.invExact b)
    vadd := Flt.addExact
    vsub := fun u v => Flt.addExact u (Flt.neg v)
    smul := Flt.mulExact
    vmul := Flt.mulExact
    vdiv := fun v a => Flt.mulExact v (Flt.invExact a)
    Length := Flt.absExact }

end Urho3D

/-! # Theorems -/

namespace EnginePlus

set_option maxRecDepth 100000

/-! ## `InitialiseCache` does not depend on the prior contents of the arrays -/

theorem take_get_of_take_eq {α : Type} {xs ys : List α} {i j : Nat}
    (ht : xs.take i = ys.take i) (hj : j < i) : xs[j]? = ys[j]? := by
  have h := congrArg (fun l => l[j]?) ht
  simpa [List.getElem?_take, hj] using h

theorem arrWrite_agree {α : Type} (xs ys : List α) (i : Nat) (v : α)
    (hl : xs.length = ys.length) (ht : xs.take i = ys.take i) :
    (arrWrite xs i v = none ∧ arrWrite ys i v = none) ∨
    ∃ xs1 ys1, arrWrite xs i v = some xs1 ∧ arrWrite ys i v = some ys1 ∧
      xs1.length = xs.length ∧ ys1.length = ys.length ∧
      xs1.take (i + 1) = ys1.take (i + 1) := by
  unfold arrWrite
  by_cases h : i < xs.length
  · right
    refine ⟨xs.set i v, ys.set i v, by simp [h], by simp [← hl, h], by simp, by simp, ?_⟩
    apply List.ext_getElem?
    intro j
    by_cases hj : j < i + 1
    · by_cases hji : j = i
      · subst hji
        simp [List.getElem?_take, List.getElem?_set, h, ← hl]
      · have hlt : j < i := by omega
        have := take_get_of_take_eq ht hlt
        have hij : ¬ i = j := fun e => hji e.symm
        simp [List.getElem?_take, List.getElem?_set, hj, this, hij]
    · simp [List.getElem?_take, hj]
  · left
    simp [h, ← hl]

theorem optRel_bind {R Q : InitVars → InitVars → Prop} {a b : Option InitVars}
    {f g : InitVars → Option InitVars} (hab : InitVars.OptRel R a b)
    (hfg : ∀ s t, R s t → InitVars.OptRel Q (f s) (g t)) :
    InitVars.OptRel Q (a.bind f) (b.bind g) := by
  cases a with
  | none =>
    cases b with
    | none => simp [InitVars.OptRel]
    | some t => exact hab.elim
  | some s =>
    cases b with
    | none => exact hab.elim
    | some t => simpa using hfg s t hab

theorem optRel_map {R Q : InitVars → InitVars → Prop} {a b : Option InitVars}
    {f g : InitVars → InitVars} (hab : InitVars.OptRel R a b)
    (hfg : ∀ s t, R s t → Q (f s) (g t)) :
    InitVars.OptRel Q (a.map f) (b.map g) := by
  cases a with
  | none =>
    cases b with
    | none => simp [InitVars.OptRel]
    | some t => exact hab.elim
  | some s =>
    cases b with
    | none => exact hab.elim
    | some t => simpa [InitVars.OptRel] using hfg s t hab

theorem loopM_rel {R : InitVars → InitVars → Prop} (body : InitVars → Option InitVars)
    (hbody : ∀ s t, R s t → InitVars.OptRel R (body s) (body t)) (n : Nat) :
    ∀ s t, R s t → InitVars.OptRel R (loopM n body s) (loopM n body t) := by
  induction n with
  | zero => intro s t h; simpa [loopM, InitVars.OptRel] using h
  | succ k ih =>
    intro s t h
    simp only [loopM]
    exact optRel_bind (hbody s t h) ih

theorem writeIndex_agree (d : Nat) (s t : InitVars) (h : s.AgreeTo (s.uCacheIndex + d) t) :
    InitVars.OptRel (fun a b => a.AgreeTo (a.uCacheIndex + d) b) s.writeIndex t.writeIndex := by
  obtain ⟨cs, ix, ub, uc, ui⟩ := s
  obtain ⟨cs2, ix2, ub2, uc2, ui2⟩ := t
  simp only [InitVars.AgreeTo] at h
  obtain ⟨h1, h2, h3, h4, h5, h6, h7⟩ := h
  subst h1 h2 h3
  unfold InitVars.writeIndex
  rcases arrWrite_agree ix ix2 ui uc h5 h7 with
    ⟨e1, e2⟩ | ⟨xs1, ys1, e1, e2, l1, l2, ht⟩
  · simp only [e1, e2]; simp [InitVars.OptRel]
  · simp only [e1, e2, Option.map_some', InitVars.OptRel, InitVars.AgreeTo]
    exact ⟨trivial, trivial, trivial, h4, by rw [l1, l2, h5], h6, ht⟩

theorem round_agree (uStep uPerClass : Nat) (s t : InitVars) (h : s.Agree t) :
    InitVars.OptRel InitVars.Agree (s.round uStep uPerClass) (t.round uStep uPerClass) := by
  obtain ⟨cs, ix, ub, uc, ui⟩ := s
  obtain ⟨cs2, ix2, ub2, uc2, ui2⟩ := t
  simp only [InitVars.Agree, InitVars.AgreeTo] at h
  obtain ⟨h1, h2, h3, h4, h5, h6, h7⟩ := h
  subst h1 h2 h3
  unfold InitVars.round
  rcases arrWrite_agree cs cs2 uc { pCacheBlock := Ptr.null, uBlockSize := ub } h4 h6 with
    ⟨e1, e2⟩ | ⟨xs1, ys1, e1, e2, l1, l2, ht⟩
  · simp only [e1, e2]; simp [InitVars.OptRel]
  · simp only [e1, e2, Option.some_bind]
    have hin : InitVars.AgreeTo (uc + 1)
        { blockCaches := xs1, cacheIndexes := ix, uBlockSize := ub + uStep,
          uCacheIndex := uc, uIndex := ui }
        { blockCaches := ys1, cacheIndexes := ix2, uBlockSize := ub + uStep,
          uCacheIndex := uc, uIndex := ui } :=
      ⟨rfl, rfl, rfl, by simp only [l1, l2, h4], h5, ht, h7⟩
    refine optRel_map
      (loopM_rel InitVars.writeIndex (writeIndex_agree 1) uPerClass _ _ hin) ?_
    rintro s1 t1 ⟨g1, g2, g3, g4, g5, g6, g7⟩
    exact ⟨g1, by simp only [g2], g3, g4, g5, g6, g7⟩

theorem bump_agree (uStep : Nat) (s t : InitVars) (h : s.Agree t) :
    (s.bump uStep).Agree (t.bump uStep) := by
  obtain ⟨g1, g2, g3, g4, g5, g6, g7⟩ := h
  exact ⟨by simp only [InitVars.bump, g1], g2, g3, g4, g5, g6, g7⟩

theorem InitialiseCacheVars_agree (cs cs2 : List CBlockCache) (ix ix2 : List Nat)
    (hc : cs.length = cs2.length) (hi : ix.length = ix2.length) :
    InitVars.OptRel InitVars.Agree (InitialiseCacheVars cs ix) (InitialiseCacheVars cs2 ix2) := by
  unfold InitialiseCacheVars
  have h0 : InitVars.Agree
      { blockCaches := cs, cacheIndexes := ix, uBlockSize := 8, uCacheIndex := 0, uIndex := 0 }
      { blockCaches := cs2, cacheIndexes := ix2, uBlockSize := 8, uCacheIndex := 0,
        uIndex := 0 } :=
    ⟨rfl, rfl, rfl, hc, hi, by simp, by simp⟩
  refine optRel_bind (loopM_rel _ (round_agree 8 1) 8 _ _ h0) fun s1 t1 h1 => ?_
  refine optRel_bind (loopM_rel _ (round_agree 16 2) 4 _ _ (bump_agree 8 _ _ h1))
    fun s2 t2 h2 => ?_
  refine optRel_bind (loopM_rel _ (round_agree 32 4) 4 _ _ (bump_agree 16 _ _ h2))
    fun s3 t3 h3 => ?_
  refine optRel_bind (loopM_rel _ (round_agree 64 8) 4 _ _ (bump_agree 32 _ _ h3))
    fun s4 t4 h4 => ?_
  exact loopM_rel _ (round_agree 128 16) 4 _ _ (bump_agree 64 _ _ h4)

/-- On default-constructed arrays `InitialiseCache` ends with `uCacheIndex = 24`
and `uIndex = 128`, having produced the 24 class sizes and the 128-entry
lookup table. -/
theorem InitialiseCacheVars_default :
    InitialiseCacheVars (List.replicate MEM_CACHE_COUNT (CBlockCache.ctor 0))
        (List.replicate MEM_ALLOCATOR_INDEXES 0) =
      some
        { blockCaches :=
            [8, 16, 24, 32, 40, 48, 56, 64, 80, 96, 112, 128, 160, 192, 224, 256,
              320, 384, 448, 512, 640, 768, 896, 1024].map
              fun n => { pCacheBlock := Ptr.null, uBlockSize := n }
          cacheIndexes :=
            [0, 1, 2, 3, 4, 5, 6, 7, 8, 8, 9, 9, 10, 10, 11, 11,
              12, 12, 12, 12, 13, 13, 13, 13, 14, 14, 14, 14, 15, 15, 15, 15,
              16, 16, 16, 16, 16, 16, 16, 16, 17, 17, 17, 17, 17, 17, 17, 17,
              18, 18, 18, 18, 18, 18, 18, 18, 19, 19, 19, 19, 19, 19, 19, 19,
              20, 20, 20, 20, 20, 20, 20, 20, 20, 20, 20, 20, 20, 20, 20, 20,
              21, 21, 21, 21, 21, 21, 21, 21, 21, 21, 21, 21, 21, 21, 21, 21,
              22, 22, 22, 22, 22, 22, 22, 22, 22, 22, 22, 22, 22, 22, 22, 22,
              23, 23, 23, 23, 23, 23, 23, 23, 23, 23, 23, 23, 23, 23, 23, 23]
          uBlockSize := 1152
          uCacheIndex := 24
          uIndex := 128 } := by
  decide

/-- For arrays of the declared lengths (`MEM_CACHE_COUNT`,
`MEM_ALLOCATOR_INDEXES`), whatever they held before, `InitialiseCache` is
defined and leaves the 24 class sizes with null heads and the lookup table. -/
theorem InitialiseCache_eq (cs : List CBlockCache) (ix : List Nat)
    (hc : cs.length = MEM_CACHE_COUNT) (hi : ix.length = MEM_ALLOCATOR_INDEXES) :
    InitialiseCache cs ix =
      some
        ([8, 16, 24, 32, 40, 48, 56, 64, 80, 96, 112, 128, 160, 192, 224, 256,
            320, 384, 448, 512, 640, 768, 896, 1024].map
            (fun n => { pCacheBlock := Ptr.null, uBlockSize := n }),
          [0, 1, 2, 3, 4, 5, 6, 7, 8, 8, 9, 9, 10, 10, 11, 11,
            12, 12, 12, 12, 13, 13, 13, 13, 14, 14, 14, 14, 15, 15, 15, 15,
            16, 16, 16, 16, 16, 16, 16, 16, 17, 17, 17, 17, 17, 17, 17, 17,
            18, 18, 18, 18, 18, 18, 18, 18, 19, 19, 19, 19, 19, 19, 19, 19,
            20, 20, 20, 20, 20, 20, 20, 20, 20, 20, 20, 20, 20, 20, 20, 20,
            21, 21, 21, 21, 21, 21, 21, 21, 21, 21, 21, 21, 21, 21, 21, 21,
            22, 22, 22, 22, 22, 22, 22, 22, 22, 22, 22, 22, 22, 22, 22, 22,
            23, 23, 23, 23, 23, 23, 23, 23, 23, 23, 23, 23, 23, 23, 23, 23]) := by
  have hagree := InitialiseCacheVars_agree cs
    (List.replicate MEM_CACHE_COUNT (CBlockCache.ctor 0)) ix
    (List.replicate MEM_ALLOCATOR_INDEXES 0) (by simp [hc]) (by simp [hi])
  rw [InitialiseCacheVars_default] at hagree
  unfold InitialiseCache
  cases hv : InitialiseCacheVars cs ix with
  | none => rw [hv] at hagree; exact hagree.elim
  | some st =>
    rw [hv] at hagree
    obtain ⟨g1, g2, g3, g4, g5, g6, g7⟩ := hagree
    simp only [List.length_map, List.length_cons, List.length_nil] at g4 g5
    simp only at g2 g3
    rw [g2, List.take_of_length_le (by omega), List.take_of_length_le (by simp)] at g6
    rw [g3, List.take_of_length_le (by omega), List.take_of_length_le (by simp)] at g7
    simp only [Option.map_some', g6, g7]

/-! ## The class table -/

theorem getElem?_eq_some_getD {α : Type} (l : List α) (i : Nat) (d : α)
    (h : i < l.length) : l[i]? = some (l.getD i d) := by
  rw [List.getD_eq_getElem?_getD, List.getElem?_eq_getElem h]; rfl

theorem CalcCacheIndex_eq (ix : List Nat) (s : Nat) (h1 : 1 ≤ s) (h2 : s ≤ MAX_BLOCK_SIZE) :
    CalcCacheIndex ix s = ix[(s - 1) / 8]? := by
  unfold CalcCacheIndex uBlockSizeFactor
  simp only [MIN_BLOCK_SIZE_STEP, UNSIGNED_RANGE, MAX_BLOCK_SIZE] at *
  have e : (if s % 8 = 0 then (s / 8 % 2 ^ 32 + 2 ^ 32 - 1) % 2 ^ 32 else s / 8 % 2 ^ 32)
      = (s - 1) / 8 := by
    split <;> omega
  simp only [e]

theorem classSizes_eq :
    classSizes = [8, 16, 24, 32, 40, 48, 56, 64, 80, 96, 112, 128, 160, 192, 224, 256,
      320, 384, 448, 512, 640, 768, 896, 1024] := by
  unfold classSizes
  rw [InitialiseCache_eq _ _ (by simp) (by simp)]
  rfl

theorem classIndexes_eq :
    classIndexes = [0, 1, 2, 3, 4, 5, 6, 7, 8, 8, 9, 9, 10, 10, 11, 11,
      12, 12, 12, 12, 13, 13, 13, 13, 14, 14, 14, 14, 15, 15, 15, 15,
      16, 16, 16, 16, 16, 16, 16, 16, 17, 17, 17, 17, 17, 17, 17, 17,
      18, 18, 18, 18, 18, 18, 18, 18, 19, 19, 19, 19, 19, 19, 19, 19,
      20, 20, 20, 20, 20, 20, 20, 20, 20, 20, 20, 20, 20, 20, 20, 20,
      21, 21, 21, 21, 21, 21, 21, 21, 21, 21, 21, 21, 21, 21, 21, 21,
      22, 22, 22, 22, 22, 22, 22, 22, 22, 22, 22, 22, 22, 22, 22, 22,
      23, 23, 23, 23, 23, 23, 23, 23, 23, 23, 23, 23, 23, 23, 23, 23] := by
  unfold classIndexes
  rw [InitialiseCache_eq _ _ (by simp) (by simp)]

/-- For arrays of the declared lengths `InitialiseCache` is defined, and its
result has the class sizes `classSizes`, null heads and the lookup table
`classIndexes`. -/
theorem InitialiseCache_tables (cs : List CBlockCache) (ix : List Nat)
    (hc : cs.length = MEM_CACHE_COUNT) (hi : ix.length = MEM_ALLOCATOR_INDEXES) :
    InitialiseCache cs ix =
      some (classSizes.map (fun n => { pCacheBlock := Ptr.null, uBlockSize := n }),
        classIndexes) := by
  rw [InitialiseCache_eq cs ix hc hi, classSizes_eq, classIndexes_eq]

theorem classSizes_length : classSizes.length = 24 := by
  rw [classSizes_eq]; rfl

theorem classIndexes_length : classIndexes.length = 128 := by
  rw [classIndexes_eq]; rfl

/-- The facts about the two tables from which the statements on
classification follow: entry `f` of the lookup table (it serves the sizes
`8 f + 1 .. 8 f + 8`) names a class whose size is at least `8 f + 8` and at
most `1024`, and every class size below that one is at most `8 f`. -/
theorem table_facts :
    ∀ f < 128, classIndexes.getD f 0 < 24 ∧
      8 * f + 8 ≤ classSizes.getD (classIndexes.getD f 0) 0 ∧
      classSizes.getD (classIndexes.getD f 0) 0 ≤ 1024 ∧
      ∀ c < 24, classSizes.getD c 0 < classSizes.getD (classIndexes.getD f 0) 0 →
        classSizes.getD c 0 ≤ 8 * f := by
  rw [classSizes_eq, classIndexes_eq]
  decide

theorem classIndexes_mono :
    ∀ g < 128, ∀ f < g + 1, classIndexes.getD f 0 ≤ classIndexes.getD g 0 := by
  rw [classIndexes_eq]
  decide

/-- Classification of a size in `[1, MAX_BLOCK_SIZE]` over the configured
table: it is defined, names a class below 24, and that class has the smallest
sufficient size. -/
theorem CalcCacheIndex_class (s : Nat) (h1 : 1 ≤ s) (h2 : s ≤ MAX_BLOCK_SIZE) :
    ∃ c sz, CalcCacheIndex classIndexes s = some c ∧ c < 24 ∧ classSizes[c]? = some sz ∧
      s ≤ sz ∧ sz ≤ 1024 ∧
      ∀ (c2 sz2 : Nat), classSizes[c2]? = some sz2 → s ≤ sz2 → sz ≤ sz2 := by
  have hf : (s - 1) / 8 < 128 := by
    simp only [MAX_BLOCK_SIZE] at h2; omega
  obtain ⟨t1, t2, t3, t4⟩ := table_facts _ hf
  have hlen := classIndexes_length
  have hlen2 := classSizes_length
  refine ⟨classIndexes.getD ((s - 1) / 8) 0,
    classSizes.getD (classIndexes.getD ((s - 1) / 8) 0) 0, ?_, t1, ?_, ?_, t3, ?_⟩
  · rw [CalcCacheIndex_eq _ _ h1 h2]
    exact getElem?_eq_some_getD _ _ _ (by omega)
  · exact getElem?_eq_some_getD _ _ _ (by omega)
  · omega
  · intro c2 sz2 hc2 hs
    have hlt : c2 < 24 := by
      have := List.getElem?_eq_some_iff.mp hc2
      obtain ⟨h, _⟩ := this
      omega
    have e : classSizes.getD c2 0 = sz2 := by
      rw [List.getD_eq_getElem?_getD, hc2]; rfl
    have := t4 c2 hlt
    rw [e] at this
    by_contra hcon
    have := this (by omega)
    omega

/-! ## The manager keeps its tables -/

theorem CMemoryMgr.ctor_eq (data : Heap) : CMemoryMgr.ctor data = some (CMemoryMgr.fresh data) := by
  unfold CMemoryMgr.ctor
  rw [InitialiseCache_tables _ _ (by simp) (by simp)]
  simp only [Option.map_some', CMemoryMgr.fresh]

theorem fresh_configured (data : Heap) : (CMemoryMgr.fresh data).Configured := by
  unfold CMemoryMgr.Configured
  simp only [CMemoryMgr.fresh, List.map_map, true_and]
  exact List.map_id _

theorem map_BlockSize_set (l : List CBlockCache) (i : Nat) (c : CBlockCache) (p : Ptr)
    (h : l[i]? = some c) :
    (l.set i { c with pCacheBlock := p }).map CBlockCache.BlockSize =
      l.map CBlockCache.BlockSize := by
  apply List.ext_getElem?
  intro j
  by_cases hj : i = j
  · subst hj
    obtain ⟨hlt, hget⟩ := List.getElem?_eq_some_iff.mp h
    simp [List.getElem?_map, List.getElem?_set, h, CBlockCache.BlockSize, hlt, hget]
  · simp [List.getElem?_map, List.getElem?_set, hj]

theorem AllocateFromPage_frame (m : CMemoryMgr) (n : Nat) :
    (m.AllocateFromPage n).2.blockCaches = m.blockCaches ∧
    (m.AllocateFromPage n).2.cacheIndexes = m.cacheIndexes ∧
    (m.AllocateFromPage n).2.data = m.data := by
  unfold CMemoryMgr.AllocateFromPage
  simp only
  split
  · exact ⟨rfl, rfl, rfl⟩
  · split
    · exact ⟨rfl, rfl, rfl⟩
    · split <;> exact ⟨rfl, rfl, rfl⟩

/-- In a configured manager a size in `[1, MAX_BLOCK_SIZE]` has a class: the
lookup is inside the table, the class ordinal inside `_blockCaches`, and the
class size is at least the size and at most `MAX_BLOCK_SIZE`. -/
theorem CMemoryMgr.Configured.lookup {m : CMemoryMgr} (hm : m.Configured) (s : Nat) (h1 : 1 ≤ s)
    (h2 : s ≤ MAX_BLOCK_SIZE) :
    ∃ c cache, CalcCacheIndex m.cacheIndexes s = some c ∧ c < 24 ∧
      m.blockCaches[c]? = some cache ∧ classSizes[c]? = some cache.uBlockSize ∧
      s ≤ cache.uBlockSize ∧ cache.uBlockSize ≤ 1024 := by
  obtain ⟨c, sz, e1, e2, e3, e4, e5, _⟩ := CalcCacheIndex_class s h1 h2
  have hsz := hm.2
  have hget : (m.blockCaches.map CBlockCache.BlockSize)[c]? = some sz := by rw [hsz, e3]
  simp only [List.getElem?_map, Option.map_eq_some'] at hget
  obtain ⟨cache, g1, g2⟩ := hget
  have g3 : cache.uBlockSize = sz := g2
  exact ⟨c, cache, by rw [hm.1, e1], e2, g1, by rw [g3, e3], by omega, by omega⟩

theorem Allocate_configured {m m1 : CMemoryMgr} {n : Nat} {r : AllocResult}
    (hm : m.Configured) (h : m.Allocate n = some (r, m1)) : m1.Configured := by
  unfold CMemoryMgr.Allocate at h
  split at h
  · simp only [Option.some.injEq, Prod.mk.injEq] at h
    obtain ⟨_, rfl⟩ := h
    exact hm
  · cases hc : CalcCacheIndex m.cacheIndexes n with
    | none => simp [hc] at h
    | some c =>
      cases hk : m.blockCaches[c]? with
      | none => simp [hc, hk] at h
      | some cache =>
        simp only [hc, hk, Option.some_bind] at h
        split at h
        · simp only [Option.some.injEq, Prod.mk.injEq] at h
          obtain ⟨_, rfl⟩ := h
          obtain ⟨f1, f2, _⟩ := AllocateFromPage_frame m cache.uBlockSize
          exact ⟨by rw [f2]; exact hm.1, by rw [f1]; exact hm.2⟩
        · simp only [Option.some.injEq, Prod.mk.injEq] at h
          obtain ⟨_, rfl⟩ := h
          exact ⟨hm.1, by
            simp only
            rw [map_BlockSize_set _ _ _ _ hk]; exact hm.2⟩

theorem Free_configured {m m1 : CMemoryMgr} {n : Nat} {p : Ptr}
    (hm : m.Configured) (h : m.Free p n = some m1) : m1.Configured := by
  unfold CMemoryMgr.Free at h
  split at h
  · cases p with
    | addr pg off => exact absurd h (by simp)
    | null =>
      simp only [Option.some.injEq] at h
      subst h
      exact hm
  · cases hc : CalcCacheIndex m.cacheIndexes n with
    | none => simp [hc] at h
    | some c =>
      cases hk : m.blockCaches[c]? with
      | none => simp [hc, hk] at h
      | some cache =>
        simp only [hc, hk, Option.some_bind] at h
        split at h
        · exact absurd h (by simp)
        · simp only [Option.some.injEq] at h
          subst h
          exact ⟨hm.1, by
            simp only
            rw [map_BlockSize_set _ _ _ _ hk]; exact hm.2⟩

theorem Reachable.configured {m : CMemoryMgr} (h : Reachable m) : m.Configured := by
  induction h with
  | ctor data m e =>
    rw [CMemoryMgr.ctor_eq] at e
    simp only [Option.some.injEq] at e
    subst e
    exact fresh_configured data
  | allocate m n r m1 _ e ih => exact Allocate_configured ih e
  | free m p n m1 _ e ih => exact Free_configured ih e

theorem CMemoryPage_Allocate_fits (p : CMemoryPage) (n : Nat) (h : n ≤ p.uFreeSize) :
    p.Allocate n = (Ptr.addr p.page p.pFreeData,
      { p with pFreeData := p.pFreeData + n, uFreeSize := p.uFreeSize - n }) := by
  have : ¬ n > p.uFreeSize := by omega
  simp [CMemoryPage.Allocate, this]

theorem CMemoryPage_Allocate_full (p : CMemoryPage) (n : Nat) (h : p.uFreeSize < n) :
    p.Allocate n = (Ptr.null, p) := by
  have : n > p.uFreeSize := h
  simp [CMemoryPage.Allocate, this]

/-- `Allocate` when the chain of the class is not empty. -/
theorem Allocate_hit (m : CMemoryMgr) (n c : Nat) (cache : CBlockCache) (pg off : Nat)
    (hn : n ≤ MAX_BLOCK_SIZE) (e1 : CalcCacheIndex m.cacheIndexes n = some c)
    (e2 : m.blockCaches[c]? = some cache) (e3 : cache.pCacheBlock = Ptr.addr pg off) :
    m.Allocate n = some (AllocResult.ptr (Ptr.addr pg off),
      { m with blockCaches :=
          m.blockCaches.set c { cache with pCacheBlock := m.data pg off } }) := by
  have hgt : ¬ n > MAX_BLOCK_SIZE := by omega
  unfold CMemoryMgr.Allocate
  simp only [hgt, if_false, e1, e2, Option.some_bind]
  rw [e3]

/-- `Allocate` when the chain of the class is empty. -/
theorem Allocate_miss (m : CMemoryMgr) (n c : Nat) (cache : CBlockCache)
    (hn : n ≤ MAX_BLOCK_SIZE) (e1 : CalcCacheIndex m.cacheIndexes n = some c)
    (e2 : m.blockCaches[c]? = some cache) (e3 : cache.pCacheBlock = Ptr.null) :
    m.Allocate n = some (AllocResult.ptr (m.AllocateFromPage cache.uBlockSize).1,
      (m.AllocateFromPage cache.uBlockSize).2) := by
  have hgt : ¬ n > MAX_BLOCK_SIZE := by omega
  unfold CMemoryMgr.Allocate
  simp only [hgt, if_false, e1, e2, Option.some_bind]
  rw [e3]

/-- `Free` of a non-null block of a bucketed size. -/
theorem Free_eq (m : CMemoryMgr) (n c : Nat) (cache : CBlockCache) (pg off : Nat)
    (hn : n ≤ MAX_BLOCK_SIZE) (e1 : CalcCacheIndex m.cacheIndexes n = some c)
    (e2 : m.blockCaches[c]? = some cache) :
    m.Free (Ptr.addr pg off) n =
      some { m with
        data := m.data.store pg off cache.pCacheBlock
        blockCaches :=
          m.blockCaches.set c { cache with pCacheBlock := Ptr.addr pg off } } := by
  have hgt : ¬ n > MAX_BLOCK_SIZE := by omega
  unfold CMemoryMgr.Free
  simp only [hgt, if_false, e1, e2, Option.some_bind]

/-- `AllocateFromPage` never returns null for a size that fits a page. -/
theorem AllocateFromPage_addr (m : CMemoryMgr) (n : Nat) (h : n ≤ MEMORY_PAGE_SIZE) :
    ∃ pg off, (m.AllocateFromPage n).1 = Ptr.addr pg off := by
  unfold CMemoryMgr.AllocateFromPage
  simp only
  by_cases ha : n ≤ m.pPageA.uFreeSize
  · simp [CMemoryPage_Allocate_fits _ _ ha]
  · rw [CMemoryPage_Allocate_full _ _ (by omega)]
    by_cases hb : n ≤ m.pPageB.uFreeSize
    · simp [CMemoryPage_Allocate_fits _ _ hb]
    · rw [CMemoryPage_Allocate_full _ _ (by omega)]
      have hn : n ≤ (CMemoryPage.ctor m.uPagesCreated).uFreeSize := h
      simp only [ne_eq, not_true_eq_false, if_false]
      rw [CMemoryPage_Allocate_fits _ _ hn]
      split <;> exact ⟨_, _, rfl⟩

/-- In a configured manager `Allocate` of a size in `[1, MAX_BLOCK_SIZE]` is
defined and returns an address inside a page. -/
theorem Allocate_addr {m : CMemoryMgr} (hm : m.Configured) (n : Nat)
    (h1 : 1 ≤ n) (h2 : n ≤ MAX_BLOCK_SIZE) :
    ∃ pg off m1, m.Allocate n = some (AllocResult.ptr (Ptr.addr pg off), m1) := by
  obtain ⟨c, cache, e1, _, e3, _, _, e6⟩ := hm.lookup n h1 h2
  cases hp : cache.pCacheBlock with
  | null =>
    obtain ⟨pg, off, e⟩ := AllocateFromPage_addr m cache.uBlockSize
      (by simp only [MEMORY_PAGE_SIZE]; omega)
    exact ⟨pg, off, _, by rw [Allocate_miss m n c cache h2 e1 e3 hp, e]⟩
  | addr pg off => exact ⟨pg, off, _, Allocate_hit m n c cache pg off h2 e1 e3 hp⟩

/-! ## Carving a block from a page -/

/-- What `AllocateFromPage` does to the pages, for a size that fits a page:
it returns an address `(pg, off)`; afterwards the page objects still have
distinct numbers below the counter, every page object held before is still
held with a cursor that has not moved back, a held page numbered `pg` has its
cursor at or beyond `off + n`, and every page numbered `pg` held before had
its cursor at or below `off`. -/
theorem AllocateFromPage_carve (m : CMemoryMgr) (n : Nat) (hn : n ≤ MEMORY_PAGE_SIZE)
    (hnd : (m.pages.map CMemoryPage.page).Nodup)
    (hlt : ∀ P ∈ m.pages, P.page < m.uPagesCreated) :
    ∃ pg off, (m.AllocateFromPage n).1 = Ptr.addr pg off ∧
      ((m.AllocateFromPage n).2.pages.map CMemoryPage.page).Nodup ∧
      (∀ P ∈ (m.AllocateFromPage n).2.pages,
        P.page < (m.AllocateFromPage n).2.uPagesCreated) ∧
      (∀ P ∈ m.pages, ∃ P1 ∈ (m.AllocateFromPage n).2.pages,
        P1.page = P.page ∧ P.pFreeData ≤ P1.pFreeData) ∧
      (∃ P1 ∈ (m.AllocateFromPage n).2.pages, P1.page = pg ∧ off + n ≤ P1.pFreeData) ∧
      (∀ P ∈ m.pages, P.page = pg → P.pFreeData ≤ off) := by
  simp only [CMemoryMgr.pages, List.map_cons, List.nodup_cons, List.mem_cons, List.mem_map,
    not_or, not_exists, not_and] at hnd hlt ⊢
  obtain ⟨⟨hAB, hAF⟩, hBF, hF⟩ := hnd
  have hA := hlt m.pPageA (Or.inl rfl)
  have hB := hlt m.pPageB (Or.inr (Or.inl rfl))
  have hFl : ∀ P ∈ m.pFilledPages, P.page < m.uPagesCreated :=
    fun P hP => hlt P (Or.inr (Or.inr hP))
  unfold CMemoryMgr.AllocateFromPage
  simp only
  by_cases ha : n ≤ m.pPageA.uFreeSize
  · simp only [CMemoryPage_Allocate_fits _ _ ha, ne_eq, reduceCtorEq, not_false_eq_true,
      if_true]
    refine ⟨_, _, rfl, ⟨⟨hAB, hAF⟩, hBF, hF⟩, ?_, ?_, ?_, ?_⟩
    · rintro P (rfl | rfl | hP)
      · exact hA
      · exact hB
      · exact hFl P hP
    · rintro P (rfl | rfl | hP)
      · exact ⟨_, Or.inl rfl, rfl, by simp⟩
      · exact ⟨_, Or.inr (Or.inl rfl), rfl, le_refl _⟩
      · exact ⟨P, Or.inr (Or.inr hP), rfl, le_refl _⟩
    · exact ⟨_, Or.inl rfl, rfl, le_refl _⟩
    · rintro P (rfl | rfl | hP) e
      · exact le_refl _
      · exact absurd e.symm hAB
      · exact absurd e (hAF P hP)
  · rw [CMemoryPage_Allocate_full _ _ (by omega)]
    simp only [ne_eq, not_true_eq_false, if_false]
    by_cases hb : n ≤ m.pPageB.uFreeSize
    · simp only [CMemoryPage_Allocate_fits _ _ hb, reduceCtorEq, not_false_eq_true, if_true]
      refine ⟨_, _, rfl, ⟨⟨hAB, hAF⟩, hBF, hF⟩, ?_, ?_, ?_, ?_⟩
      · rintro P (rfl | rfl | hP)
        · exact hA
        · exact hB
        · exact hFl P hP
      · rintro P (rfl | rfl | hP)
        · exact ⟨_, Or.inl rfl, rfl, le_refl _⟩
        · exact ⟨_, Or.inr (Or.inl rfl), rfl, by simp⟩
        · exact ⟨P, Or.inr (Or.inr hP), rfl, le_refl _⟩
      · exact ⟨_, Or.inr (Or.inl rfl), rfl, le_refl _⟩
      · rintro P (rfl | rfl | hP) e
        · exact absurd e hAB
        · exact le_refl _
        · exact absurd e (hBF P hP)
    · rw [CMemoryPage_Allocate_full _ _ (by omega)]
      simp only [not_true_eq_false, if_false]
      have hfit : n ≤ (CMemoryPage.ctor m.uPagesCreated).uFreeSize := hn
      rw [CMemoryPage_Allocate_fits _ _ hfit]
      have hfresh : ∀ P : CMemoryPage, P.page < m.uPagesCreated →
          ¬ P.page = m.uPagesCreated := fun P h => by omega
      split
      · simp only [List.map_cons, List.nodup_cons, List.mem_cons, List.mem_map, not_or,
          not_exists, not_and, CMemoryPage.ctor, forall_eq_or_imp]
        refine ⟨_, _, rfl, ⟨⟨hfresh _ hA, fun e => hAB e.symm, hAF⟩,
          ⟨hfresh _ hB, fun P hP => hfresh _ (hFl P hP)⟩, hBF, hF⟩,
          ⟨by omega, by omega, by omega, fun P hP => Nat.lt_succ_of_lt (hFl P hP)⟩,
          ⟨⟨_, Or.inl rfl, rfl, le_refl _⟩, ⟨_, Or.inr (Or.inr (Or.inl rfl)), rfl, le_refl _⟩,
            fun P hP => ⟨P, Or.inr (Or.inr (Or.inr hP)), rfl, le_refl _⟩⟩,
          ⟨_, Or.inr (Or.inl rfl), rfl, le_refl _⟩,
          fun e => absurd e (hfresh _ hA), fun e => absurd e (hfresh _ hB),
          fun P hP e => absurd e (hfresh _ (hFl P hP))⟩
      · simp only [List.map_cons, List.nodup_cons, List.mem_cons, List.mem_map, not_or,
          not_exists, not_and, CMemoryPage.ctor, forall_eq_or_imp]
        refine ⟨_, _, rfl, ⟨⟨?_, ?_, ?_⟩, ⟨?_, ?_⟩, ?_, hF⟩,
          ⟨by omega, by omega, by omega, fun P hP => Nat.lt_succ_of_lt (hFl P hP)⟩,
          ⟨⟨_, Or.inr (Or.inr (Or.inl rfl)), rfl, le_refl _⟩, ⟨_, Or.inr (Or.inl rfl), rfl, le_refl _⟩,
            fun P hP => ⟨P, Or.inr (Or.inr (Or.inr hP)), rfl, le_refl _⟩⟩,
          ⟨_, Or.inl rfl, rfl, le_refl _⟩,
          fun e => absurd e (hfresh _ hA), fun e => absurd e (hfresh _ hB),
          fun P hP e => absurd e (hfresh _ (hFl P hP))⟩ <;>
        first
          | omega
          | (intro P hP
             have h1 := hFl P hP
             have h2 := hAF P hP
             have h3 := hBF P hP
             omega)

/-- On a miss the page that gives the block has its cursor, after the call,
exactly `n` bytes beyond the block. -/
theorem AllocateFromPage_cursor (m : CMemoryMgr) (n : Nat) (hn : n ≤ MEMORY_PAGE_SIZE)
    (hnd : (m.pages.map CMemoryPage.page).Nodup)
    (hlt : ∀ P ∈ m.pages, P.page < m.uPagesCreated) :
    ∀ pg off, (m.AllocateFromPage n).1 = Ptr.addr pg off →
      (m.AllocateFromPage n).2.cursorOf pg = some (off + n) := by
  simp only [CMemoryMgr.pages, List.map_cons, List.nodup_cons, List.mem_cons, List.mem_map,
    not_or, not_exists, not_and] at hnd hlt
  obtain ⟨⟨hAB, hAF⟩, hBF, hF⟩ := hnd
  have hA := hlt m.pPageA (Or.inl rfl)
  have hB := hlt m.pPageB (Or.inr (Or.inl rfl))
  unfold CMemoryMgr.AllocateFromPage CMemoryMgr.cursorOf CMemoryMgr.pages
  simp only
  by_cases ha : n ≤ m.pPageA.uFreeSize
  · simp only [CMemoryPage_Allocate_fits _ _ ha, ne_eq, reduceCtorEq, not_false_eq_true,
      if_true]
    intro pg off e
    simp only [Ptr.addr.injEq] at e
    obtain ⟨rfl, rfl⟩ := e
    simp [List.find?]
  · rw [CMemoryPage_Allocate_full _ _ (by omega)]
    simp only [ne_eq, not_true_eq_false, if_false]
    by_cases hb : n ≤ m.pPageB.uFreeSize
    · simp only [CMemoryPage_Allocate_fits _ _ hb, reduceCtorEq, not_false_eq_true, if_true]
      intro pg off e
      simp only [Ptr.addr.injEq] at e
      obtain ⟨rfl, rfl⟩ := e
      simp [List.find?, hAB]
    · rw [CMemoryPage_Allocate_full _ _ (by omega)]
      simp only [not_true_eq_false, if_false]
      have hfit : n ≤ (CMemoryPage.ctor m.uPagesCreated).uFreeSize := hn
      rw [CMemoryPage_Allocate_fits _ _ hfit]
      have hA2 : ¬ m.pPageA.page = m.uPagesCreated := by omega
      split
      · intro pg off e
        simp only [Ptr.addr.injEq, CMemoryPage.ctor] at e
        obtain ⟨rfl, rfl⟩ := e
        simp [List.find?, CMemoryPage.ctor, hA2]
      · intro pg off e
        simp only [Ptr.addr.injEq, CMemoryPage.ctor] at e
        obtain ⟨rfl, rfl⟩ := e
        simp [List.find?, CMemoryPage.ctor]

/-! ## Free chains in memory -/

/-- A store to an address that is not on a chain leaves the chain as it is. -/
theorem FreeChain_store (h : Heap) (pg off : Nat) (v : Ptr) :
    ∀ (l : List (Nat × Nat)) (p : Ptr), (pg, off) ∉ l → FreeChain h p l →
      FreeChain (h.store pg off v) p l := by
  intro l
  induction l with
  | nil => intro p _ hc; exact hc
  | cons b rest ih =>
    intro p hn hc
    obtain ⟨e, hrest⟩ := hc
    have hb : ¬ (b.1 = pg ∧ b.2 = off) := by
      rintro ⟨e1, e2⟩
      exact hn (by rw [← e1, ← e2]; exact List.mem_cons_self _ _)
    have hr : (pg, off) ∉ rest := fun hm => hn (List.mem_cons_of_mem _ hm)
    refine ⟨e, ?_⟩
    have : h.store pg off v b.1 b.2 = h b.1 b.2 := by
      simp only [Heap.store, hb, if_false]
    rw [this]
    exact ih _ hr hrest

/-! ## The invariant of contract-respecting runs -/

theorem classSizes_pos : ∀ c < 24, 0 < classSizes.getD c 0 := by
  rw [classSizes_eq]
  decide

/-- Two carved blocks at the same address are the same block. -/
theorem Inv.addr_unique {m : CMemoryMgr} {live : List LiveBlock}
    {chain : Nat → List (Nat × Nat)} {all : List (Nat × Nat × Nat)}
    (h : Inv m live chain all) {x y : Nat × Nat × Nat} (hx : x ∈ all) (hy : y ∈ all)
    (e1 : x.1 = y.1) (e2 : x.2.1 = y.2.1) : x = y := by
  by_contra hne
  have hs := h.allSep x hx y hy hne
  have px := classSizes_pos _ (h.allBelow x hx).1
  have py := classSizes_pos _ (h.allBelow y hy).1
  rcases hs with hs | hs | hs
  · exact hs e1
  · omega
  · omega

theorem fresh_heads (data : Heap) (c : Nat) (cache : CBlockCache)
    (h : (CMemoryMgr.fresh data).blockCaches[c]? = some cache) :
    cache.pCacheBlock = Ptr.null := by
  simp only [CMemoryMgr.fresh, List.getElem?_map, Option.map_eq_some'] at h
  obtain ⟨n, _, rfl⟩ := h
  rfl

theorem inv_fresh (data : Heap) : Inv (CMemoryMgr.fresh data) [] (fun _ => []) [] where
  conf := fresh_configured data
  chains := fun c cache hc => fresh_heads data c cache hc
  pagesNodup := by simp [CMemoryMgr.pages, CMemoryMgr.fresh, CMemoryPage.ctor]
  pagesLt := by simp [CMemoryMgr.pages, CMemoryMgr.fresh, CMemoryPage.ctor]
  allSep := by simp
  allBelow := by simp
  liveIn := by simp
  chainIn := by simp
  liveNodup := by simp
  chainNodup := by simp
  liveFree := by simp

theorem inv_allocate_hit {m : CMemoryMgr} {live : List LiveBlock}
    {chain : Nat → List (Nat × Nat)} {all : List (Nat × Nat × Nat)}
    (h : Inv m live chain all) (n c : Nat) (cache : CBlockCache) (pg off : Nat)
    (h1 : 1 ≤ n) (h2 : n ≤ MAX_BLOCK_SIZE)
    (e1 : CalcCacheIndex m.cacheIndexes n = some c) (e2 : m.blockCaches[c]? = some cache)
    (e3 : cache.pCacheBlock = Ptr.addr pg off) :
    ∃ chain1,
      Inv { m with blockCaches :=
              m.blockCaches.set c { cache with pCacheBlock := m.data pg off } }
        ({ page := pg, off := off, uSize := n } :: live) chain1 all := by
  have hch := h.chains c cache e2
  rw [e3] at hch
  cases hcc : chain c with
  | nil =>
    rw [hcc] at hch
    exact absurd hch (by simp [FreeChain])
  | cons a rest =>
    rw [hcc] at hch
    obtain ⟨ea, hrest⟩ := hch
    obtain ⟨a1, a2⟩ := a
    simp only [Ptr.addr.injEq] at ea
    obtain ⟨ea1, ea2⟩ := ea
    subst ea1 ea2
    have hmem : (pg, off) ∈ chain c := by rw [hcc]; exact List.mem_cons_self _ _
    have hnd := h.chainNodup c
    rw [hcc] at hnd
    have hnotin : (pg, off) ∉ rest := (List.nodup_cons.mp hnd).1
    have hsub : ∀ (c2 : Nat) (a : Nat × Nat), a ∈ Function.update chain c rest c2 →
        a ∈ chain c2 := by
      intro c2 a ha
      by_cases hc : c2 = c
      · subst hc
        rw [Function.update_same] at ha
        rw [hcc]
        exact List.mem_cons_of_mem _ ha
      · rwa [Function.update_noteq hc] at ha
    have hlt : c < m.blockCaches.length := (List.getElem?_eq_some_iff.mp e2).1
    refine ⟨Function.update chain c rest, ?_⟩
    constructor
    · exact ⟨h.conf.1, by
        simp only
        rw [map_BlockSize_set _ _ _ _ e2]; exact h.conf.2⟩
    · intro c2 cache2 hc2
      simp only at hc2 ⊢
      by_cases hc : c2 = c
      · subst hc
        simp only [List.getElem?_set, hlt, if_true, Option.some.injEq] at hc2
        subst hc2
        rw [Function.update_same]
        exact hrest
      · have hc' : ¬ c = c2 := fun e => hc e.symm
        simp only [List.getElem?_set, hc', if_false] at hc2
        rw [Function.update_noteq hc]
        exact h.chains c2 cache2 hc2
    · exact h.pagesNodup
    · exact h.pagesLt
    · exact h.allSep
    · exact h.allBelow
    · intro b hb
      rcases List.mem_cons.mp hb with rfl | hb
      · refine ⟨h1, h2, c, ?_, h.chainIn c _ hmem⟩
        rw [← h.conf.1]; exact e1
      · exact h.liveIn b hb
    · intro c2 a ha
      exact h.chainIn c2 a (hsub c2 a ha)
    · simp only [List.map_cons, List.nodup_cons, List.mem_map, not_exists, not_and]
      refine ⟨?_, h.liveNodup⟩
      intro b hb e
      have := h.liveFree b hb c
      rw [e] at this
      exact this hmem
    · intro c2
      by_cases hc : c2 = c
      · subst hc
        rw [Function.update_same]
        exact (List.nodup_cons.mp hnd).2
      · rw [Function.update_noteq hc]
        exact h.chainNodup c2
    · intro b hb c2 hin
      rcases List.mem_cons.mp hb with rfl | hb
      · by_cases hc : c2 = c
        · subst hc
          rw [Function.update_same] at hin
          exact hnotin hin
        · rw [Function.update_noteq hc] at hin
          have hu := h.addr_unique (h.chainIn c2 _ hin) (h.chainIn c _ hmem) rfl rfl
          simp only [Prod.mk.injEq, true_and] at hu
          exact hc hu
      · exact h.liveFree b hb c2 (hsub c2 _ hin)

theorem inv_free {m : CMemoryMgr} {live : List LiveBlock}
    {chain : Nat → List (Nat × Nat)} {all : List (Nat × Nat × Nat)}
    (h : Inv m live chain all) (b : LiveBlock) (hb : b ∈ live) (c : Nat) (cache : CBlockCache)
    (e1 : CalcCacheIndex m.cacheIndexes b.uSize = some c)
    (e2 : m.blockCaches[c]? = some cache) :
    ∃ chain1,
      Inv { m with
              data := m.data.store b.page b.off cache.pCacheBlock
              blockCaches :=
                m.blockCaches.set c { cache with pCacheBlock := Ptr.addr b.page b.off } }
        (live.erase b) chain1 all := by
  have hlt : c < m.blockCaches.length := (List.getElem?_eq_some_iff.mp e2).1
  have hbc : (b.page, b.off, c) ∈ all := by
    obtain ⟨_, _, c2, g1, g2⟩ := h.liveIn b hb
    rw [← h.conf.1, e1] at g1
    simp only [Option.some.injEq] at g1
    subst g1
    exact g2
  have hstore : m.data.store b.page b.off cache.pCacheBlock b.page b.off = cache.pCacheBlock := by
    simp [Heap.store]
  have hlive : live.Nodup := List.Nodup.of_map _ h.liveNodup
  refine ⟨Function.update chain c ((b.page, b.off) :: chain c), ?_⟩
  constructor
  · exact ⟨h.conf.1, by
      simp only
      rw [map_BlockSize_set _ _ _ _ e2]; exact h.conf.2⟩
  · intro c2 cache2 hc2
    simp only at hc2 ⊢
    by_cases hc : c2 = c
    · subst hc
      simp only [List.getElem?_set, hlt, if_true, Option.some.injEq] at hc2
      subst hc2
      rw [Function.update_same]
      refine ⟨rfl, ?_⟩
      simp only [hstore]
      exact FreeChain_store _ _ _ _ _ _ (h.liveFree b hb c2) (h.chains c2 cache e2)
    · have hc' : ¬ c = c2 := fun e => hc e.symm
      simp only [List.getElem?_set, hc', if_false] at hc2
      rw [Function.update_noteq hc]
      exact FreeChain_store _ _ _ _ _ _ (h.liveFree b hb c2) (h.chains c2 cache2 hc2)
  · exact h.pagesNodup
  · exact h.pagesLt
  · exact h.allSep
  · exact h.allBelow
  · intro b2 hb2
    exact h.liveIn b2 (List.mem_of_mem_erase hb2)
  · intro c2 a ha
    by_cases hc : c2 = c
    · subst hc
      rw [Function.update_same] at ha
      rcases List.mem_cons.mp ha with rfl | ha
      · exact hbc
      · exact h.chainIn c2 a ha
    · rw [Function.update_noteq hc] at ha
      exact h.chainIn c2 a ha
  · exact List.Nodup.sublist ((List.erase_sublist b live).map _) h.liveNodup
  · intro c2
    by_cases hc : c2 = c
    · subst hc
      rw [Function.update_same]
      exact List.nodup_cons.mpr ⟨h.liveFree b hb c2, h.chainNodup c2⟩
    · rw [Function.update_noteq hc]
      exact h.chainNodup c2
  · intro b2 hb2 c2 hin
    obtain ⟨hne, hb2l⟩ := (hlive.mem_erase_iff).mp hb2
    by_cases hc : c2 = c
    · subst hc
      rw [Function.update_same] at hin
      rcases List.mem_cons.mp hin with e | hin
      · exact hne (List.inj_on_of_nodup_map h.liveNodup hb2l hb e)
      · exact h.liveFree b2 hb2l c2 hin
    · rw [Function.update_noteq hc] at hin
      exact h.liveFree b2 hb2l c2 hin

theorem inv_allocate_miss {m : CMemoryMgr} {live : List LiveBlock}
    {chain : Nat → List (Nat × Nat)} {all : List (Nat × Nat × Nat)}
    (h : Inv m live chain all) (n c : Nat) (cache : CBlockCache) (pg off : Nat)
    (h1 : 1 ≤ n) (h2 : n ≤ MAX_BLOCK_SIZE)
    (e1 : CalcCacheIndex m.cacheIndexes n = some c) (hc24 : c < 24)
    (e4 : classSizes[c]? = some cache.uBlockSize) (hsz : cache.uBlockSize ≤ 1024)
    (e : (m.AllocateFromPage cache.uBlockSize).1 = Ptr.addr pg off) :
    Inv (m.AllocateFromPage cache.uBlockSize).2
      ({ page := pg, off := off, uSize := n } :: live) chain ((pg, off, c) :: all) := by
  obtain ⟨pg1, off1, r1, r2, r3, r4, r5, r6⟩ :=
    AllocateFromPage_carve m cache.uBlockSize (by simp only [MEMORY_PAGE_SIZE]; omega)
      h.pagesNodup h.pagesLt
  rw [e] at r1
  simp only [Ptr.addr.injEq] at r1
  obtain ⟨rfl, rfl⟩ := r1
  obtain ⟨f1, f2, f3⟩ := AllocateFromPage_frame m cache.uBlockSize
  have hget : classSizes.getD c 0 = cache.uBlockSize := by
    rw [List.getD_eq_getElem?_getD, e4]; rfl
  have hkey : ∀ y ∈ all, y.1 = pg → y.2.1 + classSizes.getD y.2.2 0 ≤ off := by
    intro y hy ey
    obtain ⟨_, P, hP, g1, g2⟩ := h.allBelow y hy
    have := r6 P hP (by rw [g1, ey])
    omega
  have hnew : ∀ y ∈ all, ¬ (y.1 = pg ∧ y.2.1 = off) := by
    rintro y hy ⟨g1, g2⟩
    have := hkey y hy g1
    have := classSizes_pos _ (h.allBelow y hy).1
    omega
  constructor
  · exact ⟨by rw [f2]; exact h.conf.1, by rw [f1]; exact h.conf.2⟩
  · intro c2 cache2 hc2
    rw [f1] at hc2
    rw [f3]
    exact h.chains c2 cache2 hc2
  · exact r2
  · exact r3
  · intro x hx y hy hne
    rcases List.mem_cons.mp hx with rfl | hx
    · rcases List.mem_cons.mp hy with rfl | hy
      · exact absurd rfl hne
      · by_cases ey : y.1 = pg
        · exact Or.inr (Or.inr (hkey y hy ey))
        · exact Or.inl (fun e => ey e.symm)
    · rcases List.mem_cons.mp hy with rfl | hy
      · by_cases ex : x.1 = pg
        · exact Or.inr (Or.inl (hkey x hx ex))
        · exact Or.inl ex
      · exact h.allSep x hx y hy hne
  · intro x hx
    rcases List.mem_cons.mp hx with rfl | hx
    · obtain ⟨P1, hP1, g1, g2⟩ := r5
      exact ⟨hc24, P1, hP1, g1, by simp only [hget]; exact g2⟩
    · obtain ⟨g0, P, hP, g1, g2⟩ := h.allBelow x hx
      obtain ⟨P1, hP1, k1, k2⟩ := r4 P hP
      exact ⟨g0, P1, hP1, by rw [k1, g1], by omega⟩
  · intro b hb
    rcases List.mem_cons.mp hb with rfl | hb
    · exact ⟨h1, h2, c, by rw [← h.conf.1]; exact e1, List.mem_cons_self _ _⟩
    · obtain ⟨g1, g2, c2, g3, g4⟩ := h.liveIn b hb
      exact ⟨g1, g2, c2, g3, List.mem_cons_of_mem _ g4⟩
  · intro c2 a ha
    exact List.mem_cons_of_mem _ (h.chainIn c2 a ha)
  · simp only [List.map_cons, List.nodup_cons, List.mem_map, not_exists, not_and]
    refine ⟨?_, h.liveNodup⟩
    intro b hb eb
    obtain ⟨_, _, c2, _, g4⟩ := h.liveIn b hb
    simp only [Prod.mk.injEq] at eb
    exact hnew _ g4 ⟨eb.1, eb.2⟩
  · exact h.chainNodup
  · intro b hb c2 hin
    rcases List.mem_cons.mp hb with rfl | hb
    · exact hnew _ (h.chainIn c2 _ hin) ⟨rfl, rfl⟩
    · exact h.liveFree b hb c2 hin

/-- Every contract-respecting run satisfies the invariant, for some carved
blocks and some contents of the free chains. -/
theorem Run.inv {m : CMemoryMgr} {live : List LiveBlock} (h : Run m live) :
    ∃ chain all, Inv m live chain all := by
  induction h with
  | ctor data m e =>
    rw [CMemoryMgr.ctor_eq] at e
    simp only [Option.some.injEq] at e
    subst e
    exact ⟨_, _, inv_fresh data⟩
  | allocate m live n pg off m1 _ h1 h2 e ih =>
    obtain ⟨chain, all, hinv⟩ := ih
    obtain ⟨c, cache, e1, hc24, e3, e4, _, hsz⟩ := hinv.conf.lookup n h1 h2
    cases hp : cache.pCacheBlock with
    | null =>
      rw [Allocate_miss m n c cache h2 e1 e3 hp] at e
      simp only [Option.some.injEq, Prod.mk.injEq, AllocResult.ptr.injEq] at e
      obtain ⟨ep, rfl⟩ := e
      exact ⟨chain, _, inv_allocate_miss hinv n c cache pg off h1 h2 e1 hc24 e4 hsz ep⟩
    | addr pg2 off2 =>
      rw [Allocate_hit m n c cache pg2 off2 h2 e1 e3 hp] at e
      simp only [Option.some.injEq, Prod.mk.injEq, AllocResult.ptr.injEq,
        Ptr.addr.injEq] at e
      obtain ⟨⟨rfl, rfl⟩, rfl⟩ := e
      obtain ⟨chain1, hinv1⟩ := inv_allocate_hit hinv n c cache pg2 off2 h1 h2 e1 e3 hp
      exact ⟨chain1, all, hinv1⟩
  | free m live b m1 _ hb e ih =>
    obtain ⟨chain, all, hinv⟩ := ih
    obtain ⟨h1, h2, _⟩ := hinv.liveIn b hb
    obtain ⟨c, cache, e1, _, e3, _, _, _⟩ := hinv.conf.lookup b.uSize h1 h2
    rw [Free_eq m b.uSize c cache b.page b.off h2 e1 e3] at e
    simp only [Option.some.injEq] at e
    subst e
    obtain ⟨chain1, hinv1⟩ := inv_free hinv b hb c cache e1 e3
    exact ⟨chain1, all, hinv1⟩

theorem Run.reachable {m : CMemoryMgr} {live : List LiveBlock} (h : Run m live) :
    Reachable m := by
  induction h with
  | ctor data m e => exact Reachable.ctor data m e
  | allocate m live n pg off m1 _ _ _ e ih => exact Reachable.allocate m n _ m1 ih e
  | free m live b m1 _ _ e ih => exact Reachable.free m _ _ m1 ih e

/-- A live block is among the carved blocks, with the class of its size, and
the size of that class is what the manager computes for it. -/
theorem Inv.live_class {m : CMemoryMgr} {live : List LiveBlock}
    {chain : Nat → List (Nat × Nat)} {all : List (Nat × Nat × Nat)}
    (h : Inv m live chain all) (b : LiveBlock) (hb : b ∈ live) :
    ∃ c, (b.page, b.off, c) ∈ all ∧ m.classSize b.uSize = some (classSizes.getD c 0) := by
  obtain ⟨h1, h2, c, g1, g2⟩ := h.liveIn b hb
  obtain ⟨c2, cache, e1, _, e3, e4, _, _⟩ := h.conf.lookup b.uSize h1 h2
  rw [h.conf.1, g1] at e1
  simp only [Option.some.injEq] at e1
  subst e1
  refine ⟨c, g2, ?_⟩
  unfold CMemoryMgr.classSize
  rw [h.conf.1, g1]
  simp only [Option.some_bind, e3, Option.map_some', CBlockCache.BlockSize]
  rw [List.getD_eq_getElem?_getD, e4]
  rfl

theorem Inv.live_separated {m : CMemoryMgr} {live : List LiveBlock}
    {chain : Nat → List (Nat × Nat)} {all : List (Nat × Nat × Nat)}
    (h : Inv m live chain all) :
    live.Pairwise fun a b => (a.page, a.off) ≠ (b.page, b.off) ∧ Separated m a b := by
  have hnd : live.Pairwise fun a b => (a.page, a.off) ≠ (b.page, b.off) :=
    List.pairwise_map.mp h.liveNodup
  refine List.Pairwise.imp_of_mem ?_ hnd
  intro a b ha hb hne
  obtain ⟨ca, ga, ea⟩ := h.live_class a ha
  obtain ⟨cb, gb, eb⟩ := h.live_class b hb
  have hxy : (a.page, a.off, ca) ≠ (b.page, b.off, cb) := by
    intro e
    simp only [Prod.mk.injEq] at e
    exact hne (by rw [e.1, e.2.1])
  exact ⟨hne, _, _, ea, eb, h.allSep _ ga _ gb hxy⟩

/-! ## Claims on the size classes -/

/-- C4: after `InitialiseCache`, for every size `s` with `1 ≤ s ≤ 1024`,
`CalcCacheIndex s` is defined and returns the ordinal `c` of the smallest
sufficient class: `_blockCaches[c].uBlockSize ≥ s`, and every class whose size
is at least `s` has a size at least that of class `c`. -/
theorem CalcCacheIndex_smallest_sufficient (cs : List CBlockCache) (ix : List Nat)
    (hc : cs.length = MEM_CACHE_COUNT) (hi : ix.length = MEM_ALLOCATOR_INDEXES) :
    ∃ caches idx, InitialiseCache cs ix = some (caches, idx) ∧
      ∀ s, 1 ≤ s → s ≤ MAX_BLOCK_SIZE →
        ∃ c cache, CalcCacheIndex idx s = some c ∧ caches[c]? = some cache ∧
          s ≤ cache.BlockSize ∧
          ∀ (c2 : Nat) (cache2 : CBlockCache), caches[c2]? = some cache2 →
            s ≤ cache2.BlockSize → cache.BlockSize ≤ cache2.BlockSize := by
  refine ⟨_, _, InitialiseCache_tables cs ix hc hi, ?_⟩
  intro s h1 h2
  obtain ⟨c, sz, e1, e2, e3, e4, e5, e6⟩ := CalcCacheIndex_class s h1 h2
  refine ⟨c, { pCacheBlock := Ptr.null, uBlockSize := sz }, e1, ?_, e4, ?_⟩
  · simp [List.getElem?_map, e3]
  · intro c2 cache2 hc2 hs
    simp only [List.getElem?_map, Option.map_eq_some'] at hc2
    obtain ⟨sz2, g1, g2⟩ := hc2
    subst g2
    exact e6 c2 sz2 g1 hs

/-- C4, at the arrays of a new manager. -/
theorem CalcCacheIndex_smallest_sufficient_witness :
    (List.replicate 24 (CBlockCache.ctor 0)).length = MEM_CACHE_COUNT ∧
    (List.replicate 128 0).length = MEM_ALLOCATOR_INDEXES ∧
    ∃ caches idx,
      InitialiseCache (List.replicate 24 (CBlockCache.ctor 0)) (List.replicate 128 0) =
        some (caches, idx) ∧
      ∀ s, 1 ≤ s → s ≤ MAX_BLOCK_SIZE →
        ∃ c cache, CalcCacheIndex idx s = some c ∧ caches[c]? = some cache ∧
          s ≤ cache.BlockSize ∧
          ∀ (c2 : Nat) (cache2 : CBlockCache), caches[c2]? = some cache2 →
            s ≤ cache2.BlockSize → cache.BlockSize ≤ cache2.BlockSize :=
  ⟨by simp [MEM_CACHE_COUNT], by simp [MEM_ALLOCATOR_INDEXES, MAX_BLOCK_SIZE, MIN_BLOCK_SIZE_STEP],
    CalcCacheIndex_smallest_sufficient _ _ (by simp [MEM_CACHE_COUNT])
      (by simp [MEM_ALLOCATOR_INDEXES, MAX_BLOCK_SIZE, MIN_BLOCK_SIZE_STEP])⟩

/-- C5: classification is monotonic: after `InitialiseCache`, for all `s ≤ t`
in `[1, 1024]`, `CalcCacheIndex s` and `CalcCacheIndex t` are defined and
`CalcCacheIndex s ≤ CalcCacheIndex t`. -/
theorem CalcCacheIndex_monotone (cs : List CBlockCache) (ix : List Nat)
    (hc : cs.length = MEM_CACHE_COUNT) (hi : ix.length = MEM_ALLOCATOR_INDEXES) :
    ∃ caches idx, InitialiseCache cs ix = some (caches, idx) ∧
      ∀ s t, 1 ≤ s → s ≤ t → t ≤ MAX_BLOCK_SIZE →
        ∃ c d, CalcCacheIndex idx s = some c ∧ CalcCacheIndex idx t = some d ∧ c ≤ d := by
  refine ⟨_, _, InitialiseCache_tables cs ix hc hi, ?_⟩
  intro s t h1 h2 h3
  have hlen := classIndexes_length
  have hg : (t - 1) / 8 < 128 := by
    simp only [MAX_BLOCK_SIZE] at h3; omega
  have hfg : (s - 1) / 8 < (t - 1) / 8 + 1 := by omega
  refine ⟨classIndexes.getD ((s - 1) / 8) 0, classIndexes.getD ((t - 1) / 8) 0, ?_, ?_,
    classIndexes_mono _ hg _ hfg⟩
  · rw [CalcCacheIndex_eq _ _ h1 (by omega)]
    exact getElem?_eq_some_getD _ _ _ (by omega)
  · rw [CalcCacheIndex_eq _ _ (by omega) h3]
    exact getElem?_eq_some_getD _ _ _ (by omega)

/-- C5, at the arrays of a new manager. -/
theorem CalcCacheIndex_monotone_witness :
    (List.replicate 24 (CBlockCache.ctor 0)).length = MEM_CACHE_COUNT ∧
    (List.replicate 128 0).length = MEM_ALLOCATOR_INDEXES ∧
    ∃ caches idx,
      InitialiseCache (List.replicate 24 (CBlockCache.ctor 0)) (List.replicate 128 0) =
        some (caches, idx) ∧
      ∀ s t, 1 ≤ s → s ≤ t → t ≤ MAX_BLOCK_SIZE →
        ∃ c d, CalcCacheIndex idx s = some c ∧ CalcCacheIndex idx t = some d ∧ c ≤ d :=
  ⟨by simp [MEM_CACHE_COUNT], by simp [MEM_ALLOCATOR_INDEXES, MAX_BLOCK_SIZE, MIN_BLOCK_SIZE_STEP],
    CalcCacheIndex_monotone _ _ (by simp [MEM_CACHE_COUNT])
      (by simp [MEM_ALLOCATOR_INDEXES, MAX_BLOCK_SIZE, MIN_BLOCK_SIZE_STEP])⟩

/-- C6: `InitialiseCache` configures exactly 24 classes whose sizes are
strictly ascending in five tiers: eight classes in steps of 8 (8 .. 64), then
four classes each in steps of 16 (80 .. 128), 32 (160 .. 256), 64 (320 .. 512)
and 128 (640 .. 1024); the smallest size is 8, the largest is
`MAX_BLOCK_SIZE`, and every free chain starts empty (null head, so
`CBlockCache::Allocate` returns null). -/
theorem InitialiseCache_five_tiers (cs : List CBlockCache) (ix : List Nat)
    (hc : cs.length = MEM_CACHE_COUNT) (hi : ix.length = MEM_ALLOCATOR_INDEXES) :
    ∃ caches idx, InitialiseCache cs ix = some (caches, idx) ∧
      caches.length = 24 ∧
      caches.map CBlockCache.BlockSize =
        (List.range 8).map (fun k => 8 + 8 * k) ++
        (List.range 4).map (fun k => 80 + 16 * k) ++
        (List.range 4).map (fun k => 160 + 32 * k) ++
        (List.range 4).map (fun k => 320 + 64 * k) ++
        (List.range 4).map (fun k => 640 + 128 * k) ∧
      (caches.map CBlockCache.BlockSize).Pairwise (fun a b => a < b) ∧
      (caches.map CBlockCache.BlockSize).head? = some 8 ∧
      (caches.map CBlockCache.BlockSize).getLast? = some MAX_BLOCK_SIZE ∧
      ∀ c ∈ caches, c.pCacheBlock = Ptr.null ∧
        ∀ h : Heap, c.Allocate h = (Ptr.null, c) := by
  refine ⟨_, _, InitialiseCache_eq cs ix hc hi, by decide, by decide, by decide, by decide,
    by decide, ?_⟩
  intro c hmem
  obtain ⟨n, _, rfl⟩ := List.mem_map.mp hmem
  exact ⟨rfl, fun _ => rfl⟩

/-- C6, at the arrays of a new manager. -/
theorem InitialiseCache_five_tiers_witness :
    (List.replicate 24 (CBlockCache.ctor 0)).length = MEM_CACHE_COUNT ∧
    (List.replicate 128 0).length = MEM_ALLOCATOR_INDEXES ∧
    ∃ caches idx,
      InitialiseCache (List.replicate 24 (CBlockCache.ctor 0)) (List.replicate 128 0) =
        some (caches, idx) ∧
      caches.length = 24 ∧
      caches.map CBlockCache.BlockSize =
        (List.range 8).map (fun k => 8 + 8 * k) ++
        (List.range 4).map (fun k => 80 + 16 * k) ++
        (List.range 4).map (fun k => 160 + 32 * k) ++
        (List.range 4).map (fun k => 320 + 64 * k) ++
        (List.range 4).map (fun k => 640 + 128 * k) ∧
      (caches.map CBlockCache.BlockSize).Pairwise (fun a b => a < b) ∧
      (caches.map CBlockCache.BlockSize).head? = some 8 ∧
      (caches.map CBlockCache.BlockSize).getLast? = some MAX_BLOCK_SIZE ∧
      ∀ c ∈ caches, c.pCacheBlock = Ptr.null ∧
        ∀ h : Heap, c.Allocate h = (Ptr.null, c) :=
  ⟨by simp [MEM_CACHE_COUNT], by simp [MEM_ALLOCATOR_INDEXES, MAX_BLOCK_SIZE, MIN_BLOCK_SIZE_STEP],
    InitialiseCache_five_tiers _ _ (by simp [MEM_CACHE_COUNT])
      (by simp [MEM_ALLOCATOR_INDEXES, MAX_BLOCK_SIZE, MIN_BLOCK_SIZE_STEP])⟩

/-! ## Claims on `CMemoryPage` and `CBlockCache` -/

/-- C8: `CMemoryPage::Allocate(n)` on a page with cursor offset `k` and free
size `f`: if `n ≤ f` it returns the address at offset `k` and leaves cursor
`k + n` and free size `f - n`; if `n > f` it returns null and leaves the page
unchanged.  A freshly constructed page has cursor 0 and free size 16384. -/
theorem CMemoryPage_Allocate_spec (f k page n : Nat) :
    (n ≤ f →
      CMemoryPage.Allocate { uFreeSize := f, pFreeData := k, page := page } n =
        (Ptr.addr page k, { uFreeSize := f - n, pFreeData := k + n, page := page })) ∧
    (f < n →
      CMemoryPage.Allocate { uFreeSize := f, pFreeData := k, page := page } n =
        (Ptr.null, { uFreeSize := f, pFreeData := k, page := page })) ∧
    (CMemoryPage.ctor page).pFreeData = 0 ∧
    (CMemoryPage.ctor page).FreeSize = MEMORY_PAGE_SIZE ∧
    MEMORY_PAGE_SIZE = 16384 := by
  refine ⟨fun h => ?_, fun h => ?_, rfl, rfl, rfl⟩
  · have : ¬ n > f := by omega
    simp [CMemoryPage.Allocate, this]
  · have : n > f := h
    simp [CMemoryPage.Allocate, this]

/-- C9: `CBlockCache` behaves as a stack of blocks.  `Allocate()` on an empty
cache returns null and leaves the cache unchanged; on a non-empty cache it
returns the head and makes the head's `pNext` (the tail) the new head.
`Free(b)` makes `b` the head with the former head as its `pNext`, changing no
other word of memory, so `Free(b)` followed by `Allocate()` returns `b` and
restores the cache.  Neither changes `BlockSize()`.  In terms of the blocks on
the chain: `Allocate()` on the chain `b :: l` returns `b` and leaves `l`;
`Free(b)` on the chain `l`, `b` not on it, leaves `b :: l`, and the
following `Allocate()` leaves `l` again. -/
theorem CBlockCache_stack (h : Heap) (c : CBlockCache) :
    (c.pCacheBlock = Ptr.null → c.Allocate h = (Ptr.null, c)) ∧
    (∀ pg off, c.pCacheBlock = Ptr.addr pg off →
      c.Allocate h = (Ptr.addr pg off, { c with pCacheBlock := h pg off })) ∧
    (c.Allocate h).2.BlockSize = c.BlockSize ∧
    (∀ pg off, ∃ h1 c1, c.Free h (Ptr.addr pg off) = some (h1, c1) ∧
      c1.pCacheBlock = Ptr.addr pg off ∧ h1 pg off = c.pCacheBlock ∧
      (∀ pg2 off2, (pg2, off2) ≠ (pg, off) → h1 pg2 off2 = h pg2 off2) ∧
      c1.BlockSize = c.BlockSize ∧
      c1.Allocate h1 = (Ptr.addr pg off, c)) ∧
    (∀ b l, FreeChain h c.pCacheBlock (b :: l) →
      (c.Allocate h).1 = Ptr.addr b.1 b.2 ∧ FreeChain h (c.Allocate h).2.pCacheBlock l) ∧
    (FreeChain h c.pCacheBlock [] → (c.Allocate h).1 = Ptr.null) ∧
    (∀ pg off l, FreeChain h c.pCacheBlock l → (pg, off) ∉ l →
      ∃ h1 c1, c.Free h (Ptr.addr pg off) = some (h1, c1) ∧
        FreeChain h1 c1.pCacheBlock ((pg, off) :: l) ∧
        FreeChain h1 (c1.Allocate h1).2.pCacheBlock l) := by
  obtain ⟨head, sz⟩ := c
  refine ⟨?_, ?_, ?_, ?_, ?_, ?_, ?_⟩
  · intro e
    simp only at e
    subst e
    rfl
  · intro pg off e
    simp only at e
    subst e
    rfl
  · cases head <;> rfl
  · intro pg off
    refine ⟨_, _, rfl, rfl, by simp [Heap.store], ?_, rfl, ?_⟩
    · intro pg2 off2 hne
      have : ¬ (pg2 = pg ∧ off2 = off) := by
        rintro ⟨e1, e2⟩; exact hne (by rw [e1, e2])
      simp only [Heap.store, this, if_false]
    · simp [CBlockCache.Allocate, Heap.store]
  · intro b l hc
    obtain ⟨e, hrest⟩ := hc
    simp only at e
    subst e
    exact ⟨rfl, hrest⟩
  · intro hc
    have e : head = Ptr.null := hc
    subst e
    rfl
  · intro pg off l hc hn
    refine ⟨_, _, rfl, ⟨rfl, ?_⟩, ?_⟩
    · simp only [Heap.store, and_self, if_true]
      exact FreeChain_store h pg off head l head hn hc
    · simp only [CBlockCache.Allocate, Heap.store, and_self, if_true]
      exact FreeChain_store h pg off head l head hn hc

/-- C10 as stated fails: `Initialise` on a cache whose chain holds a block
sets the size and keeps the chain, and the next `Allocate()` returns that
block. -/
theorem CBlockCache_Initialise_keeps_chain :
    (CBlockCache.Initialise { pCacheBlock := Ptr.addr 0 0, uBlockSize := 8 } 16).BlockSize = 16 ∧
    ((CBlockCache.Initialise { pCacheBlock := Ptr.addr 0 0, uBlockSize := 8 } 16).Allocate
      Heap.nulls).1 = Ptr.addr 0 0 ∧
    ¬ ((CBlockCache.Initialise { pCacheBlock := Ptr.addr 0 0, uBlockSize := 8 } 16).Allocate
      Heap.nulls).1 = Ptr.null := by
  decide

/-- C10, amended: for every cache state and every `blockSize`, after
`Initialise(blockSize)` we have `BlockSize() = blockSize` and the head of the
free chain is what it was; for a newly constructed cache (null head by the
default member initialiser) the chain is therefore empty and the next
`Allocate()` returns null. -/
theorem CBlockCache_Initialise_spec (c : CBlockCache) (blockSize : Nat) :
    (c.Initialise blockSize).BlockSize = blockSize ∧
    (c.Initialise blockSize).pCacheBlock = c.pCacheBlock ∧
    ∀ (uJunk : Nat) (h : Heap),
      ((CBlockCache.ctor uJunk).Initialise blockSize).pCacheBlock = Ptr.null ∧
      (((CBlockCache.ctor uJunk).Initialise blockSize).Allocate h).1 = Ptr.null :=
  ⟨rfl, rfl, fun _ _ => ⟨rfl, rfl⟩⟩

/-! ## Claims on `CMemoryMgr::Allocate` and `CMemoryMgr::Free` -/

/-- C1 as stated fails at size 0, which satisfies `size ≤ MAX_BLOCK_SIZE`: in
the manager just constructed, `CalcCacheIndex(0)` decrements the factor `0`,
the `unsigned` wraps to `4294967295`, the read of `_cacheIndexes` is outside
the table and `Allocate(0)` has no defined result. -/
theorem Allocate_zero_undefined :
    0 ≤ MAX_BLOCK_SIZE ∧
    uBlockSizeFactor 0 = 4294967295 ∧
    (CMemoryMgr.ctor Heap.nulls).isSome = true ∧
    (CMemoryMgr.ctor Heap.nulls).bind (fun m => CalcCacheIndex m.cacheIndexes 0) = none ∧
    ((CMemoryMgr.ctor Heap.nulls).bind fun m => m.Allocate 0).isNone = true := by
  decide

/-- C1, amended: for every manager state reachable from construction and
every size with `1 ≤ size ≤ MAX_BLOCK_SIZE`, `Allocate(size)` is defined (no
table access out of range) and returns a non-null pointer, not the result of
a `malloc` call. -/
theorem Allocate_never_fails (m : CMemoryMgr) (n : Nat) (hm : Reachable m)
    (h1 : 1 ≤ n) (h2 : n ≤ MAX_BLOCK_SIZE) :
    ∃ pg off m1, m.Allocate n = some (AllocResult.ptr (Ptr.addr pg off), m1) :=
  Allocate_addr hm.configured n h1 h2

/-- C1 amended, at the manager just constructed and size 1000. -/
theorem Allocate_never_fails_witness :
    Reachable (CMemoryMgr.fresh Heap.nulls) ∧ 1 ≤ 1000 ∧ 1000 ≤ MAX_BLOCK_SIZE ∧
    ∃ pg off m1, (CMemoryMgr.fresh Heap.nulls).Allocate 1000 =
      some (AllocResult.ptr (Ptr.addr pg off), m1) :=
  ⟨Reachable.ctor _ _ (CMemoryMgr.ctor_eq _), by decide, by decide,
    Allocate_never_fails _ _ (Reachable.ctor _ _ (CMemoryMgr.ctor_eq _)) (by decide)
      (by decide)⟩

theorem Free_then_Allocate {m : CMemoryMgr} (hm : m.Configured) (pg off s t : Nat)
    (hs1 : 1 ≤ s) (hs2 : s ≤ MAX_BLOCK_SIZE) (ht2 : t ≤ MAX_BLOCK_SIZE)
    (hst : CalcCacheIndex m.cacheIndexes t = CalcCacheIndex m.cacheIndexes s) :
    ∃ m1 m2, m.Free (Ptr.addr pg off) s = some m1 ∧
      m1.Allocate t = some (AllocResult.ptr (Ptr.addr pg off), m2) := by
  obtain ⟨c, cache, e1, _, e3, _, _, _⟩ := hm.lookup s hs1 hs2
  have hlt : c < m.blockCaches.length := (List.getElem?_eq_some_iff.mp e3).1
  exact ⟨_, _, Free_eq m s c cache pg off hs2 e1 e3,
    Allocate_hit _ t c { cache with pCacheBlock := Ptr.addr pg off } pg off ht2
      (by rw [← e1, ← hst]) (by simp [hlt]) rfl⟩

/-- C3: LIFO recycling.  In every reachable manager state and for every `n`
in `[1, MAX_BLOCK_SIZE]`, the calls `p = Allocate(n)`, `Free(p, n)`,
`q = Allocate(n)` made in that order are all defined, `p` is non-null and
`q = p`; more generally, for sizes `s`, `t` in `[1, MAX_BLOCK_SIZE]` of the
same class, after `Free(p, s)` the next `Allocate(t)` returns `p`. -/
theorem Allocate_Free_Allocate_same (m : CMemoryMgr) (hm : Reachable m) :
    (∀ n, 1 ≤ n → n ≤ MAX_BLOCK_SIZE →
      ∃ pg off m1 m2 m3,
        m.Allocate n = some (AllocResult.ptr (Ptr.addr pg off), m1) ∧
        m1.Free (Ptr.addr pg off) n = some m2 ∧
        m2.Allocate n = some (AllocResult.ptr (Ptr.addr pg off), m3)) ∧
    (∀ pg off s t, 1 ≤ s → s ≤ MAX_BLOCK_SIZE → 1 ≤ t → t ≤ MAX_BLOCK_SIZE →
      CalcCacheIndex m.cacheIndexes t = CalcCacheIndex m.cacheIndexes s →
      ∃ m1 m2, m.Free (Ptr.addr pg off) s = some m1 ∧
        m1.Allocate t = some (AllocResult.ptr (Ptr.addr pg off), m2)) := by
  refine ⟨?_, ?_⟩
  · intro n h1 h2
    obtain ⟨pg, off, m1, e⟩ := Allocate_addr hm.configured n h1 h2
    have hm1 : m1.Configured := Allocate_configured hm.configured e
    obtain ⟨m2, m3, e2, e3⟩ := Free_then_Allocate hm1 pg off n n h1 h2 h2 rfl
    exact ⟨pg, off, m1, m2, m3, e, e2, e3⟩
  · intro pg off s t hs1 hs2 ht1 ht2 hst
    exact Free_then_Allocate hm.configured pg off s t hs1 hs2 ht2 hst

/-- C3, at the manager just constructed: with `n = 24`, and with the sizes
`s = 9` and `t = 16`, which both belong to the class of size 16. -/
theorem Allocate_Free_Allocate_same_witness :
    Reachable (CMemoryMgr.fresh Heap.nulls) ∧
    (∃ pg off m1 m2 m3,
      (CMemoryMgr.fresh Heap.nulls).Allocate 24 =
        some (AllocResult.ptr (Ptr.addr pg off), m1) ∧
      m1.Free (Ptr.addr pg off) 24 = some m2 ∧
      m2.Allocate 24 = some (AllocResult.ptr (Ptr.addr pg off), m3)) ∧
    CalcCacheIndex (CMemoryMgr.fresh Heap.nulls).cacheIndexes 16 =
      CalcCacheIndex (CMemoryMgr.fresh Heap.nulls).cacheIndexes 9 ∧
    ∃ m1 m2, (CMemoryMgr.fresh Heap.nulls).Free (Ptr.addr 0 0) 9 = some m1 ∧
      m1.Allocate 16 = some (AllocResult.ptr (Ptr.addr 0 0), m2) :=
  ⟨Reachable.ctor _ _ (CMemoryMgr.ctor_eq _),
    (Allocate_Free_Allocate_same _ (Reachable.ctor _ _ (CMemoryMgr.ctor_eq _))).1 24
      (by decide) (by decide),
    by with_unfolding_all rfl,
    (Allocate_Free_Allocate_same _ (Reachable.ctor _ _ (CMemoryMgr.ctor_eq _))).2 0 0 9 16
      (by decide) (by decide) (by decide) (by decide) (by with_unfolding_all rfl)⟩

/-- C7: oversized requests bypass the buckets and pages.  For every manager
state, every general-purpose allocator and every size above `MAX_BLOCK_SIZE`:
`Allocate(size)` returns what `malloc(size)` returns and leaves every bucket,
both active pages, the archive list, the lookup table and block memory
unchanged; `Free(ptr, size)` hands `ptr` to `free`, so it is defined exactly
where that call is (for a block of the allocator as the allocator decides, for
the null pointer always, for an address inside a page arena never), and where
it is defined it leaves the whole manager unchanged. -/
theorem oversized_bypass {H B : Type} (lib : Fallback H B) (m : CMemoryMgr) (heap : H)
    (n : Nat) (h : MAX_BLOCK_SIZE < n) :
    (∃ m1, m.Allocate n = some (AllocResult.malloc n, m1) ∧
      m.AllocateWith lib heap n =
        some (VoidPtr.ofMalloc (lib.malloc heap n).1, m1, (lib.malloc heap n).2) ∧
      m1.blockCaches = m.blockCaches ∧ m1.pPageA = m.pPageA ∧ m1.pPageB = m.pPageB ∧
      m1.pFilledPages = m.pFilledPages ∧ m1.cacheIndexes = m.cacheIndexes ∧
      m1.data = m.data ∧ m1.uPagesCreated = m.uPagesCreated) ∧
    (∀ (pMem : VoidPtr B) (m1 : CMemoryMgr) (heap1 : H),
      m.FreeWith lib heap pMem n = some (m1, heap1) → m1 = m) ∧
    (∀ b : B, m.FreeWith lib heap (VoidPtr.block b) n =
      (lib.free heap b).map fun heap1 => (m, heap1)) ∧
    m.FreeWith lib heap (VoidPtr.own Ptr.null) n = some (m, heap) ∧
    (∀ pg off, m.FreeWith lib heap (VoidPtr.own (Ptr.addr pg off)) n = none) ∧
    m.Free Ptr.null n = some m ∧
    (∀ pg off, m.Free (Ptr.addr pg off) n = none) := by
  have hgt : n > MAX_BLOCK_SIZE := h
  have hnull : m.Free Ptr.null n = some m := by simp [CMemoryMgr.Free, hgt]
  have haddr : ∀ pg off, m.Free (Ptr.addr pg off) n = none := by
    intro pg off
    simp [CMemoryMgr.Free, hgt]
  refine ⟨⟨m.noteLarge n, ?_, ?_, rfl, rfl, rfl, rfl, rfl, rfl, rfl⟩, ?_, ?_, ?_, ?_,
    hnull, haddr⟩
  · simp [CMemoryMgr.Allocate, hgt]
  · simp [CMemoryMgr.AllocateWith, CMemoryMgr.Allocate, hgt]
  · intro pMem m1 heap1 e
    cases pMem with
    | own p =>
      cases p with
      | null =>
        simp only [CMemoryMgr.FreeWith, hnull, Option.map_some', Option.some.injEq,
          Prod.mk.injEq] at e
        exact e.1.symm
      | addr pg off =>
        simp [CMemoryMgr.FreeWith, haddr] at e
    | block b =>
      simp only [CMemoryMgr.FreeWith, hgt, if_true] at e
      cases hb : lib.free heap b with
      | none => simp [hb] at e
      | some heap2 =>
        simp only [hb, Option.map_some', Option.some.injEq, Prod.mk.injEq] at e
        exact e.1.symm
  · intro b
    simp [CMemoryMgr.FreeWith, hgt]
  · simp [CMemoryMgr.FreeWith, hnull]
  · intro pg off
    simp [CMemoryMgr.FreeWith, haddr]

/-- C7, at the manager just constructed, size `MAX_BLOCK_SIZE + 1` and the
allocator `Fallback.counting` in its first state: `Allocate(1025)` returns the
block number 0 of the allocator; `Free` of that block with size 1025 is
defined and leaves the manager as it is, and a second `Free` of it is
undefined. -/
theorem oversized_bypass_witness :
    MAX_BLOCK_SIZE < 1025 ∧
    ((∃ m1, (CMemoryMgr.fresh Heap.nulls).Allocate 1025 = some (AllocResult.malloc 1025, m1) ∧
      (CMemoryMgr.fresh Heap.nulls).AllocateWith Fallback.counting (0, []) 1025 =
        some (VoidPtr.ofMalloc (Fallback.counting.malloc (0, []) 1025).1, m1,
          (Fallback.counting.malloc (0, []) 1025).2) ∧
      m1.blockCaches = (CMemoryMgr.fresh Heap.nulls).blockCaches ∧
      m1.pPageA = (CMemoryMgr.fresh Heap.nulls).pPageA ∧
      m1.pPageB = (CMemoryMgr.fresh Heap.nulls).pPageB ∧
      m1.pFilledPages = (CMemoryMgr.fresh Heap.nulls).pFilledPages ∧
      m1.cacheIndexes = (CMemoryMgr.fresh Heap.nulls).cacheIndexes ∧
      m1.data = (CMemoryMgr.fresh Heap.nulls).data ∧
      m1.uPagesCreated = (CMemoryMgr.fresh Heap.nulls).uPagesCreated) ∧
    (∀ (pMem : VoidPtr Nat) (m1 : CMemoryMgr) (heap1 : Nat × List Nat),
      (CMemoryMgr.fresh Heap.nulls).FreeWith Fallback.counting (0, []) pMem 1025 =
        some (m1, heap1) → m1 = CMemoryMgr.fresh Heap.nulls) ∧
    (∀ b : Nat, (CMemoryMgr.fresh Heap.nulls).FreeWith Fallback.counting (0, [])
        (VoidPtr.block b) 1025 =
      (Fallback.counting.free (0, []) b).map fun heap1 => (CMemoryMgr.fresh Heap.nulls, heap1)) ∧
    (CMemoryMgr.fresh Heap.nulls).FreeWith Fallback.counting (0, []) (VoidPtr.own Ptr.null)
      1025 = some (CMemoryMgr.fresh Heap.nulls, (0, [])) ∧
    (∀ pg off, (CMemoryMgr.fresh Heap.nulls).FreeWith Fallback.counting (0, [])
      (VoidPtr.own (Ptr.addr pg off)) 1025 = none) ∧
    (CMemoryMgr.fresh Heap.nulls).Free Ptr.null 1025 = some (CMemoryMgr.fresh Heap.nulls) ∧
    (∀ pg off, (CMemoryMgr.fresh Heap.nulls).Free (Ptr.addr pg off) 1025 = none)) ∧
    (CMemoryMgr.fresh Heap.nulls).AllocateWith Fallback.counting (0, []) 1025 =
      some (VoidPtr.block 0, (CMemoryMgr.fresh Heap.nulls).noteLarge 1025, (1, [0])) ∧
    ((CMemoryMgr.fresh Heap.nulls).noteLarge 1025).FreeWith Fallback.counting (1, [0])
      (VoidPtr.block 0) 1025 = some ((CMemoryMgr.fresh Heap.nulls).noteLarge 1025, (1, [])) ∧
    ((CMemoryMgr.fresh Heap.nulls).noteLarge 1025).FreeWith Fallback.counting (1, [])
      (VoidPtr.block 0) 1025 = none :=
  ⟨by decide, oversized_bypass Fallback.counting _ (0, []) 1025 (by decide),
    by simp [CMemoryMgr.AllocateWith, CMemoryMgr.Allocate, MAX_BLOCK_SIZE, VoidPtr.ofMalloc,
      Fallback.counting],
    by simp [CMemoryMgr.FreeWith, MAX_BLOCK_SIZE, Fallback.counting],
    by simp [CMemoryMgr.FreeWith, MAX_BLOCK_SIZE, Fallback.counting]⟩

/-- C2: in a single-threaded run from a newly constructed manager, made of
`Allocate` calls with sizes in `[1, MAX_BLOCK_SIZE]` and of `Free` calls only
on blocks live at the time, with the size they were allocated with, any two
blocks live at the same time have different addresses and disjoint ranges
`[off, off + classSize)` (different pages, or non-overlapping offsets in the
same page); in particular two `Allocate` calls of the same size in a row
are defined and return distinct, non-overlapping blocks.  Such a run never
gets stuck: `Free` of any live block with its size is defined. -/
theorem live_blocks_disjoint (m : CMemoryMgr) (live : List LiveBlock) (h : Run m live) :
    (live.Pairwise fun a b => (a.page, a.off) ≠ (b.page, b.off) ∧ Separated m a b) ∧
    (∀ b ∈ live, ∃ m1, m.Free (Ptr.addr b.page b.off) b.uSize = some m1) ∧
    ∀ n, 1 ≤ n → n ≤ MAX_BLOCK_SIZE →
      ∃ pg off m1 pg2 off2 m2,
        m.Allocate n = some (AllocResult.ptr (Ptr.addr pg off), m1) ∧
        m1.Allocate n = some (AllocResult.ptr (Ptr.addr pg2 off2), m2) ∧
        (pg2, off2) ≠ (pg, off) ∧
        Separated m2 { page := pg2, off := off2, uSize := n }
          { page := pg, off := off, uSize := n } := by
  refine ⟨?_, ?_, ?_⟩
  · obtain ⟨chain, all, hinv⟩ := h.inv
    exact hinv.live_separated
  · intro b hb
    obtain ⟨chain, all, hinv⟩ := h.inv
    obtain ⟨h1, h2, _⟩ := hinv.liveIn b hb
    obtain ⟨c, cache, e1, _, e3, _, _, _⟩ := hinv.conf.lookup b.uSize h1 h2
    exact ⟨_, Free_eq m b.uSize c cache b.page b.off h2 e1 e3⟩
  · intro n h1 h2
    obtain ⟨pg, off, m1, e1⟩ := Allocate_addr h.reachable.configured n h1 h2
    have hr1 := Run.allocate m live n pg off m1 h h1 h2 e1
    obtain ⟨pg2, off2, m2, e2⟩ := Allocate_addr hr1.reachable.configured n h1 h2
    have hr2 := Run.allocate m1 _ n pg2 off2 m2 hr1 h1 h2 e2
    obtain ⟨chain, all, hinv⟩ := hr2.inv
    have hp := hinv.live_separated
    have hhead := (List.pairwise_cons.mp hp).1 _ (List.mem_cons_self _ _)
    exact ⟨pg, off, m1, pg2, off2, m2, e1, e2, hhead.1, hhead.2⟩

/-- C2, at the run `p = Allocate(8)`, `q = Allocate(16)`, `Free(p, 8)`,
`Allocate(8)` from a newly constructed manager: the last call returns `p`
again, and the two live blocks are `p` at offset 0 and `q` at offset 8 of
page 0. -/
theorem live_blocks_disjoint_witness :
    ∃ m, Run m [{ page := 0, off := 0, uSize := 8 }, { page := 0, off := 8, uSize := 16 }] ∧
      (([{ page := 0, off := 0, uSize := 8 }, { page := 0, off := 8, uSize := 16 }] :
          List LiveBlock).Pairwise
        fun a b => (a.page, a.off) ≠ (b.page, b.off) ∧ Separated m a b) ∧
      (∀ b ∈ ([{ page := 0, off := 0, uSize := 8 }, { page := 0, off := 8, uSize := 16 }] :
          List LiveBlock), ∃ m1, m.Free (Ptr.addr b.page b.off) b.uSize = some m1) ∧
      ∀ n, 1 ≤ n → n ≤ MAX_BLOCK_SIZE →
        ∃ pg off m1 pg2 off2 m2,
          m.Allocate n = some (AllocResult.ptr (Ptr.addr pg off), m1) ∧
          m1.Allocate n = some (AllocResult.ptr (Ptr.addr pg2 off2), m2) ∧
          (pg2, off2) ≠ (pg, off) ∧
          Separated m2 { page := pg2, off := off2, uSize := n }
            { page := pg, off := off, uSize := n } := by
  have r0 := Run.ctor _ _ (CMemoryMgr.ctor_eq Heap.nulls)
  have r1 := Run.allocate _ _ 8 0 0 _ r0 (by decide) (by decide) (by with_unfolding_all rfl)
  have r2 := Run.allocate _ _ 16 0 8 _ r1 (by decide) (by decide) (by with_unfolding_all rfl)
  have r3 := Run.free _ _ { page := 0, off := 0, uSize := 8 } _ r2 (by simp)
    (by with_unfolding_all rfl)
  have r4 := Run.allocate _ _ 8 0 0 _ r3 (by decide) (by decide) (by with_unfolding_all rfl)
  exact ⟨_, r4, live_blocks_disjoint _ _ r4⟩

/-! ## `AllocateFromPage`, case by case -/

/-- Page A has room: the block is carved from A. -/
theorem AllocateFromPage_fromA (m : CMemoryMgr) (n : Nat) (ha : n ≤ m.pPageA.uFreeSize) :
    m.AllocateFromPage n =
      (Ptr.addr m.pPageA.page m.pPageA.pFreeData,
        { m with pPageA :=
            { m.pPageA with pFreeData := m.pPageA.pFreeData + n,
                            uFreeSize := m.pPageA.uFreeSize - n } }) := by
  unfold CMemoryMgr.AllocateFromPage
  simp [CMemoryPage_Allocate_fits _ _ ha]

/-- Page A has no room and page B has: the block is carved from B. -/
theorem AllocateFromPage_fromB (m : CMemoryMgr) (n : Nat) (ha : m.pPageA.uFreeSize < n)
    (hb : n ≤ m.pPageB.uFreeSize) :
    m.AllocateFromPage n =
      (Ptr.addr m.pPageB.page m.pPageB.pFreeData,
        { m with pPageB :=
            { m.pPageB with pFreeData := m.pPageB.pFreeData + n,
                            uFreeSize := m.pPageB.uFreeSize - n } }) := by
  unfold CMemoryMgr.AllocateFromPage
  simp [CMemoryPage_Allocate_full _ _ ha, CMemoryPage_Allocate_fits _ _ hb]

/-- Neither active page has room and `A` has at least the free size of `B`:
`B` is archived and a new page takes its slot. -/
theorem AllocateFromPage_archiveB (m : CMemoryMgr) (n : Nat) (ha : m.pPageA.uFreeSize < n)
    (hb : m.pPageB.uFreeSize < n) (hn : n ≤ MEMORY_PAGE_SIZE)
    (hab : m.pPageB.uFreeSize ≤ m.pPageA.uFreeSize) :
    m.AllocateFromPage n =
      (Ptr.addr m.uPagesCreated 0,
        { m with
          pFilledPages := m.pPageB :: m.pFilledPages
          pPageB := { uFreeSize := MEMORY_PAGE_SIZE - n, pFreeData := 0 + n,
                      page := m.uPagesCreated }
          uPagesCreated := m.uPagesCreated + 1 }) := by
  have hfit : n ≤ (CMemoryPage.ctor m.uPagesCreated).uFreeSize := hn
  have hge : m.pPageA.FreeSize ≥ m.pPageB.FreeSize := hab
  unfold CMemoryMgr.AllocateFromPage
  simp only [CMemoryPage_Allocate_full _ _ ha, CMemoryPage_Allocate_full _ _ hb,
    CMemoryPage_Allocate_fits _ _ hfit, ne_eq, not_true_eq_false, if_false, hge, if_true]
  rfl

/-- Neither active page has room and `A` has less free size than `B`: `A` is
archived and a new page takes its slot. -/
theorem AllocateFromPage_archiveA (m : CMemoryMgr) (n : Nat) (ha : m.pPageA.uFreeSize < n)
    (hb : m.pPageB.uFreeSize < n) (hn : n ≤ MEMORY_PAGE_SIZE)
    (hab : m.pPageA.uFreeSize < m.pPageB.uFreeSize) :
    m.AllocateFromPage n =
      (Ptr.addr m.uPagesCreated 0,
        { m with
          pFilledPages := m.pPageA :: m.pFilledPages
          pPageA := { uFreeSize := MEMORY_PAGE_SIZE - n, pFreeData := 0 + n,
                      page := m.uPagesCreated }
          uPagesCreated := m.uPagesCreated + 1 }) := by
  have hfit : n ≤ (CMemoryPage.ctor m.uPagesCreated).uFreeSize := hn
  have hge : ¬ m.pPageA.FreeSize ≥ m.pPageB.FreeSize := by
    simp only [CMemoryPage.FreeSize]; omega
  unfold CMemoryMgr.AllocateFromPage
  simp only [CMemoryPage_Allocate_full _ _ ha, CMemoryPage_Allocate_full _ _ hb,
    CMemoryPage_Allocate_fits _ _ hfit, ne_eq, not_true_eq_false, if_false, hge, if_true]
  rfl

/-! ## Claims on `AllocateFromPage` -/

/-- C15: rotation policy.  When `AllocateFromPage(blockSize)`, with
`blockSize ≤ MAX_BLOCK_SIZE`, finds both active pages with free size below
`blockSize`, the page it archives is the active page with the lower free size
(`archived.free ≤ kept.free`; page B on a tie); that page becomes the head of
the archive list with the old list as its tail, its slot gets a newly
constructed page, the block returned is offset 0 of that new page (not null;
the new page is left with cursor `blockSize` and free size
`MEMORY_PAGE_SIZE - blockSize`), and the other active page is unchanged. -/
theorem rotation_policy (m : CMemoryMgr) (blockSize : Nat)
    (ha : m.pPageA.FreeSize < blockSize) (hb : m.pPageB.FreeSize < blockSize)
    (hn : blockSize ≤ MAX_BLOCK_SIZE) :
    (m.AllocateFromPage blockSize).1 = Ptr.addr m.uPagesCreated 0 ∧
    (CMemoryPage.ctor m.uPagesCreated).pFreeData = 0 ∧
    ∃ archived kept,
      archived.FreeSize ≤ kept.FreeSize ∧
      (m.AllocateFromPage blockSize).2.pFilledPages = archived :: m.pFilledPages ∧
      ((archived = m.pPageB ∧ kept = m.pPageA ∧
          (m.AllocateFromPage blockSize).2.pPageA = m.pPageA ∧
          (m.AllocateFromPage blockSize).2.pPageB =
            { uFreeSize := MEMORY_PAGE_SIZE - blockSize, pFreeData := 0 + blockSize,
              page := m.uPagesCreated }) ∨
        (archived = m.pPageA ∧ kept = m.pPageB ∧
          (m.AllocateFromPage blockSize).2.pPageB = m.pPageB ∧
          (m.AllocateFromPage blockSize).2.pPageA =
            { uFreeSize := MEMORY_PAGE_SIZE - blockSize, pFreeData := 0 + blockSize,
              page := m.uPagesCreated })) := by
  have hpage : blockSize ≤ MEMORY_PAGE_SIZE := by
    simp only [MAX_BLOCK_SIZE] at hn
    simp only [MEMORY_PAGE_SIZE]
    omega
  by_cases hab : m.pPageB.uFreeSize ≤ m.pPageA.uFreeSize
  · rw [AllocateFromPage_archiveB m blockSize ha hb hpage hab]
    exact ⟨rfl, rfl, m.pPageB, m.pPageA, hab, rfl, Or.inl ⟨rfl, rfl, rfl, rfl⟩⟩
  · have hlt : m.pPageA.uFreeSize < m.pPageB.uFreeSize := by omega
    rw [AllocateFromPage_archiveA m blockSize ha hb hpage hlt]
    exact ⟨rfl, rfl, m.pPageA, m.pPageB, Nat.le_of_lt hlt, rfl, Or.inr ⟨rfl, rfl, rfl, rfl⟩⟩

/-- C15, at a manager whose page A has 8 bytes left and whose page B is full,
for a block of 16 bytes: page B is archived. -/
theorem rotation_policy_witness :
    ({ CMemoryMgr.fresh Heap.nulls with
        pPageA := { uFreeSize := 8, pFreeData := 16376, page := 0 }
        pPageB := { uFreeSize := 0, pFreeData := 16384, page := 1 } } :
      CMemoryMgr).pPageA.FreeSize < 16 ∧
    ({ CMemoryMgr.fresh Heap.nulls with
        pPageA := { uFreeSize := 8, pFreeData := 16376, page := 0 }
        pPageB := { uFreeSize := 0, pFreeData := 16384, page := 1 } } :
      CMemoryMgr).pPageB.FreeSize < 16 ∧
    16 ≤ MAX_BLOCK_SIZE ∧
    (({ CMemoryMgr.fresh Heap.nulls with
        pPageA := { uFreeSize := 8, pFreeData := 16376, page := 0 }
        pPageB := { uFreeSize := 0, pFreeData := 16384, page := 1 } } :
      CMemoryMgr).AllocateFromPage 16).1 = Ptr.addr 2 0 :=
  ⟨by decide, by decide, by decide,
    (rotation_policy _ 16 (by decide) (by decide) (by decide)).1⟩

/-- C17: `AllocateFromPage` tries page A before page B.  If A has free size
at least `blockSize`, the block is A's cursor, A's cursor advances and B and
the archive are unchanged; if A has less and B has at least `blockSize`, the
block is B's cursor, B's cursor advances and A and the archive are
unchanged. -/
theorem AllocateFromPage_A_before_B (m : CMemoryMgr) (blockSize : Nat) :
    (blockSize ≤ m.pPageA.FreeSize →
      (m.AllocateFromPage blockSize).1 = Ptr.addr m.pPageA.page m.pPageA.pFreeData ∧
      (m.AllocateFromPage blockSize).2.pPageA =
        { uFreeSize := m.pPageA.uFreeSize - blockSize,
          pFreeData := m.pPageA.pFreeData + blockSize, page := m.pPageA.page } ∧
      (m.AllocateFromPage blockSize).2.pPageB = m.pPageB ∧
      (m.AllocateFromPage blockSize).2.pFilledPages = m.pFilledPages) ∧
    (m.pPageA.FreeSize < blockSize → blockSize ≤ m.pPageB.FreeSize →
      (m.AllocateFromPage blockSize).1 = Ptr.addr m.pPageB.page m.pPageB.pFreeData ∧
      (m.AllocateFromPage blockSize).2.pPageB =
        { uFreeSize := m.pPageB.uFreeSize - blockSize,
          pFreeData := m.pPageB.pFreeData + blockSize, page := m.pPageB.page } ∧
      (m.AllocateFromPage blockSize).2.pPageA = m.pPageA ∧
      (m.AllocateFromPage blockSize).2.pFilledPages = m.pFilledPages) := by
  refine ⟨fun ha => ?_, fun ha hb => ?_⟩
  · rw [AllocateFromPage_fromA m blockSize ha]
    exact ⟨rfl, rfl, rfl, rfl⟩
  · rw [AllocateFromPage_fromB m blockSize ha hb]
    exact ⟨rfl, rfl, rfl, rfl⟩

/-! ## Claims on a single `Allocate` or `Free` -/

theorem classSize_eq (m : CMemoryMgr) (s c : Nat) (cache : CBlockCache)
    (hc : CalcCacheIndex m.cacheIndexes s = some c) (hk : m.blockCaches[c]? = some cache) :
    m.classSize s = some cache.uBlockSize := by
  unfold CMemoryMgr.classSize
  simp only [hc, Option.some_bind, hk, Option.map_some', CBlockCache.BlockSize]

/-- C19: on a cache miss the manager asks the page for the size of the class,
not for the raw size.  In every reachable state, for `s` in
`[1, MAX_BLOCK_SIZE]` whose bucket has a null head, `Allocate(s)` is defined
and returns the cursor of the page that supplies the block: page A or page B
as they were before the call, or a newly constructed page; afterwards that
page's cursor is further by exactly the class size `classSize[Classify(s)]`
and its free size is lower by the same amount, and the class size is at least
`s`. -/
theorem miss_requests_class_size (m : CMemoryMgr) (s : Nat) (hm : Reachable m)
    (h1 : 1 ≤ s) (h2 : s ≤ MAX_BLOCK_SIZE)
    (hempty : ∀ (c : Nat) (cache : CBlockCache), CalcCacheIndex m.cacheIndexes s = some c →
      m.blockCaches[c]? = some cache → cache.pCacheBlock = Ptr.null) :
    ∃ sz pg off m1 P0 P1,
      m.classSize s = some sz ∧ s ≤ sz ∧
      m.Allocate s = some (AllocResult.ptr (Ptr.addr pg off), m1) ∧
      ((P0 = m.pPageA ∧ P1 = m1.pPageA ∧ m1.pPageB = m.pPageB) ∨
        (P0 = m.pPageB ∧ P1 = m1.pPageB ∧ m1.pPageA = m.pPageA) ∨
        (P0 = CMemoryPage.ctor m.uPagesCreated ∧ (P1 = m1.pPageA ∨ P1 = m1.pPageB))) ∧
      P0.page = pg ∧ P0.pFreeData = off ∧
      P1.page = pg ∧ P1.pFreeData = off + sz ∧ P1.uFreeSize + sz = P0.uFreeSize := by
  obtain ⟨c, cache, e1, _, e3, _, hs, hsz⟩ := hm.configured.lookup s h1 h2
  have hp := hempty c cache e1 e3
  have hpage : cache.uBlockSize ≤ MEMORY_PAGE_SIZE := by
    simp only [MEMORY_PAGE_SIZE]; omega
  refine ⟨cache.uBlockSize, ?_⟩
  rw [Allocate_miss m s c cache h2 e1 e3 hp, classSize_eq m s c cache e1 e3]
  by_cases ha : cache.uBlockSize ≤ m.pPageA.uFreeSize
  · rw [AllocateFromPage_fromA m _ ha]
    exact ⟨_, _, _, m.pPageA, _, rfl, hs, rfl, Or.inl ⟨rfl, rfl, rfl⟩, rfl, rfl, rfl, rfl,
      Nat.sub_add_cancel ha⟩
  · have ha2 : m.pPageA.uFreeSize < cache.uBlockSize := by omega
    by_cases hb : cache.uBlockSize ≤ m.pPageB.uFreeSize
    · rw [AllocateFromPage_fromB m _ ha2 hb]
      exact ⟨_, _, _, m.pPageB, _, rfl, hs, rfl, Or.inr (Or.inl ⟨rfl, rfl, rfl⟩), rfl, rfl,
        rfl, rfl, Nat.sub_add_cancel hb⟩
    · have hb2 : m.pPageB.uFreeSize < cache.uBlockSize := by omega
      by_cases hab : m.pPageB.uFreeSize ≤ m.pPageA.uFreeSize
      · rw [AllocateFromPage_archiveB m _ ha2 hb2 hpage hab]
        exact ⟨_, _, _, CMemoryPage.ctor m.uPagesCreated, _, rfl, hs, rfl,
          Or.inr (Or.inr ⟨rfl, Or.inr rfl⟩), rfl, rfl, rfl, rfl, Nat.sub_add_cancel hpage⟩
      · have hlt : m.pPageA.uFreeSize < m.pPageB.uFreeSize := by omega
        rw [AllocateFromPage_archiveA m _ ha2 hb2 hpage hlt]
        exact ⟨_, _, _, CMemoryPage.ctor m.uPagesCreated, _, rfl, hs, rfl,
          Or.inr (Or.inr ⟨rfl, Or.inl rfl⟩), rfl, rfl, rfl, rfl, Nat.sub_add_cancel hpage⟩

/-- Every head of the manager just constructed is null. -/
theorem fresh_empty (data : Heap) (s : Nat) :
    ∀ (c : Nat) (cache : CBlockCache),
      CalcCacheIndex (CMemoryMgr.fresh data).cacheIndexes s = some c →
      (CMemoryMgr.fresh data).blockCaches[c]? = some cache → cache.pCacheBlock = Ptr.null :=
  fun c cache _ hk => fresh_heads data c cache hk

/-- C19, at the manager just constructed and `s = 65`, whose class has size
80: the block is offset 0 of page A and the cursor of page A moves to 80. -/
theorem miss_requests_class_size_witness :
    Reachable (CMemoryMgr.fresh Heap.nulls) ∧ 1 ≤ 65 ∧ 65 ≤ MAX_BLOCK_SIZE ∧
    (CMemoryMgr.fresh Heap.nulls).classSize 65 = some 80 ∧
    ∃ sz pg off m1 P0 P1,
      (CMemoryMgr.fresh Heap.nulls).classSize 65 = some sz ∧ 65 ≤ sz ∧
      (CMemoryMgr.fresh Heap.nulls).Allocate 65 =
        some (AllocResult.ptr (Ptr.addr pg off), m1) ∧
      ((P0 = (CMemoryMgr.fresh Heap.nulls).pPageA ∧ P1 = m1.pPageA ∧
          m1.pPageB = (CMemoryMgr.fresh Heap.nulls).pPageB) ∨
        (P0 = (CMemoryMgr.fresh Heap.nulls).pPageB ∧ P1 = m1.pPageB ∧
          m1.pPageA = (CMemoryMgr.fresh Heap.nulls).pPageA) ∨
        (P0 = CMemoryPage.ctor (CMemoryMgr.fresh Heap.nulls).uPagesCreated ∧
          (P1 = m1.pPageA ∨ P1 = m1.pPageB))) ∧
      P0.page = pg ∧ P0.pFreeData = off ∧
      P1.page = pg ∧ P1.pFreeData = off + sz ∧ P1.uFreeSize + sz = P0.uFreeSize :=
  ⟨Reachable.ctor _ _ (CMemoryMgr.ctor_eq _), by decide, by decide,
    by with_unfolding_all rfl,
    miss_requests_class_size _ 65 (Reachable.ctor _ _ (CMemoryMgr.ctor_eq _)) (by decide)
      (by decide) (fresh_empty Heap.nulls 65)⟩

theorem getElem?_set_other {α : Type} (l : List α) (i j : Nat) (v : α) (h : j ≠ i) :
    (l.set i v)[j]? = l[j]? := by
  have h2 : ¬ i = j := fun e => h e.symm
  simp [List.getElem?_set, h2]

theorem getElem?_set_same {α : Type} (l : List α) (i : Nat) (v w : α)
    (h : l[i]? = some w) : (l.set i v)[i]? = some v := by
  have hlt : i < l.length := (List.getElem?_eq_some_iff.mp h).1
  simp [List.getElem?_set, hlt]

/-- C20: frame of `Free` and of a cache hit.  For every manager with the
tables of `InitialiseCache`, every non-null block `p` and every `s` in
`[1, MAX_BLOCK_SIZE]`, `Free(p, s)` is defined; it makes `p` the head of
bucket `Classify(s)` and stores the former head in `p->pNext`, so that on the
chain the block comes first and the former chain follows (for a block not
already on it); it leaves the head of every other bucket, every other word of
memory, both active pages and the archive list unchanged, and the chain of
any other bucket that does not hold `p`.  An `Allocate(s)` that finds a
non-null head returns it, makes its `pNext` the head of bucket `Classify(s)`
and changes nothing else of the manager. -/
theorem Free_and_hit_frame (m : CMemoryMgr) (hm : m.Configured) (pg off s : Nat)
    (h1 : 1 ≤ s) (h2 : s ≤ MAX_BLOCK_SIZE) :
    ∃ c cache m1,
      CalcCacheIndex m.cacheIndexes s = some c ∧ m.blockCaches[c]? = some cache ∧
      m.Free (Ptr.addr pg off) s = some m1 ∧
      m1.blockCaches[c]? = some { cache with pCacheBlock := Ptr.addr pg off } ∧
      m1.data pg off = cache.pCacheBlock ∧
      (∀ c2 : Nat, c2 ≠ c → m1.blockCaches[c2]? = m.blockCaches[c2]?) ∧
      (∀ pg2 off2, (pg2, off2) ≠ (pg, off) → m1.data pg2 off2 = m.data pg2 off2) ∧
      m1.pPageA = m.pPageA ∧ m1.pPageB = m.pPageB ∧ m1.pFilledPages = m.pFilledPages ∧
      m1.cacheIndexes = m.cacheIndexes ∧
      (∀ l, FreeChain m.data cache.pCacheBlock l → (pg, off) ∉ l →
        FreeChain m1.data (Ptr.addr pg off) ((pg, off) :: l)) ∧
      (∀ (c2 : Nat) (cache2 : CBlockCache) (l : List (Nat × Nat)), c2 ≠ c →
        m.blockCaches[c2]? = some cache2 → FreeChain m.data cache2.pCacheBlock l →
        (pg, off) ∉ l → FreeChain m1.data cache2.pCacheBlock l) ∧
      (∀ pg2 off2, cache.pCacheBlock = Ptr.addr pg2 off2 →
        ∃ m2, m.Allocate s = some (AllocResult.ptr (Ptr.addr pg2 off2), m2) ∧
          m2.blockCaches[c]? = some { cache with pCacheBlock := m.data pg2 off2 } ∧
          (∀ c2 : Nat, c2 ≠ c → m2.blockCaches[c2]? = m.blockCaches[c2]?) ∧
          m2.data = m.data ∧ m2.pPageA = m.pPageA ∧ m2.pPageB = m.pPageB ∧
          m2.pFilledPages = m.pFilledPages ∧ m2.cacheIndexes = m.cacheIndexes ∧
          m2.uPagesCreated = m.uPagesCreated) := by
  obtain ⟨c, cache, e1, _, e3, _, _, _⟩ := hm.lookup s h1 h2
  have hstore : m.data.store pg off cache.pCacheBlock pg off = cache.pCacheBlock := by
    simp [Heap.store]
  refine ⟨c, cache, _, e1, e3, Free_eq m s c cache pg off h2 e1 e3,
    getElem?_set_same _ _ _ _ e3, hstore,
    fun c2 hc2 => getElem?_set_other _ _ _ _ hc2, ?_, rfl, rfl, rfl, rfl, ?_, ?_, ?_⟩
  · intro pg2 off2 hne
    have : ¬ (pg2 = pg ∧ off2 = off) := by
      rintro ⟨g1, g2⟩; exact hne (by rw [g1, g2])
    simp only [Heap.store, this, if_false]
  · intro l hl hn
    refine ⟨rfl, ?_⟩
    simp only [hstore]
    exact FreeChain_store _ _ _ _ _ _ hn hl
  · intro c2 cache2 l _ _ hl hn
    exact FreeChain_store _ _ _ _ _ _ hn hl
  · intro pg2 off2 hp
    exact ⟨_, Allocate_hit m s c cache pg2 off2 h2 e1 e3 hp, getElem?_set_same _ _ _ _ e3,
      fun c2 hc2 => getElem?_set_other _ _ _ _ hc2, rfl, rfl, rfl, rfl, rfl, rfl⟩

/-- C20, at the manager just constructed, the block at offset 0 of page 0 and
size 100. -/
theorem Free_and_hit_frame_witness :
    (CMemoryMgr.fresh Heap.nulls).Configured ∧ 1 ≤ 100 ∧ 100 ≤ MAX_BLOCK_SIZE ∧
    ∃ m1, (CMemoryMgr.fresh Heap.nulls).Free (Ptr.addr 0 0) 100 = some m1 ∧
      m1.blockCaches[10]? = some { pCacheBlock := Ptr.addr 0 0, uBlockSize := 112 } ∧
      m1.pPageA = (CMemoryMgr.fresh Heap.nulls).pPageA ∧
      m1.pPageB = (CMemoryMgr.fresh Heap.nulls).pPageB ∧
      m1.pFilledPages = (CMemoryMgr.fresh Heap.nulls).pFilledPages := by
  obtain ⟨c, cache, m1, e1, e2, e3, e4, _, _, _, e5, e6, e7, _⟩ :=
    Free_and_hit_frame (CMemoryMgr.fresh Heap.nulls) (fresh_configured _) 0 0 100
      (by decide) (by decide)
  have hc : CalcCacheIndex (CMemoryMgr.fresh Heap.nulls).cacheIndexes 100 = some 10 := by
    with_unfolding_all rfl
  rw [hc] at e1
  simp only [Option.some.injEq] at e1
  subst e1
  have hk : (CMemoryMgr.fresh Heap.nulls).blockCaches[10]? =
      some { pCacheBlock := Ptr.null, uBlockSize := 112 } := by
    with_unfolding_all rfl
  rw [hk] at e2
  simp only [Option.some.injEq] at e2
  subst e2
  exact ⟨fresh_configured _, by decide, by decide, m1, e3, e4, e5, e6, e7⟩

/-! ## The archive list along a run -/

/-- `AllocateFromPage` leaves the archive list as it is or puts one of the two
active pages in front of it. -/
theorem AllocateFromPage_archive (m : CMemoryMgr) (n : Nat) :
    (m.AllocateFromPage n).2.pFilledPages = m.pFilledPages ∨
    (m.AllocateFromPage n).2.pFilledPages = m.pPageA :: m.pFilledPages ∨
    (m.AllocateFromPage n).2.pFilledPages = m.pPageB :: m.pFilledPages := by
  by_cases ha : n ≤ m.pPageA.uFreeSize
  · rw [AllocateFromPage_fromA m n ha]; exact Or.inl rfl
  · have ha2 : m.pPageA.uFreeSize < n := by omega
    by_cases hb : n ≤ m.pPageB.uFreeSize
    · rw [AllocateFromPage_fromB m n ha2 hb]; exact Or.inl rfl
    · unfold CMemoryMgr.AllocateFromPage
      simp only [CMemoryPage_Allocate_full _ _ ha2,
        CMemoryPage_Allocate_full _ _ (show m.pPageB.uFreeSize < n by omega), ne_eq,
        not_true_eq_false, if_false]
      split
      · exact Or.inr (Or.inr rfl)
      · exact Or.inr (Or.inl rfl)

/-- One call of `Allocate` leaves the archive list as it is or puts one of the
two active pages in front of it. -/
theorem Allocate_archive {m m1 : CMemoryMgr} {n : Nat} {r : AllocResult}
    (h : m.Allocate n = some (r, m1)) :
    m1.pFilledPages = m.pFilledPages ∨ m1.pFilledPages = m.pPageA :: m.pFilledPages ∨
      m1.pFilledPages = m.pPageB :: m.pFilledPages := by
  unfold CMemoryMgr.Allocate at h
  split at h
  · simp only [Option.some.injEq, Prod.mk.injEq] at h
    obtain ⟨_, rfl⟩ := h
    exact Or.inl rfl
  · cases hc : CalcCacheIndex m.cacheIndexes n with
    | none => simp [hc] at h
    | some c =>
      cases hk : m.blockCaches[c]? with
      | none => simp [hc, hk] at h
      | some cache =>
        simp only [hc, hk, Option.some_bind] at h
        split at h
        · simp only [Option.some.injEq, Prod.mk.injEq] at h
          obtain ⟨_, rfl⟩ := h
          exact AllocateFromPage_archive m cache.uBlockSize
        · simp only [Option.some.injEq, Prod.mk.injEq] at h
          obtain ⟨_, rfl⟩ := h
          exact Or.inl rfl

/-- `Free` does not touch the pages. -/
theorem Free_pages {m m1 : CMemoryMgr} {n : Nat} {p : Ptr} (h : m.Free p n = some m1) :
    m1.pPageA = m.pPageA ∧ m1.pPageB = m.pPageB ∧ m1.pFilledPages = m.pFilledPages ∧
      m1.uPagesCreated = m.uPagesCreated := by
  unfold CMemoryMgr.Free at h
  split at h
  · cases p with
    | addr pg off => exact absurd h (by simp)
    | null =>
      simp only [Option.some.injEq] at h
      subst h
      exact ⟨rfl, rfl, rfl, rfl⟩
  · cases hc : CalcCacheIndex m.cacheIndexes n with
    | none => simp [hc] at h
    | some c =>
      cases hk : m.blockCaches[c]? with
      | none => simp [hc, hk] at h
      | some cache =>
        simp only [hc, hk, Option.some_bind] at h
        split at h
        · exact absurd h (by simp)
        · simp only [Option.some.injEq] at h
          subst h
          exact ⟨rfl, rfl, rfl, rfl⟩

theorem fresh_pagesDistinct (data : Heap) : (CMemoryMgr.fresh data).PagesDistinct := by
  constructor
  · simp [CMemoryMgr.pages, CMemoryMgr.fresh, CMemoryPage.ctor]
  · simp [CMemoryMgr.pages, CMemoryMgr.fresh, CMemoryPage.ctor]

theorem Allocate_pagesDistinct {m m1 : CMemoryMgr} {n : Nat} {r : AllocResult}
    (hm : m.Configured) (hp : m.PagesDistinct) (h : m.Allocate n = some (r, m1)) :
    m1.PagesDistinct := by
  by_cases hn : n > MAX_BLOCK_SIZE
  · simp only [CMemoryMgr.Allocate, hn, if_true, Option.some.injEq, Prod.mk.injEq] at h
    obtain ⟨_, rfl⟩ := h
    exact hp
  · have h2 : n ≤ MAX_BLOCK_SIZE := by omega
    have h1 : 1 ≤ n := by
      by_contra h0
      have e0 : n = 0 := by omega
      subst e0
      have : CalcCacheIndex m.cacheIndexes 0 = none := by
        rw [hm.1]
        unfold CalcCacheIndex
        have hl := classIndexes_length
        apply List.getElem?_eq_none
        rw [hl]
        decide
      simp [CMemoryMgr.Allocate, this] at h
    obtain ⟨c, cache, e1, _, e3, _, _, hsz⟩ := hm.lookup n h1 h2
    cases hp0 : cache.pCacheBlock with
    | null =>
      rw [Allocate_miss m n c cache h2 e1 e3 hp0] at h
      simp only [Option.some.injEq, Prod.mk.injEq] at h
      obtain ⟨_, rfl⟩ := h
      obtain ⟨_, _, _, r2, r3, _⟩ := AllocateFromPage_carve m cache.uBlockSize
        (by simp only [MEMORY_PAGE_SIZE]; omega) hp.1 hp.2
      exact ⟨r2, r3⟩
    | addr pg off =>
      rw [Allocate_hit m n c cache pg off h2 e1 e3 hp0] at h
      simp only [Option.some.injEq, Prod.mk.injEq] at h
      obtain ⟨_, rfl⟩ := h
      exact hp

theorem Free_pagesDistinct {m m1 : CMemoryMgr} {n : Nat} {p : Ptr}
    (hp : m.PagesDistinct) (h : m.Free p n = some m1) : m1.PagesDistinct := by
  obtain ⟨e1, e2, e3, e4⟩ := Free_pages h
  unfold CMemoryMgr.PagesDistinct CMemoryMgr.pages at *
  rw [e1, e2, e3, e4]
  exact hp

theorem Reachable.pagesDistinct {m : CMemoryMgr} (h : Reachable m) : m.PagesDistinct := by
  induction h with
  | ctor data m e =>
    rw [CMemoryMgr.ctor_eq] at e
    simp only [Option.some.injEq] at e
    subst e
    exact fresh_pagesDistinct data
  | allocate m n r m1 hr e ih => exact Allocate_pagesDistinct hr.configured ih e
  | free m p n m1 _ e ih => exact Free_pagesDistinct ih e

/-- A state reached from a reachable state by further calls is reachable. -/
theorem Reachable.calls {m : CMemoryMgr} (h : Reachable m) :
    ∀ (cs : List Call) (m1 : CMemoryMgr), m.calls cs = some m1 → Reachable m1 := by
  intro cs
  induction cs generalizing m with
  | nil =>
    intro m1 e
    simp only [CMemoryMgr.calls, Option.some.injEq] at e
    subst e
    exact h
  | cons c cs ih =>
    intro m1 e
    simp only [CMemoryMgr.calls] at e
    cases hc : m.call c with
    | none => simp [hc] at e
    | some m2 =>
      simp only [hc, Option.some_bind] at e
      refine ih ?_ m1 e
      cases c with
      | Allocate n =>
        simp only [CMemoryMgr.call, Option.map_eq_some'] at hc
        obtain ⟨⟨r, m3⟩, g1, g2⟩ := hc
        simp only at g2
        subst g2
        exact Reachable.allocate m n r m3 h g1
      | Free p n => exact Reachable.free m p n m2 h hc

/-- Along further calls the archive list only grows at its head. -/
theorem calls_archive_suffix :
    ∀ (cs : List Call) (m m1 : CMemoryMgr), m.calls cs = some m1 →
      List.IsSuffix m.pFilledPages m1.pFilledPages := by
  intro cs
  induction cs with
  | nil =>
    intro m m1 e
    simp only [CMemoryMgr.calls, Option.some.injEq] at e
    subst e
    exact List.suffix_refl _
  | cons c cs ih =>
    intro m m1 e
    simp only [CMemoryMgr.calls] at e
    cases hc : m.call c with
    | none => simp [hc] at e
    | some m2 =>
      simp only [hc, Option.some_bind] at e
      refine List.IsSuffix.trans ?_ (ih m2 m1 e)
      cases c with
      | Allocate n =>
        simp only [CMemoryMgr.call, Option.map_eq_some'] at hc
        obtain ⟨⟨r, m3⟩, g1, g2⟩ := hc
        simp only at g2
        subst g2
        rcases Allocate_archive g1 with g | g | g
        · exact g ▸ List.suffix_refl _
        · exact g ▸ List.suffix_cons _ _
        · exact g ▸ List.suffix_cons _ _
      | Free p n =>
        exact (Free_pages hc).2.2.1 ▸ List.suffix_refl _

theorem calls_append (m : CMemoryMgr) (a b : List Call) :
    m.calls (a ++ b) = (m.calls a).bind fun m1 => m1.calls b := by
  induction a generalizing m with
  | nil => simp [CMemoryMgr.calls]
  | cons c cs ih =>
    simp only [List.cons_append, CMemoryMgr.calls]
    cases m.call c with
    | none => simp
    | some m2 => simp [ih]

/-- With every head null and the tables of `InitialiseCache`,
`Allocate(MAX_BLOCK_SIZE)` is `AllocateFromPage(1024)`. -/
theorem call_max_of_fresh_caches (data : Heap) (m : CMemoryMgr)
    (hb : m.blockCaches = (CMemoryMgr.fresh data).blockCaches)
    (hi : m.cacheIndexes = classIndexes) :
    m.call (Call.Allocate MAX_BLOCK_SIZE) = some (m.AllocateFromPage 1024).2 := by
  have e1 : CalcCacheIndex m.cacheIndexes MAX_BLOCK_SIZE = some 23 := by
    rw [hi, classIndexes_eq]; decide
  have e2 : m.blockCaches[23]? = some { pCacheBlock := Ptr.null, uBlockSize := 1024 } := by
    rw [hb]
    simp only [CMemoryMgr.fresh, classSizes_eq]
    decide
  simp only [CMemoryMgr.call,
    Allocate_miss m MAX_BLOCK_SIZE 23 _ (le_refl _) e1 e2 rfl, Option.map_some']

/-- The state after `n` calls `Allocate(MAX_BLOCK_SIZE)` on a new manager: no
head is ever set, page A fills in the first 16 calls, page B in the next 16,
and from call 33 on every 16th call archives page B and replaces it. -/
theorem repeat_max_state (data : Heap) :
    ∀ n : Nat, ∃ m,
      (CMemoryMgr.fresh data).calls (List.replicate n (Call.Allocate MAX_BLOCK_SIZE)) =
        some m ∧
      m.blockCaches = (CMemoryMgr.fresh data).blockCaches ∧
      m.cacheIndexes = classIndexes ∧
      m.pPageA.uFreeSize = 16384 - 1024 * min n 16 ∧
      m.pPageB.uFreeSize =
        (if n ≤ 16 then 16384 else if n ≤ 32 then 16384 - 1024 * (n - 16)
          else 16384 - 1024 * ((n - 33) % 16 + 1)) ∧
      m.pFilledPages.length = (if n ≤ 32 then 0 else (n - 17) / 16) := by
  intro n
  induction n with
  | zero =>
    exact ⟨CMemoryMgr.fresh data, rfl, rfl, rfl, rfl, rfl, rfl⟩
  | succ k ih =>
    obtain ⟨m, e, hb, hi, hA, hB, hL⟩ := ih
    have hcall := call_max_of_fresh_caches data m hb hi
    have hrun : (CMemoryMgr.fresh data).calls
        (List.replicate (k + 1) (Call.Allocate MAX_BLOCK_SIZE)) =
        some (m.AllocateFromPage 1024).2 := by
      rw [List.replicate_succ', calls_append, e]
      simp only [Option.some_bind, CMemoryMgr.calls, hcall]
    obtain ⟨f1, f2, _⟩ := AllocateFromPage_frame m 1024
    refine ⟨_, hrun, by rw [f1, hb], by rw [f2, hi], ?_⟩
    by_cases ha : 1024 ≤ m.pPageA.uFreeSize
    · rw [AllocateFromPage_fromA m 1024 ha]
      simp only
      have hk : k < 16 := by
        by_contra hk
        have : min k 16 = 16 := by omega
        rw [this] at hA
        omega
      have hmin : min k 16 = k := by omega
      have hmin2 : min (k + 1) 16 = k + 1 := by omega
      rw [hmin] at hA
      rw [hmin2]
      have c1 : k ≤ 16 := by omega
      have c2 : k ≤ 32 := by omega
      have c3 : k + 1 ≤ 16 := by omega
      have c4 : k + 1 ≤ 32 := by omega
      simp only [c1, c2, if_true] at hB hL
      simp only [c3, c4, if_true]
      omega
    · have ha2 : m.pPageA.uFreeSize < 1024 := by omega
      have hk : 16 ≤ k := by
        by_contra hk
        have : min k 16 = k := by omega
        rw [this] at hA
        omega
      have hmin : min k 16 = 16 := by omega
      have hmin2 : min (k + 1) 16 = 16 := by omega
      rw [hmin] at hA
      by_cases hb2 : 1024 ≤ m.pPageB.uFreeSize
      · rw [AllocateFromPage_fromB m 1024 ha2 hb2]
        simp only
        rw [hmin2]
        by_cases c1 : k ≤ 16
        · have c2 : k ≤ 32 := by omega
          have c3 : ¬ k + 1 ≤ 16 := by omega
          have c4 : k + 1 ≤ 32 := by omega
          simp only [c1, c2, if_true] at hB hL
          simp only [c3, c4, if_true, if_false]
          omega
        · by_cases c2 : k ≤ 32
          · have c3 : ¬ k + 1 ≤ 16 := by omega
            simp only [c1, c2, if_true, if_false] at hB hL
            have c4 : k + 1 ≤ 32 := by omega
            simp only [c3, c4, if_true, if_false]
            omega
          · have c3 : ¬ k + 1 ≤ 16 := by omega
            have c4 : ¬ k + 1 ≤ 32 := by omega
            simp only [c1, c2, if_false] at hB hL
            simp only [c3, c4, if_false]
            omega
      · have hb3 : m.pPageB.uFreeSize < 1024 := by omega
        have hab : m.pPageB.uFreeSize ≤ m.pPageA.uFreeSize := by
          by_cases c1 : k ≤ 16
          · simp only [c1, if_true] at hB; omega
          · by_cases c2 : k ≤ 32
            · simp only [c1, c2, if_true, if_false] at hB; omega
            · simp only [c1, c2, if_false] at hB; omega
        rw [AllocateFromPage_archiveB m 1024 ha2 hb3 (by decide) hab]
        simp only [List.length_cons]
        rw [hmin2]
        have c3 : ¬ k + 1 ≤ 16 := by omega
        by_cases c1 : k ≤ 16
        · simp only [c1, if_true] at hB; omega
        · by_cases c2 : k ≤ 32
          · simp only [c1, c2, if_true, if_false] at hB hL
            have hk32 : k = 32 := by omega
            subst hk32
            have c4 : ¬ 32 + 1 ≤ 32 := by omega
            simp only [c3, c4, if_false, MEMORY_PAGE_SIZE]
            exact ⟨hA, trivial, by omega⟩
          · simp only [c1, c2, if_false] at hB hL
            have c4 : ¬ k + 1 ≤ 32 := by omega
            simp only [c3, c4, if_false, MEMORY_PAGE_SIZE]
            omega

theorem call_archive_length {m m1 : CMemoryMgr} {c : Call} (h : m.call c = some m1) :
    m1.pFilledPages.length ≤ m.pFilledPages.length + 1 := by
  cases c with
  | Allocate n =>
    simp only [CMemoryMgr.call, Option.map_eq_some'] at h
    obtain ⟨⟨r, m3⟩, g1, g2⟩ := h
    simp only at g2
    subst g2
    rcases Allocate_archive g1 with g | g | g <;> rw [g] <;> simp
  | Free p n =>
    rw [(Free_pages h).2.2.1]
    omega

/-- C16: exactly one rotation per exhaustion event.  In every reachable state
and for every size in `[1, MAX_BLOCK_SIZE]`, `Allocate(size)` is defined and
lengthens the archive list by 1 if the head of the size's bucket is null and
both active pages have free size below the class size, and by 0 otherwise; no
call, of `Allocate` or `Free`, in any state, lengthens it by more than 1.  On
a new manager the archive list after `n` calls `Allocate(1024)` has length 0
for `n ≤ 32` and `(n - 17) / 16` from there on: the 33rd call is the first to
archive a page, and every 16th call after it archives one more. -/
theorem one_rotation_per_exhaustion :
    (∀ (m : CMemoryMgr) (s : Nat), Reachable m → 1 ≤ s → s ≤ MAX_BLOCK_SIZE →
      ∃ c cache r m1,
        CalcCacheIndex m.cacheIndexes s = some c ∧ m.blockCaches[c]? = some cache ∧
        m.Allocate s = some (r, m1) ∧
        m1.pFilledPages.length = m.pFilledPages.length +
          (if cache.pCacheBlock = Ptr.null ∧ m.pPageA.FreeSize < cache.uBlockSize ∧
              m.pPageB.FreeSize < cache.uBlockSize then 1 else 0)) ∧
    (∀ (m : CMemoryMgr) (c : Call) (m1 : CMemoryMgr), m.call c = some m1 →
      m1.pFilledPages.length ≤ m.pFilledPages.length + 1) ∧
    (∀ (data : Heap) (n : Nat), ∃ m,
      (CMemoryMgr.fresh data).calls (List.replicate n (Call.Allocate 1024)) = some m ∧
      m.pFilledPages.length = (if n ≤ 32 then 0 else (n - 17) / 16)) ∧
    (∀ (data : Heap) (k j : Nat), j < 16 → ∃ m,
      (CMemoryMgr.fresh data).calls
        (List.replicate (33 + 16 * k + j) (Call.Allocate 1024)) = some m ∧
      m.pFilledPages.length = k + 1) := by
  refine ⟨?_, fun m c m1 h => call_archive_length h, ?_, ?_⟩
  · intro m s hm h1 h2
    obtain ⟨c, cache, e1, _, e3, _, _, hsz⟩ := hm.configured.lookup s h1 h2
    have hpage : cache.uBlockSize ≤ MEMORY_PAGE_SIZE := by
      simp only [MEMORY_PAGE_SIZE]; omega
    refine ⟨c, cache, ?_⟩
    cases hp : cache.pCacheBlock with
    | addr pg off =>
      refine ⟨_, _, e1, e3, Allocate_hit m s c cache pg off h2 e1 e3 hp, ?_⟩
      simp
    | null =>
      refine ⟨_, _, e1, e3, Allocate_miss m s c cache h2 e1 e3 hp, ?_⟩
      simp only [CMemoryPage.FreeSize, true_and]
      by_cases ha : cache.uBlockSize ≤ m.pPageA.uFreeSize
      · rw [AllocateFromPage_fromA m _ ha]
        have : ¬ (m.pPageA.uFreeSize < cache.uBlockSize ∧
            m.pPageB.uFreeSize < cache.uBlockSize) := by omega
        simp only [this, if_false, Nat.add_zero]
      · have ha2 : m.pPageA.uFreeSize < cache.uBlockSize := by omega
        by_cases hb : cache.uBlockSize ≤ m.pPageB.uFreeSize
        · rw [AllocateFromPage_fromB m _ ha2 hb]
          have : ¬ (m.pPageA.uFreeSize < cache.uBlockSize ∧
              m.pPageB.uFreeSize < cache.uBlockSize) := by omega
          simp only [this, if_false, Nat.add_zero]
        · have hb2 : m.pPageB.uFreeSize < cache.uBlockSize := by omega
          have hboth : m.pPageA.uFreeSize < cache.uBlockSize ∧
              m.pPageB.uFreeSize < cache.uBlockSize := ⟨ha2, hb2⟩
          simp only [hboth, and_self, if_true]
          by_cases hab : m.pPageB.uFreeSize ≤ m.pPageA.uFreeSize
          · rw [AllocateFromPage_archiveB m _ ha2 hb2 hpage hab]
            simp
          · rw [AllocateFromPage_archiveA m _ ha2 hb2 hpage (by omega)]
            simp
  · intro data n
    obtain ⟨m, e, _, _, _, _, hL⟩ := repeat_max_state data n
    exact ⟨m, e, hL⟩
  · intro data k j hj
    obtain ⟨m, e, _, _, _, _, hL⟩ := repeat_max_state data (33 + 16 * k + j)
    refine ⟨m, e, ?_⟩
    have c : ¬ 33 + 16 * k + j ≤ 32 := by omega
    simp only [c, if_false] at hL
    omega

/-- C18: archived is terminal.  In every reachable state, a call of
`Allocate` leaves the old archive list as a suffix of the new one and a call
of `Free` leaves it as it is, so every archived page stays archived, in the
same order and with the same cursor and free size; no archived page is the
page of an active slot; and the same holds after any number of further
calls: the pages archived now are archived then and are not in an active
slot then. -/
theorem archived_is_terminal (m : CMemoryMgr) (hm : Reachable m) :
    (∀ n r m1, m.Allocate n = some (r, m1) →
      List.IsSuffix m.pFilledPages m1.pFilledPages) ∧
    (∀ p n m1, m.Free p n = some m1 → m1.pFilledPages = m.pFilledPages) ∧
    (∀ P ∈ m.pFilledPages, P.page ≠ m.pPageA.page ∧ P.page ≠ m.pPageB.page) ∧
    ∀ cs m1, m.calls cs = some m1 →
      List.IsSuffix m.pFilledPages m1.pFilledPages ∧
      ∀ P ∈ m.pFilledPages,
        P ∈ m1.pFilledPages ∧ P.page ≠ m1.pPageA.page ∧ P.page ≠ m1.pPageB.page := by
  have hactive : ∀ m2 : CMemoryMgr, m2.PagesDistinct →
      ∀ P ∈ m2.pFilledPages, P.page ≠ m2.pPageA.page ∧ P.page ≠ m2.pPageB.page := by
    intro m2 hd P hP
    have hnd := hd.1
    simp only [CMemoryMgr.pages, List.map_cons, List.nodup_cons, List.mem_cons, List.mem_map,
      not_or, not_exists, not_and] at hnd
    obtain ⟨⟨_, hAF⟩, hBF, _⟩ := hnd
    exact ⟨hAF P hP, hBF P hP⟩
  refine ⟨?_, ?_, hactive m hm.pagesDistinct, ?_⟩
  · intro n r m1 h
    rcases Allocate_archive h with g | g | g
    · exact g ▸ List.suffix_refl _
    · exact g ▸ List.suffix_cons _ _
    · exact g ▸ List.suffix_cons _ _
  · intro p n m1 h
    exact (Free_pages h).2.2.1
  · intro cs m1 h
    have hsuf := calls_archive_suffix cs m m1 h
    refine ⟨hsuf, fun P hP => ?_⟩
    have hP1 : P ∈ m1.pFilledPages := hsuf.subset hP
    exact ⟨hP1, hactive m1 (hm.calls cs m1 h).pagesDistinct P hP1⟩

/-- C18, at a state with one archived page: a new manager after 33 calls
`Allocate(1024)`. -/
theorem archived_is_terminal_witness :
    ∃ m, Reachable m ∧ m.pFilledPages.length = 1 ∧
      (∀ n r m1, m.Allocate n = some (r, m1) →
        List.IsSuffix m.pFilledPages m1.pFilledPages) ∧
      (∀ p n m1, m.Free p n = some m1 → m1.pFilledPages = m.pFilledPages) ∧
      (∀ P ∈ m.pFilledPages, P.page ≠ m.pPageA.page ∧ P.page ≠ m.pPageB.page) ∧
      ∀ cs m1, m.calls cs = some m1 →
        List.IsSuffix m.pFilledPages m1.pFilledPages ∧
        ∀ P ∈ m.pFilledPages,
          P ∈ m1.pFilledPages ∧ P.page ≠ m1.pPageA.page ∧ P.page ≠ m1.pPageB.page := by
  obtain ⟨m, e, _, _, _, _, hL⟩ := repeat_max_state Heap.nulls 33
  have hr : Reachable m :=
    (Reachable.ctor _ _ (CMemoryMgr.ctor_eq Heap.nulls)).calls _ m e
  exact ⟨m, hr, by simpa using hL, archived_is_terminal m hr⟩

/-! ## The large-block counters -/

theorem AllocateFromPage_stats (m : CMemoryMgr) (n : Nat) :
    (m.AllocateFromPage n).2.uLargeBlockCount = m.uLargeBlockCount ∧
    (m.AllocateFromPage n).2.uLargeBlocksSize = m.uLargeBlocksSize ∧
    (m.AllocateFromPage n).2.uLargeBlocksMin = m.uLargeBlocksMin ∧
    (m.AllocateFromPage n).2.uLargeBlocksMax = m.uLargeBlocksMax := by
  unfold CMemoryMgr.AllocateFromPage
  simp only
  split
  · exact ⟨rfl, rfl, rfl, rfl⟩
  · split
    · exact ⟨rfl, rfl, rfl, rfl⟩
    · split <;> exact ⟨rfl, rfl, rfl, rfl⟩

/-- `Allocate` of a size up to `MAX_BLOCK_SIZE` leaves the four counters. -/
theorem Allocate_small_stats {m m1 : CMemoryMgr} {n : Nat} {r : AllocResult}
    (hn : n ≤ MAX_BLOCK_SIZE) (h : m.Allocate n = some (r, m1)) :
    m1.uLargeBlockCount = m.uLargeBlockCount ∧ m1.uLargeBlocksSize = m.uLargeBlocksSize ∧
    m1.uLargeBlocksMin = m.uLargeBlocksMin ∧ m1.uLargeBlocksMax = m.uLargeBlocksMax := by
  have hgt : ¬ n > MAX_BLOCK_SIZE := by omega
  unfold CMemoryMgr.Allocate at h
  simp only [hgt, if_false] at h
  cases hc : CalcCacheIndex m.cacheIndexes n with
  | none => simp [hc] at h
  | some c =>
    cases hk : m.blockCaches[c]? with
    | none => simp [hc, hk] at h
    | some cache =>
      simp only [hc, hk, Option.some_bind] at h
      split at h
      · simp only [Option.some.injEq, Prod.mk.injEq] at h
        obtain ⟨_, rfl⟩ := h
        exact AllocateFromPage_stats m cache.uBlockSize
      · simp only [Option.some.injEq, Prod.mk.injEq] at h
        obtain ⟨_, rfl⟩ := h
        exact ⟨rfl, rfl, rfl, rfl⟩

/-- `Free` leaves the four counters. -/
theorem Free_stats {m m1 : CMemoryMgr} {n : Nat} {p : Ptr} (h : m.Free p n = some m1) :
    m1.uLargeBlockCount = m.uLargeBlockCount ∧ m1.uLargeBlocksSize = m.uLargeBlocksSize ∧
    m1.uLargeBlocksMin = m.uLargeBlocksMin ∧ m1.uLargeBlocksMax = m.uLargeBlocksMax := by
  unfold CMemoryMgr.Free at h
  split at h
  · cases p with
    | addr pg off => exact absurd h (by simp)
    | null =>
      simp only [Option.some.injEq] at h
      subst h
      exact ⟨rfl, rfl, rfl, rfl⟩
  · cases hc : CalcCacheIndex m.cacheIndexes n with
    | none => simp [hc] at h
    | some c =>
      cases hk : m.blockCaches[c]? with
      | none => simp [hc, hk] at h
      | some cache =>
        simp only [hc, hk, Option.some_bind] at h
        split at h
        · exact absurd h (by simp)
        · simp only [Option.some.injEq] at h
          subst h
          exact ⟨rfl, rfl, rfl, rfl⟩

/-- `Free` of any `void*`, with the allocator given, leaves the four
counters. -/
theorem FreeWith_stats {H B : Type} {lib : Fallback H B} {m m1 : CMemoryMgr} {heap heap1 : H}
    {pMem : VoidPtr B} {n : Nat} (h : m.FreeWith lib heap pMem n = some (m1, heap1)) :
    m1.uLargeBlockCount = m.uLargeBlockCount ∧ m1.uLargeBlocksSize = m.uLargeBlocksSize ∧
    m1.uLargeBlocksMin = m.uLargeBlocksMin ∧ m1.uLargeBlocksMax = m.uLargeBlocksMax := by
  cases pMem with
  | own p =>
    simp only [CMemoryMgr.FreeWith] at h
    cases hf : m.Free p n with
    | none => simp [hf] at h
    | some m2 =>
      simp only [hf, Option.map_some', Option.some.injEq, Prod.mk.injEq] at h
      rw [← h.1]
      exact Free_stats hf
  | block b =>
    simp only [CMemoryMgr.FreeWith] at h
    split at h
    · cases hb : lib.free heap b with
      | none => simp [hb] at h
      | some heap2 =>
        simp only [hb, Option.map_some', Option.some.injEq, Prod.mk.injEq] at h
        rw [← h.1]
        exact ⟨rfl, rfl, rfl, rfl⟩
    · exact absurd h (by simp)

theorem Records_of_stats_eq {m m1 : CMemoryMgr} {l : List Nat} (h : m.Records l)
    (e : m1.uLargeBlockCount = m.uLargeBlockCount ∧
      m1.uLargeBlocksSize = m.uLargeBlocksSize ∧
      m1.uLargeBlocksMin = m.uLargeBlocksMin ∧ m1.uLargeBlocksMax = m.uLargeBlocksMax) :
    m1.Records l := by
  unfold CMemoryMgr.Records at *
  rw [e.1, e.2.1, e.2.2.1, e.2.2.2]
  exact h

theorem length_le_sum (l : List Nat) (h : ∀ x ∈ l, 1 ≤ x) : l.length ≤ l.sum := by
  induction l with
  | nil => simp
  | cons a l ih =>
    have ha := h a (List.mem_cons_self _ _)
    have := ih fun x hx => h x (List.mem_cons_of_mem _ hx)
    simp only [List.length_cons, List.sum_cons]
    omega

/-- One large request more: the counters record the sizes so far and the new
one. -/
theorem Records_noteLarge {m : CMemoryMgr} {l : List Nat} (n : Nat) (h : m.Records l)
    (hpos : ∀ x ∈ l, 1 ≤ x) (hn1 : 1 ≤ n) (hsum : l.sum + n < UNSIGNED_RANGE) :
    (m.noteLarge n).Records (l ++ [n]) := by
  obtain ⟨h1, h2, h3, h4⟩ := h
  have hlen := length_le_sum l hpos
  have hn : n % UNSIGNED_RANGE = n := Nat.mod_eq_of_lt (by omega)
  unfold CMemoryMgr.Records CMemoryMgr.noteLarge
  simp only [hn]
  refine ⟨?_, ?_, fun e => absurd e (by simp), fun _ => ?_⟩
  · rw [h1, List.length_append, List.length_singleton]
    exact Nat.mod_eq_of_lt (by omega)
  · rw [h2, List.sum_append, List.sum_singleton]
    exact Nat.mod_eq_of_lt hsum
  · by_cases hl : l = []
    · obtain ⟨g1, g2⟩ := h3 hl
      subst hl
      simp only [UNSIGNED_RANGE] at g1 hsum
      simp only [g1, g2, List.nil_append, List.mem_singleton, forall_eq]
      have hmax : (if 0 < n then n else 0) = n := by split <;> omega
      have hmin : (if 2 ^ 32 - 1 > n then n else 2 ^ 32 - 1) = n := by
        simp only [List.sum_nil] at hsum
        split <;> omega
      rw [hmax, hmin]
      exact ⟨rfl, rfl, le_refl _, le_refl _⟩
    · obtain ⟨g1, g2, g3⟩ := h4 hl
      refine ⟨?_, ?_, ?_⟩
      · split
        · exact List.mem_append_right _ (List.mem_singleton_self _)
        · exact List.mem_append_left _ g1
      · split
        · exact List.mem_append_right _ (List.mem_singleton_self _)
        · exact List.mem_append_left _ g2
      · intro x hx
        rcases List.mem_append.mp hx with hx | hx
        · have := g3 x hx
          constructor
          · split <;> omega
          · split <;> omega
        · have e : x = n := List.mem_singleton.mp hx
          subst e
          constructor
          · split <;> omega
          · split <;> omega

theorem largeSizes_pos (cs : List Call) : ∀ x ∈ largeSizes cs, 1 ≤ x := by
  induction cs with
  | nil => simp [largeSizes]
  | cons c cs ih =>
    cases c with
    | Allocate n =>
      simp only [largeSizes]
      split
      · intro x hx
        rcases List.mem_cons.mp hx with rfl | hx
        · omega
        · exact ih x hx
      · exact ih
    | Free p n => simpa [largeSizes] using ih

/-- Along a run of calls in the domain, from counters that record `l`, the
counters end up recording `l` followed by the large sizes of the run. -/
theorem calls_records :
    ∀ (cs : List Call) (m : CMemoryMgr) (l : List Nat), m.Configured → m.Records l →
      (∀ x ∈ l, 1 ≤ x) → (∀ c ∈ cs, c.InDomain) →
      l.sum + (largeSizes cs).sum < UNSIGNED_RANGE →
      ∃ m1, m.calls cs = some m1 ∧ m1.Records (l ++ largeSizes cs) := by
  intro cs
  induction cs with
  | nil =>
    intro m l _ hr _ _ _
    exact ⟨m, rfl, by simpa [largeSizes] using hr⟩
  | cons c cs ih =>
    intro m l hm hr hpos hdom hsum
    have hdc := hdom c (List.mem_cons_self _ _)
    have hdcs : ∀ c2 ∈ cs, c2.InDomain := fun c2 h2 => hdom c2 (List.mem_cons_of_mem _ h2)
    cases c with
    | Allocate n =>
      have h1 : 1 ≤ n := hdc
      by_cases hn : n > MAX_BLOCK_SIZE
      · have hcall : m.call (Call.Allocate n) = some (m.noteLarge n) := by
          simp [CMemoryMgr.call, CMemoryMgr.Allocate, hn]
        have hls : largeSizes (Call.Allocate n :: cs) = n :: largeSizes cs := by
          simp [largeSizes, hn]
        rw [hls, List.sum_cons] at hsum
        have hr2 := Records_noteLarge n hr hpos h1 (by omega)
        have hpos2 : ∀ x ∈ l ++ [n], 1 ≤ x := by
          intro x hx
          rcases List.mem_append.mp hx with hx | hx
          · exact hpos x hx
          · have e : x = n := List.mem_singleton.mp hx
            omega
        obtain ⟨m1, e1, r1⟩ := ih (m.noteLarge n) (l ++ [n]) hm hr2 hpos2 hdcs
          (by rw [List.sum_append, List.sum_singleton]; omega)
        refine ⟨m1, ?_, ?_⟩
        · simp only [CMemoryMgr.calls, hcall, Option.some_bind, e1]
        · rw [hls]
          simpa using r1
      · have h2 : n ≤ MAX_BLOCK_SIZE := by omega
        obtain ⟨pg, off, m2, e2⟩ := Allocate_addr hm n h1 h2
        have hcall : m.call (Call.Allocate n) = some m2 := by
          simp [CMemoryMgr.call, e2]
        have hls : largeSizes (Call.Allocate n :: cs) = largeSizes cs := by
          simp [largeSizes, hn]
        rw [hls] at hsum
        obtain ⟨m1, e1, r1⟩ := ih m2 l (Allocate_configured hm e2)
          (Records_of_stats_eq hr (Allocate_small_stats h2 e2)) hpos hdcs hsum
        refine ⟨m1, ?_, ?_⟩
        · simp only [CMemoryMgr.calls, hcall, Option.some_bind, e1]
        · rw [hls]; exact r1
    | Free p n =>
      have hls : largeSizes (Call.Free p n :: cs) = largeSizes cs := by
        simp [largeSizes]
      rw [hls] at hsum
      have hdef : ∃ m2, m.Free p n = some m2 := by
        rcases hdc with ⟨hbig, hp⟩ | ⟨h1, h2, hp⟩
        · have hgt : n > MAX_BLOCK_SIZE := hbig
          exact ⟨m, by subst hp; simp [CMemoryMgr.Free, hgt]⟩
        · obtain ⟨c, cache, g1, _, g3, _⟩ := hm.lookup n h1 h2
          cases p with
          | null => exact absurd rfl hp
          | addr pg off => exact ⟨_, Free_eq m n c cache pg off h2 g1 g3⟩
      obtain ⟨m2, e2⟩ := hdef
      have hcall : m.call (Call.Free p n) = some m2 := e2
      obtain ⟨m1, e1, r1⟩ := ih m2 l (Free_configured hm e2)
        (Records_of_stats_eq hr (Free_stats e2)) hpos hdcs hsum
      refine ⟨m1, ?_, ?_⟩
      · simp only [CMemoryMgr.calls, hcall, Option.some_bind, e1]
      · rw [hls]; exact r1

theorem fresh_records (data : Heap) : (CMemoryMgr.fresh data).Records [] := by
  unfold CMemoryMgr.Records
  exact ⟨rfl, rfl, fun _ => ⟨rfl, rfl⟩, fun h => absurd rfl h⟩

/-- C11 (`CMemoryMgr::CMemoryMgr`, `CMemoryMgr::Allocate`, statistics build):
from a freshly constructed manager, every sequence of calls that respects the
domain of the two members (`Allocate` of at least one byte, `Free` of a
non-null pointer with a size of at most `MAX_BLOCK_SIZE` or of the null
pointer with a larger size) whose large sizes sum to less than 2^32 is
defined, and afterwards `_uLargeBlockCount` is the number of `Allocate`
calls with a size above `MAX_BLOCK_SIZE`, `_uLargeBlocksSize` is the sum of
those sizes, and when there is such a call `_uLargeBlocksMin` and
`_uLargeBlocksMax` are the smallest and the largest of them. An `Allocate` of
at most `MAX_BLOCK_SIZE` bytes and every `Free` leave the four counters as they
were, in every state; so does a `Free` of a block of the general-purpose
allocator, whatever that allocator is. -/
theorem large_block_statistics (data : Heap) (cs : List Call)
    (hdom : ∀ c ∈ cs, c.InDomain)
    (hsum : (largeSizes cs).sum < UNSIGNED_RANGE) :
    (∃ m, (CMemoryMgr.fresh data).calls cs = some m ∧
      m.uLargeBlockCount = (largeSizes cs).length ∧
      m.uLargeBlocksSize = (largeSizes cs).sum ∧
      (m.uLargeBlockCount ≠ 0 →
        m.uLargeBlocksMin ∈ largeSizes cs ∧ m.uLargeBlocksMax ∈ largeSizes cs ∧
        ∀ x ∈ largeSizes cs, m.uLargeBlocksMin ≤ x ∧ x ≤ m.uLargeBlocksMax)) ∧
    (∀ (m m1 : CMemoryMgr) (n : Nat) (r : AllocResult), n ≤ MAX_BLOCK_SIZE →
      m.Allocate n = some (r, m1) →
      m1.uLargeBlockCount = m.uLargeBlockCount ∧ m1.uLargeBlocksSize = m.uLargeBlocksSize ∧
      m1.uLargeBlocksMin = m.uLargeBlocksMin ∧ m1.uLargeBlocksMax = m.uLargeBlocksMax) ∧
    (∀ (m m1 : CMemoryMgr) (p : Ptr) (n : Nat), m.Free p n = some m1 →
      m1.uLargeBlockCount = m.uLargeBlockCount ∧ m1.uLargeBlocksSize = m.uLargeBlocksSize ∧
      m1.uLargeBlocksMin = m.uLargeBlocksMin ∧ m1.uLargeBlocksMax = m.uLargeBlocksMax) ∧
    (∀ (H B : Type) (lib : Fallback H B) (m m1 : CMemoryMgr) (heap heap1 : H)
      (pMem : VoidPtr B) (n : Nat), m.FreeWith lib heap pMem n = some (m1, heap1) →
      m1.uLargeBlockCount = m.uLargeBlockCount ∧ m1.uLargeBlocksSize = m.uLargeBlocksSize ∧
      m1.uLargeBlocksMin = m.uLargeBlocksMin ∧ m1.uLargeBlocksMax = m.uLargeBlocksMax) := by
  refine ⟨?_, fun m m1 n r hn h => Allocate_small_stats hn h, fun m m1 p n h => Free_stats h,
    fun H B lib m m1 heap heap1 pMem n h => FreeWith_stats h⟩
  obtain ⟨m, e, h1, h2, _, h4⟩ :=
    calls_records cs (CMemoryMgr.fresh data) [] (fresh_configured data) (fresh_records data)
      (by simp) hdom (by simpa using hsum)
  simp only [List.nil_append] at h1 h2 h4
  refine ⟨m, e, h1, h2, fun hne => h4 ?_⟩
  intro hnil
  rw [h1, hnil] at hne
  exact hne rfl

theorem large_block_statistics_witness :
    ∃ m, (CMemoryMgr.fresh Heap.nulls).calls
        [Call.Allocate 2000, Call.Allocate 8, Call.Allocate 1025,
          Call.Free (Ptr.addr 0 0) 8, Call.Allocate 5000] = some m ∧
      m.uLargeBlockCount = 3 ∧ m.uLargeBlocksSize = 8025 ∧
      m.uLargeBlocksMin = 1025 ∧ m.uLargeBlocksMax = 5000 := by
  have hl : largeSizes [Call.Allocate 2000, Call.Allocate 8, Call.Allocate 1025,
      Call.Free (Ptr.addr 0 0) 8, Call.Allocate 5000] = [2000, 1025, 5000] := by
    decide
  obtain ⟨⟨m, e, h1, h2, h3⟩, _, _, _⟩ :=
    large_block_statistics Heap.nulls
      [Call.Allocate 2000, Call.Allocate 8, Call.Allocate 1025,
        Call.Free (Ptr.addr 0 0) 8, Call.Allocate 5000]
      (by
        intro c hc
        simp only [List.mem_cons, List.mem_singleton, List.not_mem_nil, or_false] at hc
        rcases hc with rfl | rfl | rfl | rfl | rfl <;>
          simp [Call.InDomain, MAX_BLOCK_SIZE])
      (by rw [hl]; decide)
  rw [hl] at h1 h2 h3
  have hc : m.uLargeBlockCount ≠ 0 := by rw [h1]; decide
  obtain ⟨g1, g2, g3⟩ := h3 hc
  simp only [List.mem_cons, List.mem_singleton, List.not_mem_nil, or_false,
    forall_eq_or_imp, forall_eq] at g1 g2 g3
  refine ⟨m, e, h1, h2, ?_, ?_⟩
  · omega
  · omega

/-! ## The diagnostics report -/

theorem LogStatistics_walk_lt (l : List CMemoryPage) (acc : Nat × Nat)
    (h1 : acc.1 < UNSIGNED_RANGE) (h2 : acc.2 < UNSIGNED_RANGE) :
    (LogStatistics.walk l acc).1 < UNSIGNED_RANGE ∧
    (LogStatistics.walk l acc).2 < UNSIGNED_RANGE := by
  induction l generalizing acc with
  | nil => exact ⟨h1, h2⟩
  | cons P l ih =>
    simp only [LogStatistics.walk]
    exact ih _ (Nat.mod_lt _ (by decide)) (Nat.mod_lt _ (by decide))

theorem LogStatistics_walk_mod (l : List CMemoryPage) (acc : Nat × Nat) :
    (LogStatistics.walk l acc).1 % UNSIGNED_RANGE = (acc.1 + l.length) % UNSIGNED_RANGE ∧
    (LogStatistics.walk l acc).2 % UNSIGNED_RANGE =
      (acc.2 + (l.map CMemoryPage.FreeSize).sum) % UNSIGNED_RANGE := by
  induction l generalizing acc with
  | nil => simp [LogStatistics.walk]
  | cons P l ih =>
    simp only [LogStatistics.walk, List.length_cons, List.map_cons, List.sum_cons]
    obtain ⟨g1, g2⟩ := ih ((acc.1 + 1) % UNSIGNED_RANGE, (acc.2 + P.FreeSize) % UNSIGNED_RANGE)
    simp only [UNSIGNED_RANGE] at g1 g2 ⊢
    constructor
    · rw [g1]; omega
    · rw [g2]; omega

/-- C12 (`CMemoryMgr::LogStatistics`): the report counts one page more than the
manager holds. Right after construction the manager holds its two active
pages, 32768 bytes in all and all of them unused, and the report says 3 pages,
49152 bytes reserved, 32768 unused, 66 percent. In every state (below 2^32) the
reported page count is the number of pages held plus one, the reserved bytes
are `MEMORY_PAGE_SIZE` times that count, the unused bytes are the sum of
`FreeSize()` over the pages held, and the percentage is the floor of unused
times 100 over the reserved bytes. -/
theorem LogStatistics_counts_an_extra_page :
    ((CMemoryMgr.ctor Heap.nulls).map fun m =>
        (m.pages.length, m.pages.length * MEMORY_PAGE_SIZE,
          (m.pages.map CMemoryPage.FreeSize).sum)) = some (2, 32768, 32768) ∧
    ((CMemoryMgr.ctor Heap.nulls).bind fun m => m.LogStatistics.map fun r =>
        (r.uAllocatedPages, r.uAllocatedSize, r.uUnusedMemory, r.uUnusedPercent)) =
      some (3, 49152, 32768, 66) ∧
    ∀ m : CMemoryMgr, (m.pages.length + 1) * MEMORY_PAGE_SIZE < UNSIGNED_RANGE →
      (m.pages.map CMemoryPage.FreeSize).sum * 100 < UNSIGNED_RANGE →
      ∃ r, m.LogStatistics = some r ∧
        r.uAllocatedPages = m.pages.length + 1 ∧
        r.uAllocatedSize = (m.pages.length + 1) * MEMORY_PAGE_SIZE ∧
        r.uUnusedMemory = (m.pages.map CMemoryPage.FreeSize).sum ∧
        r.uUnusedPercent = r.uUnusedMemory * 100 / r.uAllocatedSize := by
  refine ⟨by decide, by decide, ?_⟩
  intro m hp hu
  simp only [CMemoryMgr.pages, List.length_cons, List.map_cons, List.sum_cons,
    MEMORY_PAGE_SIZE, UNSIGNED_RANGE] at hp hu
  have hA : (0 + m.pPageA.FreeSize) % UNSIGNED_RANGE = m.pPageA.FreeSize := by
    simp only [UNSIGNED_RANGE]; omega
  have hB : (m.pPageA.FreeSize + m.pPageB.FreeSize) % UNSIGNED_RANGE =
      m.pPageA.FreeSize + m.pPageB.FreeSize := by
    simp only [UNSIGNED_RANGE]; omega
  obtain ⟨w1, w2⟩ := LogStatistics_walk_mod m.pFilledPages
    (3, m.pPageA.FreeSize + m.pPageB.FreeSize)
  obtain ⟨l1, l2⟩ := LogStatistics_walk_lt m.pFilledPages
    (3, m.pPageA.FreeSize + m.pPageB.FreeSize) (by simp [UNSIGNED_RANGE])
    (by simp only [UNSIGNED_RANGE]; omega)
  simp only [UNSIGNED_RANGE] at w1 w2 l1 l2
  have e1 : (LogStatistics.walk m.pFilledPages
      (3, m.pPageA.FreeSize + m.pPageB.FreeSize)).1 = m.pFilledPages.length + 3 := by omega
  have e2 : (LogStatistics.walk m.pFilledPages
      (3, m.pPageA.FreeSize + m.pPageB.FreeSize)).2 =
      m.pPageA.FreeSize + (m.pPageB.FreeSize +
        (m.pFilledPages.map CMemoryPage.FreeSize).sum) := by omega
  have e3 : ((m.pFilledPages.length + 3) * MEMORY_PAGE_SIZE) % UNSIGNED_RANGE =
      (m.pFilledPages.length + 3) * MEMORY_PAGE_SIZE := by
    simp only [MEMORY_PAGE_SIZE, UNSIGNED_RANGE]; omega
  have e4 : (m.pFilledPages.length + 3) * MEMORY_PAGE_SIZE ≠ 0 := by
    simp only [MEMORY_PAGE_SIZE]; omega
  have e5 : ((m.pPageA.FreeSize + (m.pPageB.FreeSize +
        (m.pFilledPages.map CMemoryPage.FreeSize).sum)) * 100) % UNSIGNED_RANGE =
      (m.pPageA.FreeSize + (m.pPageB.FreeSize +
        (m.pFilledPages.map CMemoryPage.FreeSize).sum)) * 100 := by
    simp only [UNSIGNED_RANGE]; omega
  have hL : m.LogStatistics = some
      { uAllocatedPages := m.pFilledPages.length + 3
        uAllocatedSize := (m.pFilledPages.length + 3) * MEMORY_PAGE_SIZE
        uUnusedMemory := m.pPageA.FreeSize + (m.pPageB.FreeSize +
          (m.pFilledPages.map CMemoryPage.FreeSize).sum)
        uUnusedPercent := (m.pPageA.FreeSize + (m.pPageB.FreeSize +
          (m.pFilledPages.map CMemoryPage.FreeSize).sum)) * 100 /
            ((m.pFilledPages.length + 3) * MEMORY_PAGE_SIZE)
        uLargeBlockCount := m.uLargeBlockCount
        uLargeBlocksKB := m.uLargeBlocksSize / 1024
        range := if m.uLargeBlockCount ≠ 0 then some (m.uLargeBlocksMin, m.uLargeBlocksMax)
          else none } := by
    unfold CMemoryMgr.LogStatistics
    simp only [hA, hB, e1, e2, e3, e4, e5, if_false]
  refine ⟨_, hL, ?_, ?_, ?_, rfl⟩
  · simp only [CMemoryMgr.pages, List.length_cons]
  · simp only [CMemoryMgr.pages, List.length_cons]
  · simp only [CMemoryMgr.pages, List.map_cons, List.sum_cons]

/-! ## Interleaved callers -/

theorem Threads.Sound.tables {k : Threads} {ms : CMemoryMgr} {slive : List LiveBlock}
    (h : k.Sound ms slive) :
    k.m.cacheIndexes = ms.cacheIndexes ∧ k.m.blockCaches = ms.blockCaches := by
  cases hm : k.hndMutex with
  | none => rw [h.unlocked hm]; exact ⟨rfl, rfl⟩
  | some t =>
    have hv := h.locked t hm
    cases hp : k.pc t <;> rw [hp] at hv <;> simp only [Pc.View] at hv
    case allocRead => rw [hv.1]; exact ⟨rfl, rfl⟩
    case allocReturn => rw [hv.1]; exact ⟨rfl, rfl⟩
    case freeLinked =>
      obtain ⟨cache, _, e⟩ := hv
      rw [e]; exact ⟨rfl, rfl⟩
    all_goals rw [hv]; exact ⟨rfl, rfl⟩

theorem Threads.Sound.conf {k : Threads} {ms : CMemoryMgr} {slive : List LiveBlock}
    (h : k.Sound ms slive) : ms.Configured := h.run.reachable.configured

theorem Threads.Sound.confShared {k : Threads} {ms : CMemoryMgr} {slive : List LiveBlock}
    (h : k.Sound ms slive) : k.m.Configured := by
  unfold CMemoryMgr.Configured
  rw [h.tables.1, h.tables.2]
  exact h.conf

/-- The class index a caller computed is the one the sequential manager
computes, and names a class of the table. -/
theorem Threads.Sound.lookup_index {k : Threads} {ms : CMemoryMgr} {slive : List LiveBlock}
    (h : k.Sound ms slive) {n c : Nat} (h1 : 1 ≤ n) (h2 : n ≤ MAX_BLOCK_SIZE)
    (e : CalcCacheIndex classIndexes n = some c) :
    CalcCacheIndex ms.cacheIndexes n = some c ∧ c < 24 ∧
    ∃ cache, ms.blockCaches[c]? = some cache ∧ k.m.blockCaches[c]? = some cache ∧
      classSizes[c]? = some cache.uBlockSize ∧ n ≤ cache.uBlockSize ∧
      cache.uBlockSize ≤ 1024 := by
  obtain ⟨c2, cache, e1, hc, e3, e4, e5, e6⟩ := h.conf.lookup n h1 h2
  have e1b := e1
  rw [h.conf.1, e] at e1b
  simp only [Option.some.injEq] at e1b
  subst e1b
  exact ⟨e1, hc, cache, e3, by rw [h.tables.2]; exact e3, e4, e5, e6⟩

/-- The blocks of the sequential run have pairwise distinct addresses, so a
block just allocated is not among the blocks live before. -/
theorem Run.new_not_mem {m : CMemoryMgr} {live : List LiveBlock} {b : LiveBlock}
    (h : Run m (b :: live)) : b ∉ live := by
  obtain ⟨chain, all, hinv⟩ := h.inv
  have hnd := hinv.liveNodup
  simp only [List.map_cons, List.nodup_cons, List.mem_map, not_exists, not_and] at hnd
  intro hb
  exact hnd.1 b hb rfl

theorem Run.live_sizes {m : CMemoryMgr} {live : List LiveBlock} (h : Run m live) :
    ∀ b ∈ live, 1 ≤ b.uSize ∧ b.uSize ≤ MAX_BLOCK_SIZE := by
  obtain ⟨chain, all, hinv⟩ := h.inv
  intro b hb
  exact ⟨(hinv.liveIn b hb).1, (hinv.liveIn b hb).2.1⟩

theorem Threads.Sound.not_owner {k : Threads} {ms : CMemoryMgr} {slive : List LiveBlock}
    (h : k.Sound ms slive) {t : Nat} (ht : (k.pc t).inside = false) :
    k.hndMutex ≠ some t := by
  intro e
  have := (h.owner t).mpr e
  rw [ht] at this
  exact Bool.false_ne_true this

theorem Threads.Sound.is_owner {k : Threads} {ms : CMemoryMgr} {slive : List LiveBlock}
    (h : k.Sound ms slive) {t : Nat} (ht : (k.pc t).inside = true) :
    k.hndMutex = some t := (h.owner t).mp ht

/-- A caller enters `Allocate`. -/
theorem Threads.Sound.callAllocate {k : Threads} {ms : CMemoryMgr} {slive : List LiveBlock}
    (h : k.Sound ms slive) (t n c : Nat) (hp : k.pc t = Pc.idle)
    (h1 : 1 ≤ n) (h2 : n ≤ MAX_BLOCK_SIZE)
    (e : CalcCacheIndex k.m.cacheIndexes n = some c) :
    (k.setPc t (Pc.allocIndexed n c)).Sound ms slive := by
  have hno : k.hndMutex ≠ some t := h.not_owner (by rw [hp]; rfl)
  refine
    { run := h.run, liveNodup := h.liveNodup, liveIn := h.liveIn, count := h.count,
      unlocked := h.unlocked, holdsIn := ?_, holdsInj := ?_, owner := ?_, index := ?_,
      locked := ?_ }
  · intro u b hb
    by_cases hu : u = t
    · subst hu; simp [Threads.setPc, Pc.holds] at hb
    · simp only [Threads.setPc, hu, if_false] at hb
      exact h.holdsIn u b hb
  · intro u v b hu hv
    by_cases eu : u = t
    · subst eu; simp [Threads.setPc, Pc.holds] at hu
    · by_cases ev : v = t
      · subst ev; simp [Threads.setPc, Pc.holds] at hv
      · simp only [Threads.setPc, eu, ev, if_false] at hu hv
        exact h.holdsInj u v b hu hv
  · intro u
    by_cases hu : u = t
    · subst hu
      simp only [Threads.setPc, if_true, Pc.inside, Bool.false_eq_true, false_iff]
      exact hno
    · simp only [Threads.setPc, hu, if_false]
      exact h.owner u
  · intro u n2 c2 hi
    by_cases hu : u = t
    · subst hu
      simp only [Threads.setPc, if_true, Pc.indexed, Option.some.injEq, Prod.mk.injEq] at hi
      obtain ⟨rfl, rfl⟩ := hi
      rw [h.confShared.1] at e
      exact ⟨h1, h2, e⟩
    · simp only [Threads.setPc, hu, if_false] at hi
      exact h.index u n2 c2 hi
  · intro u hm
    have hu : u ≠ t := fun e => hno (e ▸ hm)
    simp only [Threads.setPc, hu, if_false]
    exact h.locked u hm

theorem Threads.setPc_holds_eq (k : Threads) (t : Nat) (q : Pc)
    (hq : q.holds = (k.pc t).holds) (u : Nat) :
    ((k.setPc t q).pc u).holds = (k.pc u).holds := by
  by_cases hu : u = t
  · subst hu; simp [Threads.setPc, hq]
  · simp [Threads.setPc, hu]

theorem Threads.setPc_holds_none (k : Threads) (t : Nat) (q : Pc) (hq : q.holds = none)
    (u : Nat) (b : LiveBlock) (h : ((k.setPc t q).pc u).holds = some b) :
    u ≠ t ∧ (k.pc u).holds = some b := by
  by_cases hu : u = t
  · subst hu; simp [Threads.setPc, hq] at h
  · simp only [Threads.setPc, hu, if_false] at h
    exact ⟨hu, h⟩

theorem Threads.setPc_inside_eq (k : Threads) (t : Nat) (q : Pc)
    (hq : q.inside = (k.pc t).inside) (u : Nat) :
    ((k.setPc t q).pc u).inside = (k.pc u).inside := by
  by_cases hu : u = t
  · subst hu; simp [Threads.setPc, hq]
  · simp [Threads.setPc, hu]

theorem Threads.setPc_indexed (k : Threads) (t : Nat) (q : Pc)
    (hq : q.indexed = (k.pc t).indexed ∨ q.indexed = none) (u n c : Nat)
    (h : ((k.setPc t q).pc u).indexed = some (n, c)) :
    (k.pc u).indexed = some (n, c) := by
  by_cases hu : u = t
  · subst hu
    simp only [Threads.setPc, if_true] at h
    rcases hq with hq | hq
    · rw [← hq]; exact h
    · rw [hq] at h; exact absurd h (by simp)
  · simpa [Threads.setPc, hu] using h

/-- Taking the lock: `std::unique_lock<std::mutex> hndLock(_hndMutex)`. -/
theorem Threads.Sound.lock {k : Threads} {ms : CMemoryMgr} {slive : List LiveBlock}
    (h : k.Sound ms slive) (t : Nat) (q : Pc) (hm : k.hndMutex = none)
    (hin0 : (k.pc t).inside = false) (hin : q.inside = true)
    (hh : q.holds = (k.pc t).holds) (hi : q.indexed = (k.pc t).indexed)
    (hv : ∀ m, Pc.View ms m q ↔ m = ms) :
    ({ k.setPc t q with hndMutex := some t } : Threads).Sound ms slive := by
  refine
    { run := h.run, liveNodup := h.liveNodup, liveIn := h.liveIn, count := h.count,
      unlocked := ?_, holdsIn := ?_, holdsInj := ?_, owner := ?_, index := ?_,
      locked := ?_ }
  · intro u b hb
    rw [show ({ k.setPc t q with hndMutex := some t } : Threads).pc = (k.setPc t q).pc from rfl,
      Threads.setPc_holds_eq k t q hh] at hb
    exact h.holdsIn u b hb
  · intro u v b hu hv2
    rw [show ({ k.setPc t q with hndMutex := some t } : Threads).pc = (k.setPc t q).pc from rfl,
      Threads.setPc_holds_eq k t q hh] at hu hv2
    exact h.holdsInj u v b hu hv2
  · intro u
    show ((k.setPc t q).pc u).inside = true ↔ some t = some u
    by_cases hu : u = t
    · subst hu
      simp [Threads.setPc, hin]
    · simp only [Threads.setPc, hu, if_false, Option.some.injEq]
      constructor
      · intro hi2
        have := (h.owner u).mp hi2
        rw [hm] at this
        exact absurd this (by simp)
      · intro e
        exact absurd e.symm hu
  · intro u n c hi2
    exact h.index u n c (Threads.setPc_indexed k t q (Or.inl hi) u n c hi2)
  · intro e
    exact absurd e (by simp)
  · intro u hu
    have e : t = u := by simpa using hu
    subst e
    show Pc.View ms k.m ((k.setPc t q).pc t)
    simp only [Threads.setPc, if_true]
    exact (hv k.m).mpr (h.unlocked hm)

/-- The return of a call releases the lock. -/
theorem Threads.Sound.unlock {k : Threads} {ms : CMemoryMgr} {slive : List LiveBlock}
    (h : k.Sound ms slive) (t : Nat) (hin : (k.pc t).inside = true)
    (hh : (k.pc t).holds = none) (hv : k.m = ms) :
    ({ k.setPc t Pc.idle with hndMutex := none } : Threads).Sound ms slive := by
  have hown := h.is_owner hin
  refine
    { run := h.run, liveNodup := h.liveNodup, liveIn := h.liveIn, count := h.count,
      unlocked := fun _ => hv, holdsIn := ?_, holdsInj := ?_, owner := ?_, index := ?_,
      locked := ?_ }
  · intro u b hb
    rw [show ({ k.setPc t Pc.idle with hndMutex := none } : Threads).pc =
      (k.setPc t Pc.idle).pc from rfl, Threads.setPc_holds_eq k t _ (by rw [hh]; rfl)] at hb
    exact h.holdsIn u b hb
  · intro u v b hu hv2
    rw [show ({ k.setPc t Pc.idle with hndMutex := none } : Threads).pc =
      (k.setPc t Pc.idle).pc from rfl, Threads.setPc_holds_eq k t _ (by rw [hh]; rfl)] at hu hv2
    exact h.holdsInj u v b hu hv2
  · intro u
    show ((k.setPc t Pc.idle).pc u).inside = true ↔ none = some u
    by_cases hu : u = t
    · subst hu
      simp [Threads.setPc, Pc.inside]
    · simp only [Threads.setPc, hu, if_false]
      constructor
      · intro hi2
        have := (h.owner u).mp hi2
        rw [hown] at this
        exact absurd (Option.some.inj this).symm hu
      · intro e
        exact absurd e (by simp)
  · intro u n c hi2
    exact h.index u n c (Threads.setPc_indexed k t Pc.idle (Or.inr rfl) u n c hi2)
  · intro u hu
    exact absurd hu (by simp)

/-- A statement inside the lock that changes neither the block in hand nor the
blocks issued: the caller moves to `q`, the shared manager to `m1`, the
sequential manager stays. -/
theorem Threads.Sound.inner {k : Threads} {ms : CMemoryMgr} {slive : List LiveBlock}
    (h : k.Sound ms slive) (t : Nat) (q : Pc) (m1 : CMemoryMgr)
    (hin0 : (k.pc t).inside = true) (hin : q.inside = true)
    (hh : q.holds = (k.pc t).holds)
    (hi : q.indexed = (k.pc t).indexed ∨ q.indexed = none)
    (hv : Pc.View ms m1 q) :
    ({ k.setPc t q with m := m1 } : Threads).Sound ms slive := by
  have hown := h.is_owner hin0
  refine
    { run := h.run, liveNodup := h.liveNodup, liveIn := h.liveIn, count := h.count,
      unlocked := ?_, holdsIn := ?_, holdsInj := ?_, owner := ?_, index := ?_,
      locked := ?_ }
  · intro u b hb
    rw [show ({ k.setPc t q with m := m1 } : Threads).pc = (k.setPc t q).pc from rfl,
      Threads.setPc_holds_eq k t q hh] at hb
    exact h.holdsIn u b hb
  · intro u v b hu hv2
    rw [show ({ k.setPc t q with m := m1 } : Threads).pc = (k.setPc t q).pc from rfl,
      Threads.setPc_holds_eq k t q hh] at hu hv2
    exact h.holdsInj u v b hu hv2
  · intro u
    show ((k.setPc t q).pc u).inside = true ↔ k.hndMutex = some u
    rw [Threads.setPc_inside_eq k t q (by rw [hin, hin0])]
    exact h.owner u
  · intro u n c hi2
    exact h.index u n c (Threads.setPc_indexed k t q hi u n c hi2)
  · intro e
    have e2 : k.hndMutex = none := e
    rw [hown] at e2
    exact absurd e2 (by simp)
  · intro u hu
    have e : t = u := by
      have hu2 : k.hndMutex = some u := hu
      rw [hown] at hu2
      exact Option.some.inj hu2
    subst e
    show Pc.View ms m1 ((k.setPc t q).pc t)
    simp only [Threads.setPc, if_true]
    exact hv

/-- A caller enters `Free` with a block the application holds. -/
theorem Threads.Sound.callFree {k : Threads} {ms : CMemoryMgr} {slive : List LiveBlock}
    (h : k.Sound ms slive) (t : Nat) (b : LiveBlock) (c : Nat) (hp : k.pc t = Pc.idle)
    (hb : b ∈ k.live) (e : CalcCacheIndex k.m.cacheIndexes b.uSize = some c) :
    ({ k.setPc t (Pc.freeIndexed b c) with
        live := k.live.erase b, freed := k.freed + 1 } : Threads).Sound ms slive := by
  have hno : k.hndMutex ≠ some t := h.not_owner (by rw [hp]; rfl)
  refine
    { run := h.run, liveNodup := h.liveNodup.erase b, liveIn := ?_, count := ?_,
      unlocked := h.unlocked, holdsIn := ?_, holdsInj := ?_, owner := ?_, index := ?_,
      locked := ?_ }
  · intro b2 hb2
    exact h.liveIn b2 (List.mem_of_mem_erase hb2)
  · intro u b2 hb2
    have hb3 : ((k.setPc t (Pc.freeIndexed b c)).pc u).holds = some b2 := hb2
    show b2 ∈ slive ∧ b2 ∉ k.live.erase b
    by_cases hu : u = t
    · subst hu
      simp only [Threads.setPc, if_true, Pc.holds, Option.some.injEq] at hb3
      subst hb3
      exact ⟨h.liveIn _ hb, fun hmem => (List.Nodup.mem_erase_iff h.liveNodup).mp hmem |>.1 rfl⟩
    · simp only [Threads.setPc, hu, if_false] at hb3
      have := h.holdsIn u b2 hb3
      exact ⟨this.1, fun hmem => this.2 (List.mem_of_mem_erase hmem)⟩
  · intro u v b2 hu hv
    have hu2 : ((k.setPc t (Pc.freeIndexed b c)).pc u).holds = some b2 := hu
    have hv2 : ((k.setPc t (Pc.freeIndexed b c)).pc v).holds = some b2 := hv
    by_cases eu : u = t
    · by_cases ev : v = t
      · rw [eu, ev]
      · subst eu
        simp only [Threads.setPc, if_true, Pc.holds, Option.some.injEq] at hu2
        subst hu2
        simp only [Threads.setPc, ev, if_false] at hv2
        exact absurd hb (h.holdsIn v _ hv2).2
    · by_cases ev : v = t
      · subst ev
        simp only [Threads.setPc, if_true, Pc.holds, Option.some.injEq] at hv2
        subst hv2
        simp only [Threads.setPc, eu, if_false] at hu2
        exact absurd hb (h.holdsIn u _ hu2).2
      · simp only [Threads.setPc, eu, ev, if_false] at hu2 hv2
        exact h.holdsInj u v b2 hu2 hv2
  · intro u
    show ((k.setPc t (Pc.freeIndexed b c)).pc u).inside = true ↔ k.hndMutex = some u
    rw [Threads.setPc_inside_eq k t _ (by rw [hp]; rfl)]
    exact h.owner u
  · intro u n2 c2 hi
    have hi2 : ((k.setPc t (Pc.freeIndexed b c)).pc u).indexed = some (n2, c2) := hi
    by_cases hu : u = t
    · subst hu
      simp only [Threads.setPc, if_true, Pc.indexed, Option.some.injEq, Prod.mk.injEq] at hi2
      obtain ⟨rfl, rfl⟩ := hi2
      rw [h.confShared.1] at e
      have hs := h.run.live_sizes b (h.liveIn b hb)
      exact ⟨hs.1, hs.2, e⟩
    · simp only [Threads.setPc, hu, if_false] at hi2
      exact h.index u n2 c2 hi2
  · show (k.live.erase b).length + (k.freed + 1) = k.issued
    have hl := List.length_erase_of_mem hb
    have hpos : 0 < k.live.length := List.length_pos_of_mem hb
    have hc := h.count
    omega
  · intro u hm
    have hm2 : k.hndMutex = some u := hm
    have hu : u ≠ t := fun e => hno (e ▸ hm2)
    show Pc.View ms k.m ((k.setPc t (Pc.freeIndexed b c)).pc u)
    simp only [Threads.setPc, hu, if_false]
    exact h.locked u hm2

/-- The statement of `Allocate` that takes effect: a block leaves a free
chain or a page, and is in the hands of the caller until the return. -/
theorem Threads.Sound.commitAlloc {k : Threads} {ms : CMemoryMgr} {slive : List LiveBlock}
    (h : k.Sound ms slive) (t n page off : Nat) (m1 : CMemoryMgr)
    (hin0 : (k.pc t).inside = true) (hh0 : (k.pc t).holds = none)
    (hrun : Run m1 ({ page := page, off := off, uSize := n } :: slive)) :
    ({ k.setPc t (Pc.allocReturn n (Ptr.addr page off)) with m := m1 } : Threads).Sound m1
      ({ page := page, off := off, uSize := n } :: slive) := by
  have hown := h.is_owner hin0
  have hnew := hrun.new_not_mem
  refine
    { run := hrun, liveNodup := h.liveNodup, liveIn := ?_, count := h.count,
      unlocked := ?_, holdsIn := ?_, holdsInj := ?_, owner := ?_, index := ?_,
      locked := ?_ }
  · intro b hb
    exact List.mem_cons_of_mem _ (h.liveIn b hb)
  · intro u b2 hb2
    have hb3 : ((k.setPc t (Pc.allocReturn n (Ptr.addr page off))).pc u).holds = some b2 := hb2
    show b2 ∈ _ :: slive ∧ b2 ∉ k.live
    by_cases hu : u = t
    · subst hu
      simp only [Threads.setPc, if_true, Pc.holds, Option.some.injEq] at hb3
      subst hb3
      exact ⟨List.mem_cons_self _ _, fun hmem => hnew (h.liveIn _ hmem)⟩
    · simp only [Threads.setPc, hu, if_false] at hb3
      have := h.holdsIn u b2 hb3
      exact ⟨List.mem_cons_of_mem _ this.1, this.2⟩
  · intro u v b2 hu hv
    have hu2 : ((k.setPc t (Pc.allocReturn n (Ptr.addr page off))).pc u).holds = some b2 := hu
    have hv2 : ((k.setPc t (Pc.allocReturn n (Ptr.addr page off))).pc v).holds = some b2 := hv
    by_cases eu : u = t
    · by_cases ev : v = t
      · rw [eu, ev]
      · subst eu
        simp only [Threads.setPc, if_true, Pc.holds, Option.some.injEq] at hu2
        subst hu2
        simp only [Threads.setPc, ev, if_false] at hv2
        exact absurd (h.holdsIn v _ hv2).1 hnew
    · by_cases ev : v = t
      · subst ev
        simp only [Threads.setPc, if_true, Pc.holds, Option.some.injEq] at hv2
        subst hv2
        simp only [Threads.setPc, eu, if_false] at hu2
        exact absurd (h.holdsIn u _ hu2).1 hnew
      · simp only [Threads.setPc, eu, ev, if_false] at hu2 hv2
        exact h.holdsInj u v b2 hu2 hv2
  · intro u
    show ((k.setPc t (Pc.allocReturn n (Ptr.addr page off))).pc u).inside = true ↔
      k.hndMutex = some u
    rw [Threads.setPc_inside_eq k t _ (by rw [hin0]; rfl)]
    exact h.owner u
  · intro u n2 c2 hi
    exact h.index u n2 c2
      (Threads.setPc_indexed k t (Pc.allocReturn n (Ptr.addr page off)) (Or.inr rfl) u n2 c2 hi)
  · intro _
    rfl
  · intro u hu
    have hu2 : k.hndMutex = some u := hu
    rw [hown] at hu2
    have e : t = u := Option.some.inj hu2
    subst e
    show Pc.View m1 m1 ((k.setPc t (Pc.allocReturn n (Ptr.addr page off))).pc t)
    simp [Threads.setPc, Pc.View]

/-- The second write of `Free` takes effect: the block is on the chain. -/
theorem Threads.Sound.commitFree {k : Threads} {ms : CMemoryMgr} {slive : List LiveBlock}
    (h : k.Sound ms slive) (t : Nat) (b : LiveBlock) (m1 : CMemoryMgr)
    (hin0 : (k.pc t).inside = true) (hh0 : (k.pc t).holds = some b)
    (hrun : Run m1 (slive.erase b)) :
    ({ k.setPc t Pc.freeReturn with m := m1 } : Threads).Sound m1 (slive.erase b) := by
  have hown := h.is_owner hin0
  have hb := h.holdsIn t b hh0
  refine
    { run := hrun, liveNodup := h.liveNodup, liveIn := ?_, count := h.count,
      unlocked := ?_, holdsIn := ?_, holdsInj := ?_, owner := ?_, index := ?_,
      locked := ?_ }
  · intro b2 hb2
    have hne : b2 ≠ b := fun e => hb.2 (e ▸ hb2)
    exact (List.mem_erase_of_ne hne).mpr (h.liveIn b2 hb2)
  · intro u b2 hb2
    obtain ⟨hu, hb3⟩ := Threads.setPc_holds_none k t Pc.freeReturn rfl u b2 hb2
    have := h.holdsIn u b2 hb3
    have hne : b2 ≠ b := by
      intro e
      subst e
      exact hu (h.holdsInj u t b2 hb3 hh0)
    exact ⟨(List.mem_erase_of_ne hne).mpr this.1, this.2⟩
  · intro u v b2 hu hv
    obtain ⟨_, hu2⟩ := Threads.setPc_holds_none k t Pc.freeReturn rfl u b2 hu
    obtain ⟨_, hv2⟩ := Threads.setPc_holds_none k t Pc.freeReturn rfl v b2 hv
    exact h.holdsInj u v b2 hu2 hv2
  · intro u
    show ((k.setPc t Pc.freeReturn).pc u).inside = true ↔ k.hndMutex = some u
    rw [Threads.setPc_inside_eq k t _ (by rw [hin0]; rfl)]
    exact h.owner u
  · intro u n2 c2 hi
    exact h.index u n2 c2 (Threads.setPc_indexed k t Pc.freeReturn (Or.inr rfl) u n2 c2 hi)
  · intro _
    rfl
  · intro u hu
    have hu2 : k.hndMutex = some u := hu
    rw [hown] at hu2
    have e : t = u := Option.some.inj hu2
    subst e
    show Pc.View m1 m1 ((k.setPc t Pc.freeReturn).pc t)
    simp only [Threads.setPc, if_true, Pc.View]

/-- The return of `Allocate`: the lock is released and the application holds
the block. -/
theorem Threads.Sound.returnAlloc {k : Threads} {ms : CMemoryMgr} {slive : List LiveBlock}
    (h : k.Sound ms slive) (t n page off : Nat)
    (hp : k.pc t = Pc.allocReturn n (Ptr.addr page off)) :
    ({ k.setPc t Pc.idle with
        hndMutex := none
        live := { page := page, off := off, uSize := n } :: k.live
        issued := k.issued + 1 } : Threads).Sound ms slive := by
  have hin0 : (k.pc t).inside = true := by rw [hp]; rfl
  have hh0 : (k.pc t).holds = some { page := page, off := off, uSize := n } := by
    rw [hp]; rfl
  have hown := h.is_owner hin0
  have hb := h.holdsIn t _ hh0
  have hv := h.locked t hown
  rw [hp] at hv
  refine
    { run := h.run, liveNodup := List.nodup_cons.mpr ⟨hb.2, h.liveNodup⟩, liveIn := ?_,
      count := ?_, unlocked := fun _ => hv.1, holdsIn := ?_, holdsInj := ?_, owner := ?_,
      index := ?_, locked := ?_ }
  · intro b2 hb2
    rcases List.mem_cons.mp hb2 with e | hb3
    · rw [e]; exact hb.1
    · exact h.liveIn b2 hb3
  · intro u b2 hb2
    obtain ⟨hu, hb3⟩ := Threads.setPc_holds_none k t Pc.idle rfl u b2 hb2
    have := h.holdsIn u b2 hb3
    refine ⟨this.1, fun hmem => ?_⟩
    rcases List.mem_cons.mp hmem with e | hm
    · subst e
      exact hu (h.holdsInj u t _ hb3 hh0)
    · exact this.2 hm
  · intro u v b2 hu hv2
    obtain ⟨_, hu2⟩ := Threads.setPc_holds_none k t Pc.idle rfl u b2 hu
    obtain ⟨_, hv3⟩ := Threads.setPc_holds_none k t Pc.idle rfl v b2 hv2
    exact h.holdsInj u v b2 hu2 hv3
  · intro u
    show ((k.setPc t Pc.idle).pc u).inside = true ↔ none = some u
    by_cases hu : u = t
    · subst hu
      simp [Threads.setPc, Pc.inside]
    · simp only [Threads.setPc, hu, if_false]
      constructor
      · intro hi2
        have := (h.owner u).mp hi2
        rw [hown] at this
        exact absurd (Option.some.inj this).symm hu
      · intro e
        exact absurd e (by simp)
  · intro u n2 c2 hi
    exact h.index u n2 c2 (Threads.setPc_indexed k t Pc.idle (Or.inr rfl) u n2 c2 hi)
  · show (_ :: k.live).length + k.freed = k.issued + 1
    have hc := h.count
    simp only [List.length_cons]
    omega
  · intro u hu
    exact absurd hu (by simp)

/-- Every statement of every caller keeps the interleaved state accounted for
by a sequential run. -/
theorem Threads.Sound.step {k : Threads} {ms : CMemoryMgr} {slive : List LiveBlock}
    (h : k.Sound ms slive) (t : Nat) (mv : Move) (k1 : Threads)
    (e : k.step t mv = some k1) : ∃ ms1 slive1, k1.Sound ms1 slive1 := by
  cases mv with
  | callAllocate n =>
    cases hp : k.pc t
    case idle =>
      simp only [Threads.step, hp] at e
      split at e
      · rename_i hn
        cases hc : CalcCacheIndex k.m.cacheIndexes n with
        | none => simp [hc] at e
        | some c =>
          simp only [hc, Option.map_some', Option.some.injEq] at e
          subst e
          exact ⟨ms, slive, h.callAllocate t n c hp hn.1 hn.2 hc⟩
      · exact absurd e (by simp)
    all_goals simp [Threads.step, hp] at e
  | callFree b =>
    cases hp : k.pc t
    case idle =>
      simp only [Threads.step, hp] at e
      split at e
      · rename_i hb
        cases hc : CalcCacheIndex k.m.cacheIndexes b.uSize with
        | none => simp [hc] at e
        | some c =>
          simp only [hc, Option.map_some', Option.some.injEq] at e
          subst e
          exact ⟨ms, slive, h.callFree t b c hp hb.1 hc⟩
      · exact absurd e (by simp)
    all_goals simp [Threads.step, hp] at e
  | advance =>
    cases hp : k.pc t with
    | idle => simp [Threads.step, hp] at e
    | allocIndexed n c =>
      simp only [Threads.step, hp] at e
      split at e
      · rename_i hm
        simp only [Option.some.injEq] at e
        subst e
        exact ⟨ms, slive, h.lock t _ hm (by rw [hp]; rfl) rfl (by rw [hp]; rfl)
          (by rw [hp]; rfl) (fun m => by simp [Pc.View])⟩
      · exact absurd e (by simp)
    | allocLocked n c =>
      simp only [Threads.step, hp] at e
      cases hk : k.m.blockCaches[c]? with
      | none => simp [hk] at e
      | some cache =>
        simp only [hk, Option.map_some', Option.some.injEq] at e
        subst e
        have hown := h.is_owner (t := t) (by rw [hp]; rfl)
        have hv := h.locked t hown
        rw [hp] at hv
        simp only [Pc.View] at hv
        have hs := h.inner t (Pc.allocRead n c cache.pCacheBlock) k.m (by rw [hp]; rfl) rfl
          (by rw [hp]; rfl) (Or.inl (by rw [hp]; rfl))
          ⟨hv, cache, by rw [← hv]; exact hk, rfl⟩
        exact ⟨ms, slive, hs⟩
    | allocRead n c p =>
      have hown := h.is_owner (t := t) (by rw [hp]; rfl)
      have hv := h.locked t hown
      rw [hp] at hv
      simp only [Pc.View] at hv
      obtain ⟨hv1, cache, hv2, hv3⟩ := hv
      obtain ⟨h1, h2, hidx⟩ := h.index t n c (by rw [hp]; rfl)
      obtain ⟨e1, hc24, cache2, g1, g2, g3, g4, g5⟩ := h.lookup_index h1 h2 hidx
      rw [hv2] at g1
      simp only [Option.some.injEq] at g1
      subst g1
      cases p with
      | null =>
        simp only [Threads.step, hp, g2, Option.map_some', Option.some.injEq] at e
        subst e
        obtain ⟨pg, off, ea⟩ := AllocateFromPage_addr ms cache.uBlockSize
          (by simp only [MEMORY_PAGE_SIZE]; omega)
        have hal := Allocate_miss ms n c cache h2 e1 hv2 hv3
        rw [ea] at hal
        have hrun := Run.allocate ms slive n pg off _ h.run h1 h2 hal
        rw [hv1, ea]
        exact ⟨_, _, h.commitAlloc t n pg off _ (by rw [hp]; rfl) (by rw [hp]; rfl) hrun⟩
      | addr pg off =>
        simp only [Threads.step, hp, g2, Option.map_some', Option.some.injEq] at e
        subst e
        have hal := Allocate_hit ms n c cache pg off h2 e1 hv2 hv3
        have hrun := Run.allocate ms slive n pg off _ h.run h1 h2 hal
        rw [hv1]
        exact ⟨_, _, h.commitAlloc t n pg off _ (by rw [hp]; rfl) (by rw [hp]; rfl) hrun⟩
    | allocReturn n p =>
      have hown := h.is_owner (t := t) (by rw [hp]; rfl)
      have hv := h.locked t hown
      rw [hp] at hv
      simp only [Pc.View] at hv
      cases p with
      | null => exact absurd rfl hv.2
      | addr pg off =>
        simp only [Threads.step, hp, Option.some.injEq] at e
        subst e
        exact ⟨ms, slive, h.returnAlloc t n pg off hp⟩
    | freeIndexed b c =>
      simp only [Threads.step, hp] at e
      split at e
      · rename_i hm
        simp only [Option.some.injEq] at e
        subst e
        exact ⟨ms, slive, h.lock t _ hm (by rw [hp]; rfl) rfl (by rw [hp]; rfl)
          (by rw [hp]; rfl) (fun m => by simp [Pc.View])⟩
      · exact absurd e (by simp)
    | freeLocked b c =>
      simp only [Threads.step, hp] at e
      cases hk : k.m.blockCaches[c]? with
      | none => simp [hk] at e
      | some cache =>
        simp only [hk, Option.map_some', Option.some.injEq] at e
        subst e
        have hown := h.is_owner (t := t) (by rw [hp]; rfl)
        have hv := h.locked t hown
        rw [hp] at hv
        simp only [Pc.View] at hv
        have hs := h.inner t (Pc.freeLinked b c)
          { k.m with data := k.m.data.store b.page b.off cache.pCacheBlock }
          (by rw [hp]; rfl) rfl (by rw [hp]; rfl) (Or.inl (by rw [hp]; rfl))
          ⟨cache, by rw [← hv]; exact hk, by rw [hv]⟩
        exact ⟨ms, slive, hs⟩
    | freeLinked b c =>
      have hown := h.is_owner (t := t) (by rw [hp]; rfl)
      have hv := h.locked t hown
      rw [hp] at hv
      simp only [Pc.View] at hv
      obtain ⟨cache, hv1, hv2⟩ := hv
      obtain ⟨h1, h2, hidx⟩ := h.index t b.uSize c (by rw [hp]; rfl)
      obtain ⟨e1, hc24, cache2, g1, g2, g3, g4, g5⟩ := h.lookup_index h1 h2 hidx
      rw [hv1] at g1
      simp only [Option.some.injEq] at g1
      subst g1
      simp only [Threads.step, hp, g2, Option.map_some', Option.some.injEq] at e
      subst e
      have hfr := Free_eq ms b.uSize c cache b.page b.off h2 e1 hv1
      have hb := h.holdsIn t b (by rw [hp]; rfl)
      have hrun := Run.free ms slive b _ h.run hb.1 hfr
      rw [hv2]
      exact ⟨_, _, h.commitFree t b _ (by rw [hp]; rfl) (by rw [hp]; rfl) hrun⟩
    | freeReturn =>
      simp only [Threads.step, hp, Option.some.injEq] at e
      subst e
      have hown := h.is_owner (t := t) (by rw [hp]; rfl)
      have hv := h.locked t hown
      rw [hp] at hv
      simp only [Pc.View] at hv
      exact ⟨ms, slive, h.unlock t (by rw [hp]; rfl) (by rw [hp]; rfl) hv⟩

theorem Threads.Sound.runs {k : Threads} {ms : CMemoryMgr} {slive : List LiveBlock}
    (h : k.Sound ms slive) (sched : List (Nat × Move)) (k1 : Threads)
    (e : k.run sched = some k1) : ∃ ms1 slive1, k1.Sound ms1 slive1 := by
  induction sched generalizing k ms slive with
  | nil =>
    simp only [Threads.run, Option.some.injEq] at e
    subst e
    exact ⟨ms, slive, h⟩
  | cons x rest ih =>
    obtain ⟨t, mv⟩ := x
    simp only [Threads.run] at e
    cases hs : k.step t mv with
    | none => simp [hs] at e
    | some k2 =>
      simp only [hs, Option.some_bind] at e
      obtain ⟨ms2, slive2, h2⟩ := h.step t mv k2 hs
      exact ih h2 e

theorem Threads.init_sound (data : Heap) (k : Threads) (e : Threads.init data = some k) :
    k.Sound k.m [] := by
  unfold Threads.init at e
  cases hc : CMemoryMgr.ctor data with
  | none => simp [hc] at e
  | some m =>
    simp only [hc, Option.map_some', Option.some.injEq] at e
    subst e
    exact
      { run := Run.ctor data m hc
        liveNodup := List.nodup_nil
        liveIn := by simp
        holdsIn := by simp [Pc.holds]
        holdsInj := by simp [Pc.holds]
        owner := by simp [Pc.inside]
        index := by simp [Pc.indexed]
        count := rfl
        unlocked := fun _ => rfl
        locked := by simp }

/-- In a state accounted for by a sequential run, the blocks the application
holds do not overlap. -/
theorem Threads.Sound.separated {k : Threads} {ms : CMemoryMgr} {slive : List LiveBlock}
    (h : k.Sound ms slive) :
    k.live.Pairwise fun a b => (a.page, a.off) ≠ (b.page, b.off) ∧ Separated k.m a b := by
  obtain ⟨chain, all, hinv⟩ := h.run.inv
  have hsep := hinv.live_separated
  have hcls : ∀ s, k.m.classSize s = ms.classSize s := by
    intro s
    unfold CMemoryMgr.classSize
    rw [h.tables.1, h.tables.2]
  have hsym : ∀ a b : LiveBlock,
      ((a.page, a.off) ≠ (b.page, b.off) ∧ Separated ms a b) →
      ((b.page, b.off) ≠ (a.page, a.off) ∧ Separated ms b a) := by
    intro a b ⟨hne, ea, eb, g1, g2, g3⟩
    refine ⟨fun e => hne e.symm, eb, ea, g2, g1, ?_⟩
    rcases g3 with g | g | g
    · exact Or.inl fun e => g e.symm
    · exact Or.inr (Or.inr g)
    · exact Or.inr (Or.inl g)
  have hall : ∀ a ∈ slive, ∀ b ∈ slive, a ≠ b →
      ((a.page, a.off) ≠ (b.page, b.off) ∧ Separated ms a b) :=
    List.Pairwise.forall (fun a b hab => hsym a b hab) hsep
  refine List.Nodup.pairwise_of_forall_ne h.liveNodup ?_
  intro a ha b hb hne
  obtain ⟨g1, ea, eb, g2, g3, g4⟩ := hall a (h.liveIn a ha) b (h.liveIn b hb) hne
  exact ⟨g1, ea, eb, by rw [hcls]; exact g2, by rw [hcls]; exact g3, g4⟩

/-- In a state accounted for by a sequential run no enabled statement is
undefined: the owner of the lock can always run its next statement, every
caller inside a call can when the lock is free, and an idle caller can enter
`Allocate` with a bucketed size and `Free` with a block the application
holds. -/
theorem Threads.Sound.progress {k : Threads} {ms : CMemoryMgr} {slive : List LiveBlock}
    (h : k.Sound ms slive) :
    (∀ t, (k.pc t).inside = true → (k.step t Move.advance).isSome = true) ∧
    (k.hndMutex = none → ∀ t, k.pc t ≠ Pc.idle → (k.step t Move.advance).isSome = true) ∧
    (∀ t, k.pc t = Pc.idle →
      (∀ n, 1 ≤ n → n ≤ MAX_BLOCK_SIZE → (k.step t (Move.callAllocate n)).isSome = true) ∧
      ∀ b ∈ k.live, (k.step t (Move.callFree b)).isSome = true) := by
  have hin : ∀ t, (k.pc t).inside = true → (k.step t Move.advance).isSome = true := by
    intro t ht
    cases hp : k.pc t with
    | idle => rw [hp] at ht; exact absurd ht (by simp [Pc.inside])
    | allocIndexed n c => rw [hp] at ht; exact absurd ht (by simp [Pc.inside])
    | freeIndexed b c => rw [hp] at ht; exact absurd ht (by simp [Pc.inside])
    | allocLocked n c =>
      obtain ⟨h1, h2, hidx⟩ := h.index t n c (by rw [hp]; rfl)
      obtain ⟨_, _, cache, _, g2, _⟩ := h.lookup_index h1 h2 hidx
      simp [Threads.step, hp, g2]
    | allocRead n c p =>
      obtain ⟨h1, h2, hidx⟩ := h.index t n c (by rw [hp]; rfl)
      obtain ⟨_, _, cache, _, g2, _⟩ := h.lookup_index h1 h2 hidx
      cases p <;> simp [Threads.step, hp, g2]
    | allocReturn n p => cases p <;> simp [Threads.step, hp]
    | freeLocked b c =>
      obtain ⟨h1, h2, hidx⟩ := h.index t b.uSize c (by rw [hp]; rfl)
      obtain ⟨_, _, cache, _, g2, _⟩ := h.lookup_index h1 h2 hidx
      simp [Threads.step, hp, g2]
    | freeLinked b c =>
      obtain ⟨h1, h2, hidx⟩ := h.index t b.uSize c (by rw [hp]; rfl)
      obtain ⟨_, _, cache, _, g2, _⟩ := h.lookup_index h1 h2 hidx
      simp [Threads.step, hp, g2]
    | freeReturn => simp [Threads.step, hp]
  refine ⟨hin, ?_, ?_⟩
  · intro hm t ht
    cases hp : k.pc t with
    | idle => exact absurd hp ht
    | allocIndexed n c => simp [Threads.step, hp, hm]
    | freeIndexed b c => simp [Threads.step, hp, hm]
    | allocLocked n c => exact hin t (by rw [hp]; rfl)
    | allocRead n c p => exact hin t (by rw [hp]; rfl)
    | allocReturn n p => exact hin t (by rw [hp]; rfl)
    | freeLocked b c => exact hin t (by rw [hp]; rfl)
    | freeLinked b c => exact hin t (by rw [hp]; rfl)
    | freeReturn => exact hin t (by rw [hp]; rfl)
  · intro t hp
    constructor
    · intro n h1 h2
      obtain ⟨c, cache, e1, _⟩ := h.confShared.lookup n h1 h2
      simp [Threads.step, hp, h1, h2, e1]
    · intro b hb
      have hs := h.run.live_sizes b (h.liveIn b hb)
      obtain ⟨c, cache, e1, _⟩ := h.confShared.lookup b.uSize hs.1 hs.2
      simp [Threads.step, hp, hb, hs.2, e1]

/-- C13 (`CMemoryMgr::Allocate`, `CMemoryMgr::Free` with `_MULTITHREADED_`):
for every interleaving of the statements of any number of callers, each
calling `Allocate` with bucketed sizes and `Free` on blocks the application
holds, the number of blocks held is the number issued minus the number
freed, no two blocks held overlap, at most one caller is between lock and
return, and the interleaving never gets stuck or undefined: the owner of the
lock can run, every caller in a call can run when the lock is free, and an
idle caller can enter a call. -/
theorem interleaved_live_blocks (data : Heap) (sched : List (Nat × Move)) (k : Threads)
    (h : ((Threads.init data).bind fun k0 => k0.run sched) = some k) :
    (k.live.length = k.issued - k.freed ∧ k.freed ≤ k.issued) ∧
    (k.live.Pairwise fun a b => (a.page, a.off) ≠ (b.page, b.off) ∧ Separated k.m a b) ∧
    (∀ t u, (k.pc t).inside = true → (k.pc u).inside = true → t = u) ∧
    (∀ t, (k.pc t).inside = true → (k.step t Move.advance).isSome = true) ∧
    (k.hndMutex = none → ∀ t, k.pc t ≠ Pc.idle → (k.step t Move.advance).isSome = true) ∧
    (∀ t, k.pc t = Pc.idle →
      (∀ n, 1 ≤ n → n ≤ MAX_BLOCK_SIZE → (k.step t (Move.callAllocate n)).isSome = true) ∧
      ∀ b ∈ k.live, (k.step t (Move.callFree b)).isSome = true) := by
  cases h0 : Threads.init data with
  | none => simp [h0] at h
  | some k0 =>
    simp only [h0, Option.some_bind] at h
    obtain ⟨ms, slive, hs⟩ := (Threads.init_sound data k0 h0).runs sched k h
    have hc := hs.count
    refine ⟨⟨by omega, by omega⟩, hs.separated, ?_, hs.progress⟩
    intro t u ht hu
    have e1 := (hs.owner t).mp ht
    have e2 := (hs.owner u).mp hu
    rw [e1] at e2
    exact Option.some.inj e2

theorem interleaved_live_blocks_witness :
    ∃ k, ((Threads.init Heap.nulls).bind fun k0 => k0.run twoCallers) = some k ∧
      k.live = [{ page := 0, off := 0, uSize := 8 }, { page := 0, off := 8, uSize := 8 }] ∧
      k.issued = 3 ∧ k.freed = 1 ∧
      (k.live.length = k.issued - k.freed ∧ k.freed ≤ k.issued) ∧
      (k.live.Pairwise fun a b => (a.page, a.off) ≠ (b.page, b.off) ∧ Separated k.m a b) := by
  have hv : (((Threads.init Heap.nulls).bind fun k0 => k0.run twoCallers).map fun k =>
      (k.live, k.issued, k.freed)) =
      some ([{ page := 0, off := 0, uSize := 8 }, { page := 0, off := 8, uSize := 8 }], 3, 1) := by
    decide
  cases hX : ((Threads.init Heap.nulls).bind fun k0 => k0.run twoCallers) with
  | none =>
    rw [hX] at hv
    exact absurd hv (by simp)
  | some k =>
    rw [hX] at hv
    simp only [Option.map_some', Option.some.injEq, Prod.mk.injEq] at hv
    have hT := interleaved_live_blocks Heap.nulls twoCallers k hX
    exact ⟨k, rfl, hv.1, hv.2.1, hv.2.2, hT.1, hT.2.1⟩

/-! ## Claims on the page, the class table and the bucket code -/

theorem CMemoryPage_Allocate_step (p : CMemoryPage) (n : Nat) :
    (p.Allocate n).2.pFreeData + (p.Allocate n).2.uFreeSize = p.pFreeData + p.uFreeSize ∧
    p.pFreeData ≤ (p.Allocate n).2.pFreeData ∧
    (p.Allocate n).2.uFreeSize ≤ p.uFreeSize ∧
    (p.Allocate n).2.page = p.page := by
  unfold CMemoryPage.Allocate
  split
  · exact ⟨rfl, le_refl _, le_refl _, rfl⟩
  · simp only
    refine ⟨by omega, by omega, by omega, trivial⟩

theorem CMemoryPage_allocs_steps (p : CMemoryPage) (sizes : List Nat) :
    (p.allocs sizes).pFreeData + (p.allocs sizes).uFreeSize = p.pFreeData + p.uFreeSize ∧
    p.pFreeData ≤ (p.allocs sizes).pFreeData ∧
    (p.allocs sizes).uFreeSize ≤ p.uFreeSize := by
  induction sizes generalizing p with
  | nil => exact ⟨rfl, le_refl _, le_refl _⟩
  | cons n rest ih =>
    simp only [CMemoryPage.allocs]
    obtain ⟨a1, a2, a3, _⟩ := CMemoryPage_Allocate_step p n
    obtain ⟨b1, b2, b3⟩ := ih (p.Allocate n).2
    exact ⟨by omega, by omega, by omega⟩

/-- C21 (`CMemoryPage::CMemoryPage`, `CMemoryPage::Allocate`): for the page
reached from construction by any sequence of `Allocate` calls, cursor offset
plus free size is `MEMORY_PAGE_SIZE` (16384), and the free size and the
cursor offset are at most that.  From there, and from any page state, one
more call, and any number of further calls, never move the cursor backwards
and never increase the free size; a call that returns a block advances the
cursor and reduces the free size by exactly the size asked, which is at most
the free size (the subtraction does not wrap), and a call that returns null
changes nothing. -/
theorem CMemoryPage_invariant (page : Nat) (sizes : List Nat) :
    ((CMemoryPage.ctor page).allocs sizes).pFreeData +
      ((CMemoryPage.ctor page).allocs sizes).uFreeSize = MEMORY_PAGE_SIZE ∧
    MEMORY_PAGE_SIZE = 16384 ∧
    ((CMemoryPage.ctor page).allocs sizes).uFreeSize ≤ MEMORY_PAGE_SIZE ∧
    ((CMemoryPage.ctor page).allocs sizes).pFreeData ≤ MEMORY_PAGE_SIZE ∧
    (∀ (p : CMemoryPage) (n : Nat),
      p.pFreeData ≤ (p.Allocate n).2.pFreeData ∧ (p.Allocate n).2.uFreeSize ≤ p.uFreeSize ∧
      ((p.Allocate n).1 ≠ Ptr.null → n ≤ p.uFreeSize ∧
        (p.Allocate n).1 = Ptr.addr p.page p.pFreeData ∧
        (p.Allocate n).2.pFreeData = p.pFreeData + n ∧
        (p.Allocate n).2.uFreeSize + n = p.uFreeSize) ∧
      ((p.Allocate n).1 = Ptr.null → (p.Allocate n).2 = p)) ∧
    (∀ (p : CMemoryPage) (more : List Nat),
      p.pFreeData ≤ (p.allocs more).pFreeData ∧ (p.allocs more).uFreeSize ≤ p.uFreeSize) := by
  obtain ⟨h1, _, h3⟩ := CMemoryPage_allocs_steps (CMemoryPage.ctor page) sizes
  have h0 : (CMemoryPage.ctor page).pFreeData + (CMemoryPage.ctor page).uFreeSize =
      MEMORY_PAGE_SIZE := by simp [CMemoryPage.ctor]
  have h4 : (CMemoryPage.ctor page).uFreeSize = MEMORY_PAGE_SIZE := rfl
  refine ⟨by omega, rfl, by omega, by omega, ?_, ?_⟩
  · intro p n
    obtain ⟨_, a2, a3, _⟩ := CMemoryPage_Allocate_step p n
    refine ⟨a2, a3, ?_, ?_⟩
    · unfold CMemoryPage.Allocate
      split
      · intro h; exact absurd rfl h
      · intro _
        simp only
        exact ⟨by omega, trivial, trivial, by omega⟩
    · unfold CMemoryPage.Allocate
      split
      · intro _; rfl
      · intro h; exact absurd h (by simp)
  · intro p more
    obtain ⟨_, b2, b3⟩ := CMemoryPage_allocs_steps p more
    exact ⟨b2, b3⟩

/-- The class sizes classify to their own class. -/
theorem classSizes_fixed :
    ∀ c < 24, CalcCacheIndex classIndexes (classSizes.getD c 0) = some c := by
  rw [classSizes_eq, classIndexes_eq]
  decide

/-- C23 (`CMemoryMgr::CalcCacheIndex`, `CMemoryMgr::InitialiseCache`): over
the tables `InitialiseCache` leaves in arrays of the declared lengths, every
class ordinal `c` below `MEM_CACHE_COUNT` has `CalcCacheIndex` of its class
size equal to `c`, and for every `s` in `[1, MAX_BLOCK_SIZE]` the class size
of the class of `s` classifies to the class of `s`. -/
theorem CalcCacheIndex_retraction (blockCaches : List CBlockCache) (cacheIndexes : List Nat)
    (hc : blockCaches.length = MEM_CACHE_COUNT)
    (hi : cacheIndexes.length = MEM_ALLOCATOR_INDEXES) :
    ∃ caches idx, InitialiseCache blockCaches cacheIndexes = some (caches, idx) ∧
      (∀ c, c < MEM_CACHE_COUNT → ∃ cache, caches[c]? = some cache ∧
        CalcCacheIndex idx cache.BlockSize = some c) ∧
      ∀ s, 1 ≤ s → s ≤ MAX_BLOCK_SIZE →
        ∃ c cache, CalcCacheIndex idx s = some c ∧ caches[c]? = some cache ∧
          CalcCacheIndex idx cache.BlockSize = CalcCacheIndex idx s := by
  have hfix : ∀ c, c < MEM_CACHE_COUNT →
      ∃ cache, (classSizes.map fun n => ({ pCacheBlock := Ptr.null, uBlockSize := n } :
          CBlockCache))[c]? = some cache ∧
        CalcCacheIndex classIndexes cache.BlockSize = some c := by
    intro c hc24
    have hlen := classSizes_length
    simp only [MEM_CACHE_COUNT] at hc24
    refine ⟨{ pCacheBlock := Ptr.null, uBlockSize := classSizes.getD c 0 }, ?_, ?_⟩
    · rw [List.getElem?_map, getElem?_eq_some_getD classSizes c 0 (by omega)]
      rfl
    · exact classSizes_fixed c hc24
  refine ⟨_, _, InitialiseCache_tables blockCaches cacheIndexes hc hi, hfix, ?_⟩
  intro s h1 h2
  obtain ⟨c, sz, e1, e2, _⟩ := CalcCacheIndex_class s h1 h2
  obtain ⟨cache, g1, g2⟩ := hfix c (by simpa [MEM_CACHE_COUNT] using e2)
  exact ⟨c, cache, e1, g1, by rw [g2, e1]⟩

theorem CalcCacheIndex_retraction_witness :
    (List.replicate 24 (CBlockCache.ctor 0)).length = MEM_CACHE_COUNT ∧
    (List.replicate 128 0).length = MEM_ALLOCATOR_INDEXES ∧
    ∃ caches idx,
      InitialiseCache (List.replicate 24 (CBlockCache.ctor 0)) (List.replicate 128 0) =
        some (caches, idx) ∧
      (∀ c, c < MEM_CACHE_COUNT → ∃ cache, caches[c]? = some cache ∧
        CalcCacheIndex idx cache.BlockSize = some c) ∧
      ∀ s, 1 ≤ s → s ≤ MAX_BLOCK_SIZE →
        ∃ c cache, CalcCacheIndex idx s = some c ∧ caches[c]? = some cache ∧
          CalcCacheIndex idx cache.BlockSize = CalcCacheIndex idx s :=
  ⟨by simp [MEM_CACHE_COUNT], by simp [MEM_ALLOCATOR_INDEXES, MAX_BLOCK_SIZE, MIN_BLOCK_SIZE_STEP],
    CalcCacheIndex_retraction _ _ (by simp [MEM_CACHE_COUNT])
      (by simp [MEM_ALLOCATOR_INDEXES, MAX_BLOCK_SIZE, MIN_BLOCK_SIZE_STEP])⟩

/-- C26 (`CMemoryMgr::Allocate`, `CMemoryMgr::Free` against
`CBlockCache::Allocate`, `CBlockCache::Free`, single-threaded): for a size
`n ≤ MAX_BLOCK_SIZE` of bucket `c` in state `cache`, the manager's inline
code does what the bucket's members do.  `Allocate(n)` misses exactly when
`CBlockCache::Allocate` returns null, and then the bucket is left as that
member leaves it (unchanged) and the block comes from `AllocateFromPage`;
otherwise it returns the block `CBlockCache::Allocate` returns and leaves the
bucket in the state that member leaves, memory and the rest of the manager
unchanged.  `Free(pMem, n)` is defined exactly when `CBlockCache::Free(pMem)`
is, and leaves memory and the bucket as that member leaves them, the rest of
the manager unchanged.  Bucket and memory being the same afterwards, the
chain read from them is the same list. -/
theorem inline_bucket_code_refines_CBlockCache (m : CMemoryMgr) (n c : Nat)
    (cache : CBlockCache) (hn : n ≤ MAX_BLOCK_SIZE)
    (e1 : CalcCacheIndex m.cacheIndexes n = some c) (e2 : m.blockCaches[c]? = some cache) :
    (m.Allocate n =
      some (if (cache.Allocate m.data).1 = Ptr.null then
          (AllocResult.ptr (m.AllocateFromPage cache.BlockSize).1,
            (m.AllocateFromPage cache.BlockSize).2)
        else
          (AllocResult.ptr (cache.Allocate m.data).1,
            { m with blockCaches := m.blockCaches.set c (cache.Allocate m.data).2 }))) ∧
    ((cache.Allocate m.data).1 = Ptr.null →
      (cache.Allocate m.data).2 = cache ∧
      (m.AllocateFromPage cache.BlockSize).2.blockCaches = m.blockCaches ∧
      (m.AllocateFromPage cache.BlockSize).2.data = m.data) ∧
    (∀ pMem : Ptr, m.Free pMem n =
      (cache.Free m.data pMem).map fun r =>
        { m with data := r.1, blockCaches := m.blockCaches.set c r.2 }) ∧
    (∀ (m1 : CMemoryMgr) (p : Ptr),
      m.Allocate n = some (AllocResult.ptr p, m1) → (cache.Allocate m.data).1 ≠ Ptr.null →
      p = (cache.Allocate m.data).1 ∧
      m1.blockCaches[c]? = some (cache.Allocate m.data).2 ∧ m1.data = m.data) ∧
    (∀ (m1 : CMemoryMgr) (pMem : Ptr) (h1 : Heap) (cache1 : CBlockCache),
      m.Free pMem n = some m1 → cache.Free m.data pMem = some (h1, cache1) →
      m1.blockCaches[c]? = some cache1 ∧ m1.data = h1) := by
  have hgt : ¬ n > MAX_BLOCK_SIZE := by omega
  have hlt : c < m.blockCaches.length := (List.getElem?_eq_some_iff.mp e2).1
  have hset : ∀ v : CBlockCache, (m.blockCaches.set c v)[c]? = some v := by
    intro v
    simp [List.getElem?_set, hlt]
  have ha : m.Allocate n =
      some (if (cache.Allocate m.data).1 = Ptr.null then
          (AllocResult.ptr (m.AllocateFromPage cache.BlockSize).1,
            (m.AllocateFromPage cache.BlockSize).2)
        else
          (AllocResult.ptr (cache.Allocate m.data).1,
            { m with blockCaches := m.blockCaches.set c (cache.Allocate m.data).2 })) := by
    unfold CMemoryMgr.Allocate CBlockCache.Allocate CBlockCache.BlockSize
    simp only [hgt, if_false, e1, e2, Option.some_bind]
    cases hp : cache.pCacheBlock with
    | null => simp
    | addr pg off => simp
  have hf : ∀ pMem : Ptr, m.Free pMem n =
      (cache.Free m.data pMem).map fun r =>
        { m with data := r.1, blockCaches := m.blockCaches.set c r.2 } := by
    intro pMem
    unfold CMemoryMgr.Free CBlockCache.Free
    simp only [hgt, if_false, e1, e2, Option.some_bind]
    cases pMem with
    | null => rfl
    | addr pg off => rfl
  refine ⟨ha, ?_, hf, ?_, ?_⟩
  · intro h
    obtain ⟨f1, f2, f3⟩ := AllocateFromPage_frame m cache.BlockSize
    refine ⟨?_, f1, f3⟩
    unfold CBlockCache.Allocate at h ⊢
    cases hp : cache.pCacheBlock with
    | null => simp
    | addr pg off => simp [hp] at h
  · intro m1 p h hne
    rw [ha] at h
    simp only [hne, if_false, Option.some.injEq, Prod.mk.injEq, AllocResult.ptr.injEq] at h
    obtain ⟨rfl, rfl⟩ := h
    exact ⟨rfl, hset _, rfl⟩
  · intro m1 pMem h1 cache1 h hc
    rw [hf, hc] at h
    simp only [Option.map_some', Option.some.injEq] at h
    subst h
    exact ⟨hset _, rfl⟩

theorem inline_bucket_code_refines_CBlockCache_witness :
    8 ≤ MAX_BLOCK_SIZE ∧
    CalcCacheIndex (CMemoryMgr.fresh Heap.nulls).cacheIndexes 8 = some 0 ∧
    (CMemoryMgr.fresh Heap.nulls).blockCaches[0]? =
      some { pCacheBlock := Ptr.null, uBlockSize := 8 } ∧
    (∀ pMem : Ptr, (CMemoryMgr.fresh Heap.nulls).Free pMem 8 =
      ((CBlockCache.Free Heap.nulls { pCacheBlock := Ptr.null, uBlockSize := 8 } pMem).map
        fun r => { CMemoryMgr.fresh Heap.nulls with
          data := r.1, blockCaches := (CMemoryMgr.fresh Heap.nulls).blockCaches.set 0 r.2 })) :=
  ⟨by decide, by with_unfolding_all rfl, by with_unfolding_all rfl,
    (inline_bucket_code_refines_CBlockCache (CMemoryMgr.fresh Heap.nulls) 8 0
      { pCacheBlock := Ptr.null, uBlockSize := 8 } (by decide) (by with_unfolding_all rfl)
      (by with_unfolding_all rfl)).2.2.1⟩

/-! ## Runs with the record of carved blocks -/

theorem RunLog.to_run {m : CMemoryMgr} {live : List LiveBlock} {carved : List (Nat × Nat × Nat)}
    (h : RunLog m live carved) : Run m live := by
  induction h with
  | ctor data m e => exact Run.ctor data m e
  | hit m live carved n c cache pg off m1 _ h1 h2 _ _ _ e ih =>
    exact Run.allocate m live n pg off m1 ih h1 h2 e
  | miss m live carved n c cache pg off cur m1 _ h1 h2 _ _ _ e _ ih =>
    exact Run.allocate m live n pg off m1 ih h1 h2 e
  | free m live carved b m1 _ hb e ih => exact Run.free m live b m1 ih hb e

/-- On a miss of a contract-respecting run the page that gives the block has
its cursor, after the call, beyond the block by exactly the size of the class
of the request. -/
theorem Run.miss_cursor {m : CMemoryMgr} {live : List LiveBlock} (hr : Run m live)
    (n c : Nat) (cache : CBlockCache) (pg off : Nat) (m1 : CMemoryMgr)
    (h1 : 1 ≤ n) (h2 : n ≤ MAX_BLOCK_SIZE)
    (e1 : CalcCacheIndex m.cacheIndexes n = some c) (e3 : m.blockCaches[c]? = some cache)
    (hp : cache.pCacheBlock = Ptr.null)
    (e : m.Allocate n = some (AllocResult.ptr (Ptr.addr pg off), m1)) :
    m1.cursorOf pg = some (off + cache.uBlockSize) := by
  obtain ⟨chain, all, hinv⟩ := hr.inv
  obtain ⟨c2, cache2, g1, _, g3, _, _, hsz⟩ := hinv.conf.lookup n h1 h2
  rw [e1] at g1
  simp only [Option.some.injEq] at g1
  subst g1
  rw [e3] at g3
  simp only [Option.some.injEq] at g3
  subst g3
  rw [Allocate_miss m n c cache h2 e1 e3 hp] at e
  simp only [Option.some.injEq, Prod.mk.injEq, AllocResult.ptr.injEq] at e
  obtain ⟨ea, rfl⟩ := e
  exact AllocateFromPage_cursor m cache.uBlockSize (by simp only [MEMORY_PAGE_SIZE]; omega)
    hinv.pagesNodup hinv.pagesLt pg off ea

/-- Every contract-respecting run has its record of carved blocks. -/
theorem Run.has_log {m : CMemoryMgr} {live : List LiveBlock} (h : Run m live) :
    ∃ carved, RunLog m live carved := by
  induction h with
  | ctor data m e => exact ⟨[], RunLog.ctor data m e⟩
  | allocate m live n pg off m1 hr h1 h2 e ih =>
    obtain ⟨carved, hl⟩ := ih
    obtain ⟨c, cache, e1, _, e3, _⟩ := hr.reachable.configured.lookup n h1 h2
    by_cases hp : cache.pCacheBlock = Ptr.null
    · exact ⟨_, RunLog.miss m live carved n c cache pg off _ m1 hl h1 h2 e1 e3 hp e
        (hr.miss_cursor n c cache pg off m1 h1 h2 e1 e3 hp e)⟩
    · exact ⟨_, RunLog.hit m live carved n c cache pg off m1 hl h1 h2 e1 e3 hp e⟩
  | free m live b m1 _ hb e ih =>
    obtain ⟨carved, hl⟩ := ih
    exact ⟨carved, RunLog.free m live carved b m1 hl hb e⟩

/-- The invariant of runs, with the carved blocks of the invariant being the
blocks of the record: the size the page gave is the size of the class. -/
theorem RunLog.inv_carved {m : CMemoryMgr} {live : List LiveBlock}
    {carved : List (Nat × Nat × Nat)} (h : RunLog m live carved) :
    ∃ chain all, Inv m live chain all ∧
      carved = all.map fun x => (x.1, x.2.1, classSizes.getD x.2.2 0) := by
  induction h with
  | ctor data m e =>
    rw [CMemoryMgr.ctor_eq] at e
    simp only [Option.some.injEq] at e
    subst e
    exact ⟨_, _, inv_fresh data, rfl⟩
  | hit m live carved n c cache pg off m1 _ h1 h2 e1 e3 hp e ih =>
    obtain ⟨chain, all, hinv, hc⟩ := ih
    cases hq : cache.pCacheBlock with
    | null => exact absurd hq hp
    | addr pg2 off2 =>
      rw [Allocate_hit m n c cache pg2 off2 h2 e1 e3 hq] at e
      simp only [Option.some.injEq, Prod.mk.injEq, AllocResult.ptr.injEq, Ptr.addr.injEq] at e
      obtain ⟨⟨rfl, rfl⟩, rfl⟩ := e
      obtain ⟨chain1, hinv1⟩ := inv_allocate_hit hinv n c cache pg2 off2 h1 h2 e1 e3 hq
      exact ⟨chain1, all, hinv1, hc⟩
  | miss m live carved n c cache pg off cur m1 hl h1 h2 e1 e3 hp e hcur ih =>
    obtain ⟨chain, all, hinv, hc⟩ := ih
    have hgave : cur - off = cache.uBlockSize := by
      have g := hl.to_run.miss_cursor n c cache pg off m1 h1 h2 e1 e3 hp e
      rw [hcur] at g
      simp only [Option.some.injEq] at g
      omega
    obtain ⟨c2, cache2, g1, hc24, g3, g4, _, hsz⟩ := hinv.conf.lookup n h1 h2
    rw [e1] at g1
    simp only [Option.some.injEq] at g1
    subst g1
    rw [e3] at g3
    simp only [Option.some.injEq] at g3
    subst g3
    rw [Allocate_miss m n c cache h2 e1 e3 hp] at e
    simp only [Option.some.injEq, Prod.mk.injEq, AllocResult.ptr.injEq] at e
    obtain ⟨ea, rfl⟩ := e
    refine ⟨chain, (pg, off, c) :: all,
      inv_allocate_miss hinv n c cache pg off h1 h2 e1 hc24 g4 hsz ea, ?_⟩
    simp only [List.map_cons, hc, hgave]
    rw [List.getD_eq_getElem?_getD, g4]
    rfl
  | free m live carved b m1 _ hb e ih =>
    obtain ⟨chain, all, hinv, hc⟩ := ih
    obtain ⟨h1, h2, _⟩ := hinv.liveIn b hb
    obtain ⟨c, cache, e1, _, e3, _⟩ := hinv.conf.lookup b.uSize h1 h2
    rw [Free_eq m b.uSize c cache b.page b.off h2 e1 e3] at e
    simp only [Option.some.injEq] at e
    subst e
    obtain ⟨chain1, hinv1⟩ := inv_free hinv b hb c cache e1 e3
    exact ⟨chain1, all, hinv1, hc⟩

/-- C22 (`CMemoryMgr::Allocate`, `CMemoryMgr::Free`): in every state reached
from construction by calls that respect the contract, with `carved` the
record of the blocks the pages handed out, each with the number of bytes by
which its page moved the cursor for it: every bucket has a free list (its
pointer chain ends in null), every block on the free list of bucket `c` was
carved from a page with exactly the size of class `c`, no block is twice on a
free list, no block is on the free lists of two buckets, no live block is on
a free list, and an address was carved with one size only.  The carved
blocks are byte ranges that do not meet, each below the cursor of a page the
manager holds; every live block is a carved block with the size of the class
of its request; and the next miss, for a request of class `c`, moves the
cursor of the page that serves it by exactly the size of class `c`. -/
theorem bucket_size_invariant (m : CMemoryMgr) (live : List LiveBlock)
    (carved : List (Nat × Nat × Nat)) (h : RunLog m live carved) :
    Run m live ∧
    (∃ chain : Nat → List (Nat × Nat),
      (∀ (c : Nat) (cache : CBlockCache), m.blockCaches[c]? = some cache →
        FreeChain m.data cache.pCacheBlock (chain c) ∧
        classSizes[c]? = some cache.uBlockSize ∧
        ∀ a ∈ chain c, (a.1, a.2, cache.uBlockSize) ∈ carved) ∧
      (∀ c : Nat, (chain c).Nodup) ∧
      (∀ (c c2 : Nat) (a : Nat × Nat), a ∈ chain c → a ∈ chain c2 → c = c2) ∧
      (∀ b ∈ live, ∀ c : Nat, (b.page, b.off) ∉ chain c) ∧
      (∀ x ∈ carved, ∀ y ∈ carved, x.1 = y.1 → x.2.1 = y.2.1 → x.2.2 = y.2.2)) ∧
    (∀ x ∈ carved, ∀ y ∈ carved, x ≠ y →
      x.1 ≠ y.1 ∨ x.2.1 + x.2.2 ≤ y.2.1 ∨ y.2.1 + y.2.2 ≤ x.2.1) ∧
    (∀ x ∈ carved, ∃ P ∈ m.pages, P.page = x.1 ∧ x.2.1 + x.2.2 ≤ P.pFreeData) ∧
    (∀ b ∈ live, ∃ sz, m.classSize b.uSize = some sz ∧ (b.page, b.off, sz) ∈ carved) ∧
    (∀ (n c : Nat) (cache : CBlockCache) (pg off : Nat) (m1 : CMemoryMgr),
      1 ≤ n → n ≤ MAX_BLOCK_SIZE → CalcCacheIndex m.cacheIndexes n = some c →
      m.blockCaches[c]? = some cache → cache.pCacheBlock = Ptr.null →
      m.Allocate n = some (AllocResult.ptr (Ptr.addr pg off), m1) →
      m1.cursorOf pg = some (off + cache.uBlockSize) ∧
      classSizes[c]? = some cache.uBlockSize ∧
      RunLog m1 ({ page := pg, off := off, uSize := n } :: live)
        ((pg, off, cache.uBlockSize) :: carved)) := by
  obtain ⟨chain, all, hinv, hc⟩ := h.inv_carved
  have hclass : ∀ (c : Nat) (cache : CBlockCache), m.blockCaches[c]? = some cache →
      classSizes[c]? = some cache.uBlockSize := by
    intro c cache e
    rw [← hinv.conf.2, List.getElem?_map, e]
    rfl
  refine ⟨h.to_run, ⟨chain, ?_, hinv.chainNodup, ?_, hinv.liveFree, ?_⟩, ?_, ?_, ?_, ?_⟩
  · intro c cache e
    have hsz := hclass c cache e
    refine ⟨hinv.chains c cache e, hsz, ?_⟩
    intro a ha
    rw [hc]
    refine List.mem_map.mpr ⟨(a.1, a.2, c), hinv.chainIn c a ha, ?_⟩
    simp only [Prod.mk.injEq, true_and]
    rw [List.getD_eq_getElem?_getD, hsz]
    rfl
  · intro c c2 a ha ha2
    have e := hinv.addr_unique (hinv.chainIn c a ha) (hinv.chainIn c2 a ha2) rfl rfl
    simp only [Prod.mk.injEq, true_and] at e
    exact e
  · intro x hx y hy e1 e2
    rw [hc] at hx hy
    obtain ⟨x0, hx0, rfl⟩ := List.mem_map.mp hx
    obtain ⟨y0, hy0, rfl⟩ := List.mem_map.mp hy
    have e := hinv.addr_unique hx0 hy0 e1 e2
    rw [e]
  · intro x hx y hy hne
    rw [hc] at hx hy
    obtain ⟨x0, hx0, rfl⟩ := List.mem_map.mp hx
    obtain ⟨y0, hy0, rfl⟩ := List.mem_map.mp hy
    have hne0 : x0 ≠ y0 := fun e => hne (by rw [e])
    exact hinv.allSep x0 hx0 y0 hy0 hne0
  · intro x hx
    rw [hc] at hx
    obtain ⟨x0, hx0, rfl⟩ := List.mem_map.mp hx
    exact (hinv.allBelow x0 hx0).2
  · intro b hb
    obtain ⟨c, g1, g2⟩ := hinv.live_class b hb
    exact ⟨_, g2, by rw [hc]; exact List.mem_map.mpr ⟨_, g1, rfl⟩⟩
  · intro n c cache pg off m1 h1 h2 e1 e3 hp e
    have hcur := h.to_run.miss_cursor n c cache pg off m1 h1 h2 e1 e3 hp e
    refine ⟨hcur, hclass c cache e3, ?_⟩
    have hl := RunLog.miss m live carved n c cache pg off _ m1 h h1 h2 e1 e3 hp e hcur
    simpa using hl

/-- C22 on the run `Allocate(8)`, `Allocate(8)`, `Free` of the first block:
both blocks were carved from page 0, each with the 8 bytes by which the
cursor moved, and the block on the free list is the first one. -/
theorem bucket_size_invariant_witness :
    ∃ m, RunLog m [{ page := 0, off := 8, uSize := 8 }] [(0, 8, 8), (0, 0, 8)] ∧
      (∃ chain : Nat → List (Nat × Nat),
        (∀ (c : Nat) (cache : CBlockCache), m.blockCaches[c]? = some cache →
          FreeChain m.data cache.pCacheBlock (chain c) ∧
          classSizes[c]? = some cache.uBlockSize ∧
          ∀ a ∈ chain c,
            (a.1, a.2, cache.uBlockSize) ∈ ([(0, 8, 8), (0, 0, 8)] : List (Nat × Nat × Nat))) ∧
        (∀ c : Nat, (chain c).Nodup) ∧
        (∀ (c c2 : Nat) (a : Nat × Nat), a ∈ chain c → a ∈ chain c2 → c = c2)) ∧
      (∀ x ∈ ([(0, 8, 8), (0, 0, 8)] : List (Nat × Nat × Nat)),
        ∃ P ∈ m.pages, P.page = x.1 ∧ x.2.1 + x.2.2 ≤ P.pFreeData) ∧
      m.blockCaches[0]? = some { pCacheBlock := Ptr.addr 0 0, uBlockSize := 8 } ∧
      m.cursorOf 0 = some 16 := by
  have r0 := RunLog.ctor _ _ (CMemoryMgr.ctor_eq Heap.nulls)
  have r1 := RunLog.miss _ _ _ 8 0 { pCacheBlock := Ptr.null, uBlockSize := 8 } 0 0 8 _ r0
    (by decide) (by decide) (by with_unfolding_all rfl) (by with_unfolding_all rfl) rfl
    (by with_unfolding_all rfl) (by with_unfolding_all rfl)
  have r2 := RunLog.miss _ _ _ 8 0 { pCacheBlock := Ptr.null, uBlockSize := 8 } 0 8 16 _ r1
    (by decide) (by decide) (by with_unfolding_all rfl) (by with_unfolding_all rfl) rfl
    (by with_unfolding_all rfl) (by with_unfolding_all rfl)
  have r3 := RunLog.free _ _ _ { page := 0, off := 0, uSize := 8 } _ r2 (by simp)
    (by with_unfolding_all rfl)
  obtain ⟨_, ⟨chain, h1, h2, h3, _⟩, _, h5, _⟩ := bucket_size_invariant _ _ _ r3
  exact ⟨_, r3, ⟨chain, h1, h2, h3⟩, h5, by with_unfolding_all rfl, by with_unfolding_all rfl⟩

/-! ## Word alignment -/

theorem classSizes_aligned : ∀ sz ∈ classSizes, 8 ∣ sz ∧ 8 ≤ sz := by
  rw [classSizes_eq]
  decide

theorem CMemoryMgr.Configured.class_aligned {m : CMemoryMgr} (hm : m.Configured) (c : Nat)
    (cache : CBlockCache) (e : m.blockCaches[c]? = some cache) :
    8 ∣ cache.uBlockSize ∧ 8 ≤ cache.uBlockSize := by
  have hsz : classSizes[c]? = some cache.uBlockSize := by
    rw [← hm.2, List.getElem?_map, e]
    rfl
  exact classSizes_aligned _ (List.mem_iff_getElem?.mpr ⟨c, hsz⟩)

theorem CMemoryPage_Allocate_aligned (p : CMemoryPage) (n : Nat) (hn : 8 ∣ n)
    (hp : 8 ∣ p.pFreeData ∧ 8 ∣ p.uFreeSize) :
    (8 ∣ (p.Allocate n).2.pFreeData ∧ 8 ∣ (p.Allocate n).2.uFreeSize) ∧
    ∀ pg off, (p.Allocate n).1 = Ptr.addr pg off → 8 ∣ off := by
  unfold CMemoryPage.Allocate
  split
  · exact ⟨hp, fun pg off h => absurd h (by simp)⟩
  · rename_i hle
    refine ⟨⟨?_, ?_⟩, ?_⟩
    · exact Nat.dvd_add hp.1 hn
    · exact Nat.dvd_sub' hp.2 hn
    · intro pg off h
      simp only [Ptr.addr.injEq] at h
      rw [← h.2]
      exact hp.1

/-- `AllocateFromPage` of a multiple of 8 keeps every page cursor and free
size a multiple of 8, and returns a block at a multiple of 8. -/
theorem AllocateFromPage_aligned (m : CMemoryMgr) (n : Nat) (hn : 8 ∣ n)
    (hm : ∀ P ∈ m.pages, 8 ∣ P.pFreeData ∧ 8 ∣ P.uFreeSize) :
    (∀ P ∈ (m.AllocateFromPage n).2.pages, 8 ∣ P.pFreeData ∧ 8 ∣ P.uFreeSize) ∧
    ∀ pg off, (m.AllocateFromPage n).1 = Ptr.addr pg off → 8 ∣ off := by
  simp only [CMemoryMgr.pages, List.mem_cons, forall_eq_or_imp] at hm ⊢
  obtain ⟨hA, hB, hF⟩ := hm
  obtain ⟨a1, a2⟩ := CMemoryPage_Allocate_aligned m.pPageA n hn hA
  obtain ⟨b1, b2⟩ := CMemoryPage_Allocate_aligned m.pPageB n hn hB
  have hN : 8 ∣ (CMemoryPage.ctor m.uPagesCreated).pFreeData ∧
      8 ∣ (CMemoryPage.ctor m.uPagesCreated).uFreeSize := by
    simp only [CMemoryPage.ctor, MEMORY_PAGE_SIZE]
    exact ⟨by decide, by decide⟩
  obtain ⟨n1, n2⟩ := CMemoryPage_Allocate_aligned (CMemoryPage.ctor m.uPagesCreated) n hn hN
  unfold CMemoryMgr.AllocateFromPage
  simp only
  split
  · exact ⟨⟨a1, hB, hF⟩, a2⟩
  · split
    · exact ⟨⟨a1, b1, hF⟩, b2⟩
    · split
      · refine ⟨⟨a1, n1, ?_⟩, n2⟩
        simp only [List.mem_cons, forall_eq_or_imp]
        exact ⟨b1, hF⟩
      · refine ⟨⟨n1, b1, ?_⟩, n2⟩
        simp only [List.mem_cons, forall_eq_or_imp]
        exact ⟨a1, hF⟩

/-- In every reachable state the cursor and the free size of every page are
multiples of 8. -/
theorem Reachable.pages_aligned {m : CMemoryMgr} (h : Reachable m) :
    ∀ P ∈ m.pages, 8 ∣ P.pFreeData ∧ 8 ∣ P.uFreeSize := by
  induction h with
  | ctor data m e =>
    rw [CMemoryMgr.ctor_eq] at e
    simp only [Option.some.injEq] at e
    subst e
    simp only [CMemoryMgr.pages, CMemoryMgr.fresh, CMemoryPage.ctor, MEMORY_PAGE_SIZE,
      List.mem_cons, List.not_mem_nil, or_false, forall_eq_or_imp, forall_eq]
    exact ⟨⟨by decide, by decide⟩, by decide, by decide⟩
  | allocate m n r m1 hr e ih =>
    by_cases hn : n > MAX_BLOCK_SIZE
    · simp only [CMemoryMgr.Allocate, hn, if_true, Option.some.injEq, Prod.mk.injEq] at e
      obtain ⟨_, rfl⟩ := e
      exact ih
    · unfold CMemoryMgr.Allocate at e
      simp only [hn, if_false] at e
      cases hc : CalcCacheIndex m.cacheIndexes n with
      | none => simp [hc] at e
      | some c =>
        cases hk : m.blockCaches[c]? with
        | none => simp [hc, hk] at e
        | some cache =>
          simp only [hc, hk, Option.some_bind] at e
          split at e
          · simp only [Option.some.injEq, Prod.mk.injEq] at e
            obtain ⟨_, rfl⟩ := e
            exact (AllocateFromPage_aligned m cache.uBlockSize
              (hr.configured.class_aligned c cache hk).1 ih).1
          · simp only [Option.some.injEq, Prod.mk.injEq] at e
            obtain ⟨_, rfl⟩ := e
            exact ih
  | free m p n m1 hr e ih =>
    obtain ⟨g1, g2, g3, _⟩ := Free_pages e
    simp only [CMemoryMgr.pages, g1, g2, g3]
    exact ih

/-- Every block of the record of carved blocks starts at a multiple of 8 and
has a size that is a multiple of 8, at least 8. -/
theorem RunLog.carved_aligned {m : CMemoryMgr} {live : List LiveBlock}
    {carved : List (Nat × Nat × Nat)} (h : RunLog m live carved) :
    ∀ x ∈ carved, 8 ∣ x.2.1 ∧ 8 ∣ x.2.2 ∧ 8 ≤ x.2.2 := by
  induction h with
  | ctor data m e => simp
  | hit m live carved n c cache pg off m1 _ _ _ _ _ _ _ ih => exact ih
  | miss m live carved n c cache pg off cur m1 hl h1 h2 e1 e3 hp e hcur ih =>
    have hr := hl.to_run.reachable
    have hsz : cur - off = cache.uBlockSize := by
      have g := hl.to_run.miss_cursor n c cache pg off m1 h1 h2 e1 e3 hp e
      rw [hcur] at g
      simp only [Option.some.injEq] at g
      omega
    rw [Allocate_miss m n c cache h2 e1 e3 hp] at e
    simp only [Option.some.injEq, Prod.mk.injEq, AllocResult.ptr.injEq] at e
    have hal := hr.configured.class_aligned c cache e3
    have hoff :=
      (AllocateFromPage_aligned m cache.uBlockSize hal.1 hr.pages_aligned).2 pg off e.1
    intro x hx
    rcases List.mem_cons.mp hx with rfl | hx
    · simp only [hsz]
      exact ⟨hoff, hal.1, hal.2⟩
    · exact ih x hx
  | free m live carved b m1 _ _ _ ih => exact ih

/-- C25 (`CMemoryMgr::Allocate`, `CMemoryMgr::InitialiseCache`,
`CMemoryPage::Allocate`): in every state reachable from construction by
`Allocate` and `Free` calls, the cursor offset and the free size of each
active and each archived page are multiples of 8; every class size is a
multiple of 8 and at least 8; so an `Allocate(s)`, `s` in
`[1, MAX_BLOCK_SIZE]`, that misses the cache is defined and returns a block
at an offset that is a multiple of 8, of the size of the class; and along a
contract-respecting run every block the pages handed out starts at a
multiple of 8 and is at least 8 bytes long. -/
theorem word_alignment (m : CMemoryMgr) (hm : Reachable m) :
    (∀ P ∈ m.pages, 8 ∣ P.pFreeData ∧ 8 ∣ P.uFreeSize) ∧
    (∀ (c : Nat) (cache : CBlockCache), m.blockCaches[c]? = some cache →
      8 ∣ cache.uBlockSize ∧ 8 ≤ cache.uBlockSize) ∧
    (∀ (s c : Nat) (cache : CBlockCache), 1 ≤ s → s ≤ MAX_BLOCK_SIZE →
      CalcCacheIndex m.cacheIndexes s = some c → m.blockCaches[c]? = some cache →
      cache.pCacheBlock = Ptr.null →
      ∃ pg off m1, m.Allocate s = some (AllocResult.ptr (Ptr.addr pg off), m1) ∧
        8 ∣ off ∧ 8 ≤ cache.uBlockSize ∧ m.classSize s = some cache.uBlockSize) ∧
    (∀ (live : List LiveBlock) (carved : List (Nat × Nat × Nat)), RunLog m live carved →
      ∀ x ∈ carved, 8 ∣ x.2.1 ∧ 8 ∣ x.2.2 ∧ 8 ≤ x.2.2) := by
  refine ⟨hm.pages_aligned, fun c cache e => hm.configured.class_aligned c cache e, ?_,
    fun live carved h => h.carved_aligned⟩
  intro s c cache h1 h2 e1 e3 hp
  have hal := hm.configured.class_aligned c cache e3
  obtain ⟨c2, cache2, g1, _, g3, _, _, hsz⟩ := hm.configured.lookup s h1 h2
  rw [e1] at g1
  simp only [Option.some.injEq] at g1
  subst g1
  rw [e3] at g3
  simp only [Option.some.injEq] at g3
  subst g3
  obtain ⟨pg, off, ea⟩ := AllocateFromPage_addr m cache.uBlockSize
    (by simp only [MEMORY_PAGE_SIZE]; omega)
  have hoff := (AllocateFromPage_aligned m cache.uBlockSize hal.1 hm.pages_aligned).2 pg off ea
  refine ⟨pg, off, (m.AllocateFromPage cache.uBlockSize).2, ?_, hoff, hal.2,
    classSize_eq m s c cache e1 e3⟩
  rw [Allocate_miss m s c cache h2 e1 e3 hp, ea]

theorem word_alignment_witness :
    Reachable (CMemoryMgr.fresh Heap.nulls) ∧
    (∀ P ∈ (CMemoryMgr.fresh Heap.nulls).pages, 8 ∣ P.pFreeData ∧ 8 ∣ P.uFreeSize) ∧
    ∃ pg off m1, (CMemoryMgr.fresh Heap.nulls).Allocate 13 =
        some (AllocResult.ptr (Ptr.addr pg off), m1) ∧ 8 ∣ off :=
  ⟨Reachable.ctor _ _ (CMemoryMgr.ctor_eq _),
    (word_alignment _ (Reachable.ctor _ _ (CMemoryMgr.ctor_eq _))).1,
    by
      obtain ⟨pg, off, m1, h1, h2, _⟩ :=
        (word_alignment _ (Reachable.ctor _ _ (CMemoryMgr.ctor_eq Heap.nulls))).2.2.1 13 1
          { pCacheBlock := Ptr.null, uBlockSize := 16 } (by decide) (by decide)
          (by with_unfolding_all rfl) (by with_unfolding_all rfl) rfl
      exact ⟨pg, off, m1, h1, h2⟩⟩

/-! ## The writes of `InitialiseCache` -/

theorem loopM_map {σ τ : Type} (p : σ → τ) (f : σ → Option σ) (g : τ → Option τ)
    (h : ∀ s, (f s).map p = g (p s)) (n : Nat) :
    ∀ s, (loopM n f s).map p = loopM n g (p s) := by
  induction n with
  | zero => intro s; rfl
  | succ k ih =>
    intro s
    simp only [loopM]
    rw [← h s]
    cases hf : f s with
    | none => rfl
    | some s1 => simpa using ih s1

theorem InitLog.writeIndex_vars (s : InitLog) :
    (s.writeIndex).map InitLog.vars = s.vars.writeIndex := by
  unfold InitLog.writeIndex
  rw [Option.map_map]
  cases s.vars.writeIndex <;> rfl

theorem InitLog.round_vars (uStep uPerClass : Nat) (s : InitLog) :
    (s.round uStep uPerClass).map InitLog.vars = s.vars.round uStep uPerClass := by
  unfold InitLog.round InitVars.round
  cases arrWrite s.vars.blockCaches s.vars.uCacheIndex
      { pCacheBlock := Ptr.null, uBlockSize := s.vars.uBlockSize } with
  | none => rfl
  | some cs =>
    simp only [Option.some_bind]
    have h := loopM_map InitLog.vars InitLog.writeIndex InitVars.writeIndex
      InitLog.writeIndex_vars uPerClass
      { vars := { s.vars with blockCaches := cs, uBlockSize := s.vars.uBlockSize + uStep }
        writes := s.writes ++
          [Write.pCacheBlock s.vars.uCacheIndex, Write.uBlockSize s.vars.uCacheIndex] }
    simp only at h
    rw [← h]
    simp only [Option.map_map]
    rfl

theorem InitLog.bind_vars (o : Option InitLog) (f : InitLog → Option InitLog)
    (g : InitVars → Option InitVars) (h : ∀ s, (f s).map InitLog.vars = g s.vars) :
    (o.bind f).map InitLog.vars = (o.map InitLog.vars).bind g := by
  cases o with
  | none => rfl
  | some s => simpa using h s

/-- Dropping the record from the recorded run gives the run. -/
theorem InitialiseCacheLog_vars (cs : List CBlockCache) (ix : List Nat) :
    (InitialiseCacheLog cs ix).map InitLog.vars = InitialiseCacheVars cs ix := by
  have hl : ∀ (a b n : Nat) (s : InitLog),
      (loopM n (InitLog.round a b) s).map InitLog.vars =
        loopM n (InitVars.round a b) s.vars :=
    fun a b n s => loopM_map InitLog.vars _ _ (InitLog.round_vars a b) n s
  have t5 : ∀ s4 : InitLog,
      (loopM 4 (InitLog.round 128 16) (s4.bump 64)).map InitLog.vars =
        loopM 4 (InitVars.round 128 16) (s4.vars.bump 64) := fun s4 => hl _ _ _ _
  have t4 : ∀ s3 : InitLog,
      ((loopM 4 (InitLog.round 64 8) (s3.bump 32)).bind fun s4 =>
        loopM 4 (InitLog.round 128 16) (s4.bump 64)).map InitLog.vars =
      (loopM 4 (InitVars.round 64 8) (s3.vars.bump 32)).bind fun st4 =>
        loopM 4 (InitVars.round 128 16) (st4.bump 64) := by
    intro s3
    rw [InitLog.bind_vars _ _
      (fun st4 => loopM 4 (InitVars.round 128 16) (st4.bump 64)) t5, hl]
    rfl
  have t3 : ∀ s2 : InitLog,
      ((loopM 4 (InitLog.round 32 4) (s2.bump 16)).bind fun s3 =>
        (loopM 4 (InitLog.round 64 8) (s3.bump 32)).bind fun s4 =>
        loopM 4 (InitLog.round 128 16) (s4.bump 64)).map InitLog.vars =
      (loopM 4 (InitVars.round 32 4) (s2.vars.bump 16)).bind fun st3 =>
        (loopM 4 (InitVars.round 64 8) (st3.bump 32)).bind fun st4 =>
        loopM 4 (InitVars.round 128 16) (st4.bump 64) := by
    intro s2
    rw [InitLog.bind_vars _ _
      (fun st3 => (loopM 4 (InitVars.round 64 8) (st3.bump 32)).bind fun st4 =>
        loopM 4 (InitVars.round 128 16) (st4.bump 64)) t4, hl]
    rfl
  have t2 : ∀ s1 : InitLog,
      ((loopM 4 (InitLog.round 16 2) (s1.bump 8)).bind fun s2 =>
        (loopM 4 (InitLog.round 32 4) (s2.bump 16)).bind fun s3 =>
        (loopM 4 (InitLog.round 64 8) (s3.bump 32)).bind fun s4 =>
        loopM 4 (InitLog.round 128 16) (s4.bump 64)).map InitLog.vars =
      (loopM 4 (InitVars.round 16 2) (s1.vars.bump 8)).bind fun st2 =>
        (loopM 4 (InitVars.round 32 4) (st2.bump 16)).bind fun st3 =>
        (loopM 4 (InitVars.round 64 8) (st3.bump 32)).bind fun st4 =>
        loopM 4 (InitVars.round 128 16) (st4.bump 64) := by
    intro s1
    rw [InitLog.bind_vars _ _
      (fun st2 => (loopM 4 (InitVars.round 32 4) (st2.bump 16)).bind fun st3 =>
        (loopM 4 (InitVars.round 64 8) (st3.bump 32)).bind fun st4 =>
        loopM 4 (InitVars.round 128 16) (st4.bump 64)) t3, hl]
    rfl
  unfold InitialiseCacheLog InitialiseCacheVars
  rw [InitLog.bind_vars _ _
      (fun st1 => (loopM 4 (InitVars.round 16 2) (st1.bump 8)).bind fun st2 =>
        (loopM 4 (InitVars.round 32 4) (st2.bump 16)).bind fun st3 =>
        (loopM 4 (InitVars.round 64 8) (st3.bump 32)).bind fun st4 =>
        loopM 4 (InitVars.round 128 16) (st4.bump 64)) t2, hl]

theorem optionRel_bind {σ : Type} {R Q : σ → σ → Prop} {a b : Option σ}
    {f g : σ → Option σ} (hab : Option.Rel R a b)
    (hfg : ∀ s t, R s t → Option.Rel Q (f s) (g t)) :
    Option.Rel Q (a.bind f) (b.bind g) := by
  cases hab with
  | none => exact Option.Rel.none
  | some h => exact hfg _ _ h

theorem optionRel_map {σ : Type} {R Q : σ → σ → Prop} {a b : Option σ}
    {f g : σ → σ} (hab : Option.Rel R a b) (hfg : ∀ s t, R s t → Q (f s) (g t)) :
    Option.Rel Q (a.map f) (b.map g) := by
  cases hab with
  | none => exact Option.Rel.none
  | some h => exact Option.Rel.some (hfg _ _ h)

theorem loopM_optionRel {σ : Type} {R : σ → σ → Prop} (body : σ → Option σ)
    (hbody : ∀ s t, R s t → Option.Rel R (body s) (body t)) (n : Nat) :
    ∀ s t, R s t → Option.Rel R (loopM n body s) (loopM n body t) := by
  induction n with
  | zero => intro s t h; exact Option.Rel.some h
  | succ k ih =>
    intro s t h
    simp only [loopM]
    exact optionRel_bind (hbody s t h) ih

theorem InitLog.writeIndex_inStep (s t : InitLog) (h : s.InStep t) :
    Option.Rel InitLog.InStep s.writeIndex t.writeIndex := by
  obtain ⟨⟨cs, ix, ub, uc, ui⟩, ws⟩ := s
  obtain ⟨⟨cs2, ix2, ub2, uc2, ui2⟩, ws2⟩ := t
  simp only [InitLog.InStep] at h
  obtain ⟨h0, h1, h2, h3, h4, h5⟩ := h
  subst h0 h1 h2 h3
  unfold InitLog.writeIndex InitVars.writeIndex arrWrite
  by_cases hlt : ui < ix.length
  · have hlt2 : ui < ix2.length := by omega
    simp only [hlt, hlt2, if_true, Option.map_some']
    exact Option.Rel.some ⟨rfl, rfl, rfl, rfl, h4, by simp [h5]⟩
  · have hlt2 : ¬ ui < ix2.length := by omega
    simp only [hlt, hlt2, if_false, Option.map_none']
    exact Option.Rel.none

theorem InitLog.round_inStep (uStep uPerClass : Nat) (s t : InitLog) (h : s.InStep t) :
    Option.Rel InitLog.InStep (s.round uStep uPerClass) (t.round uStep uPerClass) := by
  obtain ⟨⟨cs, ix, ub, uc, ui⟩, ws⟩ := s
  obtain ⟨⟨cs2, ix2, ub2, uc2, ui2⟩, ws2⟩ := t
  simp only [InitLog.InStep] at h
  obtain ⟨h0, h1, h2, h3, h4, h5⟩ := h
  subst h0 h1 h2 h3
  unfold InitLog.round arrWrite
  by_cases hlt : uc < cs.length
  · have hlt2 : uc < cs2.length := by omega
    simp only [hlt, hlt2, if_true, Option.some_bind]
    refine optionRel_map (loopM_optionRel _ InitLog.writeIndex_inStep uPerClass _ _
      ⟨rfl, rfl, rfl, rfl, by simp [h4], h5⟩) ?_
    rintro s1 t1 ⟨g0, g1, g2, g3, g4, g5⟩
    exact ⟨g0, g1, by simp only [g2], g3, g4, g5⟩
  · have hlt2 : ¬ uc < cs2.length := by omega
    simp only [hlt, hlt2, if_false, Option.none_bind]
    exact Option.Rel.none

theorem InitLog.bump_inStep (uStep : Nat) (s t : InitLog) (h : s.InStep t) :
    (s.bump uStep).InStep (t.bump uStep) := by
  obtain ⟨g0, g1, g2, g3, g4, g5⟩ := h
  exact ⟨g0, by simp only [InitLog.bump, InitVars.bump, g1], g2, g3, g4, g5⟩

/-- The record of writes depends on the lengths of the arrays only. -/
theorem InitialiseCacheLog_inStep (cs cs2 : List CBlockCache) (ix ix2 : List Nat)
    (hc : cs.length = cs2.length) (hi : ix.length = ix2.length) :
    Option.Rel InitLog.InStep (InitialiseCacheLog cs ix) (InitialiseCacheLog cs2 ix2) := by
  unfold InitialiseCacheLog
  have h0 : InitLog.InStep
      { vars := { blockCaches := cs, cacheIndexes := ix, uBlockSize := 8, uCacheIndex := 0,
                  uIndex := 0 }, writes := [] }
      { vars := { blockCaches := cs2, cacheIndexes := ix2, uBlockSize := 8, uCacheIndex := 0,
                  uIndex := 0 }, writes := [] } :=
    ⟨rfl, rfl, rfl, rfl, hc, hi⟩
  refine optionRel_bind (loopM_optionRel _ (InitLog.round_inStep 8 1) 8 _ _ h0)
    fun s1 t1 h1 => ?_
  refine optionRel_bind
    (loopM_optionRel _ (InitLog.round_inStep 16 2) 4 _ _ (InitLog.bump_inStep 8 _ _ h1))
    fun s2 t2 h2 => ?_
  refine optionRel_bind
    (loopM_optionRel _ (InitLog.round_inStep 32 4) 4 _ _ (InitLog.bump_inStep 16 _ _ h2))
    fun s3 t3 h3 => ?_
  refine optionRel_bind
    (loopM_optionRel _ (InitLog.round_inStep 64 8) 4 _ _ (InitLog.bump_inStep 32 _ _ h3))
    fun s4 t4 h4 => ?_
  exact loopM_optionRel _ (InitLog.round_inStep 128 16) 4 _ _ (InitLog.bump_inStep 64 _ _ h4)

/-- On default-constructed arrays the recorded run is defined and its record
has 176 writes, no write twice, every write inside its table, every entry of
`_cacheIndexes` and both members of every entry of `_blockCaches` written. -/
theorem InitialiseCacheLog_default :
    ∃ s, InitialiseCacheLog (List.replicate MEM_CACHE_COUNT (CBlockCache.ctor 0))
        (List.replicate MEM_ALLOCATOR_INDEXES 0) = some s ∧
      s.writes.length = 176 ∧ s.writes.Nodup ∧
      (∀ w ∈ s.writes, w.InBounds = true) ∧
      (∀ i < 128, Write.cacheIndex i ∈ s.writes) ∧
      (∀ c < 24, Write.pCacheBlock c ∈ s.writes ∧ Write.uBlockSize c ∈ s.writes) := by
  have hs : (InitialiseCacheLog (List.replicate MEM_CACHE_COUNT (CBlockCache.ctor 0))
      (List.replicate MEM_ALLOCATOR_INDEXES 0)).isSome = true := by decide
  have hp : ∀ s ∈ InitialiseCacheLog (List.replicate MEM_CACHE_COUNT (CBlockCache.ctor 0))
      (List.replicate MEM_ALLOCATOR_INDEXES 0),
      s.writes.length = 176 ∧ s.writes.Nodup ∧
      (∀ w ∈ s.writes, w.InBounds = true) ∧
      (∀ i < 128, Write.cacheIndex i ∈ s.writes) ∧
      (∀ c < 24, Write.pCacheBlock c ∈ s.writes ∧ Write.uBlockSize c ∈ s.writes) := by
    decide
  obtain ⟨s, e⟩ := Option.isSome_iff_exists.mp hs
  exact ⟨s, e, hp s e⟩

theorem uBlockSizeFactor_eq (s : Nat) (h1 : 1 ≤ s) (h2 : s ≤ MAX_BLOCK_SIZE) :
    uBlockSizeFactor s = (s - 1) / 8 := by
  unfold uBlockSizeFactor
  simp only [MIN_BLOCK_SIZE_STEP, UNSIGNED_RANGE, MAX_BLOCK_SIZE] at *
  split <;> omega

/-- C24 (`CMemoryMgr::InitialiseCache`, `CMemoryMgr::CalcCacheIndex`): on
arrays of the declared lengths `InitialiseCache` is defined, so no write
falls outside the two tables; its record of writes has every entry of
`_cacheIndexes` (indexes 0..127) and both members of every entry of
`_blockCaches` (ordinals 0..23), no write twice, every write inside its
table, 176 writes in all.  Over the table it leaves, for every `s` in
`[1, MAX_BLOCK_SIZE]`, `CalcCacheIndex(s)` reads `_cacheIndexes` at an index
below `MEM_ALLOCATOR_INDEXES` and returns an ordinal below
`MEM_CACHE_COUNT`. -/
theorem InitialiseCache_accesses_in_bounds (blockCaches : List CBlockCache)
    (cacheIndexes : List Nat) (hc : blockCaches.length = MEM_CACHE_COUNT)
    (hi : cacheIndexes.length = MEM_ALLOCATOR_INDEXES) :
    ∃ st, InitialiseCacheLog blockCaches cacheIndexes = some st ∧
      InitialiseCache blockCaches cacheIndexes =
        some (st.vars.blockCaches, st.vars.cacheIndexes) ∧
      st.vars.blockCaches.length = MEM_CACHE_COUNT ∧
      st.vars.cacheIndexes.length = MEM_ALLOCATOR_INDEXES ∧
      st.writes.length = 176 ∧ st.writes.Nodup ∧
      (∀ w ∈ st.writes, w.InBounds = true) ∧
      (∀ i, i < MEM_ALLOCATOR_INDEXES → Write.cacheIndex i ∈ st.writes) ∧
      (∀ c, c < MEM_CACHE_COUNT →
        Write.pCacheBlock c ∈ st.writes ∧ Write.uBlockSize c ∈ st.writes) ∧
      ∀ s, 1 ≤ s → s ≤ MAX_BLOCK_SIZE →
        uBlockSizeFactor s < MEM_ALLOCATOR_INDEXES ∧
        ∃ c, CalcCacheIndex st.vars.cacheIndexes s = some c ∧ c < MEM_CACHE_COUNT := by
  obtain ⟨d, ed, d1, d2, d3, d4, d5⟩ := InitialiseCacheLog_default
  have hrel := InitialiseCacheLog_inStep blockCaches
    (List.replicate MEM_CACHE_COUNT (CBlockCache.ctor 0)) cacheIndexes
    (List.replicate MEM_ALLOCATOR_INDEXES 0) (by simp [hc]) (by simp [hi])
  rw [ed] at hrel
  cases hst : InitialiseCacheLog blockCaches cacheIndexes with
  | none => rw [hst] at hrel; cases hrel
  | some st =>
    rw [hst] at hrel
    cases hrel with
    | some hstep =>
      obtain ⟨w0, _⟩ := hstep
      have hv := InitialiseCacheLog_vars blockCaches cacheIndexes
      rw [hst] at hv
      simp only [Option.map_some'] at hv
      have hcache : InitialiseCache blockCaches cacheIndexes =
          some (st.vars.blockCaches, st.vars.cacheIndexes) := by
        unfold InitialiseCache
        rw [← hv]
        rfl
      have htab := InitialiseCache_tables blockCaches cacheIndexes hc hi
      rw [hcache] at htab
      simp only [Option.some.injEq, Prod.mk.injEq] at htab
      refine ⟨st, rfl, hcache, ?_, ?_, by rw [w0]; exact d1, by rw [w0]; exact d2,
        by rw [w0]; exact d3, ?_, ?_, ?_⟩
      · rw [htab.1, List.length_map, classSizes_length]; rfl
      · rw [htab.2, classIndexes_length]; rfl
      · intro i hlt
        rw [w0]
        exact d4 i (by simpa [MEM_ALLOCATOR_INDEXES, MAX_BLOCK_SIZE, MIN_BLOCK_SIZE_STEP] using hlt)
      · intro c hlt
        rw [w0]
        exact d5 c (by simpa [MEM_CACHE_COUNT] using hlt)
      · intro s h1 h2
        obtain ⟨c, sz, e1, e2, _⟩ := CalcCacheIndex_class s h1 h2
        refine ⟨?_, c, by rw [htab.2]; exact e1, by simpa [MEM_CACHE_COUNT] using e2⟩
        rw [uBlockSizeFactor_eq s h1 h2]
        simp only [MEM_ALLOCATOR_INDEXES, MAX_BLOCK_SIZE, MIN_BLOCK_SIZE_STEP] at h2 ⊢
        omega

theorem InitialiseCache_accesses_in_bounds_witness :
    (List.replicate 24 (CBlockCache.ctor 0)).length = MEM_CACHE_COUNT ∧
    (List.replicate 128 0).length = MEM_ALLOCATOR_INDEXES ∧
    ∃ st, InitialiseCacheLog (List.replicate 24 (CBlockCache.ctor 0)) (List.replicate 128 0) =
        some st ∧
      st.writes.length = 176 ∧ st.writes.Nodup ∧ (∀ w ∈ st.writes, w.InBounds = true) := by
  obtain ⟨st, h1, _, _, _, h2, h3, h4, _⟩ :=
    InitialiseCache_accesses_in_bounds (List.replicate 24 (CBlockCache.ctor 0))
      (List.replicate 128 0) (by simp [MEM_CACHE_COUNT])
      (by simp [MEM_ALLOCATOR_INDEXES, MAX_BLOCK_SIZE, MIN_BLOCK_SIZE_STEP])
  exact ⟨by simp [MEM_CACHE_COUNT],
    by simp [MEM_ALLOCATOR_INDEXES, MAX_BLOCK_SIZE, MIN_BLOCK_SIZE_STEP], st, h1, h2, h3, h4⟩

end EnginePlus

namespace Urho3D

set_option maxRecDepth 100000

/-! ## `Circle::Defined` -/

theorem Flt.lt_zero_not_ge (r : Flt) (h : r.lt (Flt.fin 0) = true) :
    r.ge (Flt.fin 0) = false := by
  cases r with
  | nan => rfl
  | negInf => rfl
  | posInf => simp [Flt.lt] at h
  | fin q =>
    simp only [Flt.lt, decide_eq_true_eq] at h
    simpa [Flt.ge] using h

/-- The case that C14 amended leaves out.  On the exact arithmetic of the
line, `Merge(circle)` of a defined circle with an equal circle takes the
last branch (neither circle is strictly inside the other), divides the zero
offset by the zero distance, and the radius becomes a NaN: the merged circle
is not `Defined()`, although both circles were. -/
theorem MergeCircle_equal_circles_line :
    (Circle.MergeCircle Arith.line { center_ := Flt.fin 0, radius_ := Flt.fin 1 }
      { center_ := Flt.fin 0, radius_ := Flt.fin 1 }).Defined = false := by
  norm_num [Circle.MergeCircle, Circle.Defined, Arith.line, Flt.lt, Flt.ge, Flt.addExact,
    Flt.neg, Flt.absExact, Flt.mulExact, Flt.invExact, Flt.sgn]

end Urho3D
